import Mathlib

/-!
Verification development for the quantum-circuit designer core
(`func_2.py`): state-vector simulation, controlled-gate application,
per-qubit reduced density matrices, the entanglement feasibility planner,
and the two-phase brute-force search optimizer `mainCalc`.

Modelling conventions, fixed once for the whole file:

* Complex floating-point amplitudes are modelled exactly by `CC`, a pair of
  rationals (real and imaginary part) with the usual complex ring
  operations.  All algebraic identities the code relies on hold for any
  field, so nothing is lost by working over `ℚ`, and every definition
  stays executable.
* The square root (`np.sqrt`), used by the code only to produce scalar
  scores that are then compared, is kept as an explicit function
  parameter `sqrtf : ℚ → ℚ`; theorems about control flow hold for every
  choice of `sqrtf`, and counterexamples instantiate it on the finitely
  many values the run actually evaluates, at which it agrees with the
  real square root.
* Likewise the trigonometric primitives used by state initialization are
  a parameter record `TrigPrims`.
* Python lists are Lean `List`s; in-place mutation of an array becomes a
  returned updated list; `xs[i]` of the source becomes `xs.getD i d`
  (all source accesses are in range, so the default is never consulted).
* Float literals `1e-5` and `0.000000000001` are the exact rationals
  `1/100000` and `1/1000000000000`.
-/

/-- The empty role mark `''` of a gate-placement array. -/
def noMark : String := ""

/-- The target role mark `'TG'` of a gate-placement array. -/
def TGmark : String := "TG"

/-- The control role mark `'c'` of a gate-placement array. -/
def cMark : String := "c"

/-- The hard-coded `["cnot"]` gate label appended by phase 1 of `mainCalc`. -/
def cnotLabel : List String := ["cnot"]

/-- Exact complex numbers: a pair of rationals, with complex
multiplication.  Models the complex floating-point amplitudes of the
source. -/
@[ext] structure CC where
  re : ℚ
  im : ℚ
deriving DecidableEq

namespace CC

instance : Zero CC := ⟨⟨0, 0⟩⟩
instance : One CC := ⟨⟨1, 0⟩⟩
instance : Add CC := ⟨fun a b => ⟨a.re + b.re, a.im + b.im⟩⟩
instance : Neg CC := ⟨fun a => ⟨-a.re, -a.im⟩⟩
instance : Sub CC := ⟨fun a b => ⟨a.re - b.re, a.im - b.im⟩⟩
instance : Mul CC := ⟨fun a b => ⟨a.re * b.re - a.im * b.im, a.re * b.im + a.im * b.re⟩⟩
instance : Inhabited CC := ⟨0⟩

@[simp] theorem zero_re : (0 : CC).re = 0 := rfl
@[simp] theorem zero_im : (0 : CC).im = 0 := rfl
@[simp] theorem one_re : (1 : CC).re = 1 := rfl
@[simp] theorem one_im : (1 : CC).im = 0 := rfl
@[simp] theorem add_re (a b : CC) : (a + b).re = a.re + b.re := rfl
@[simp] theorem add_im (a b : CC) : (a + b).im = a.im + b.im := rfl
@[simp] theorem neg_re (a : CC) : (-a).re = -a.re := rfl
@[simp] theorem neg_im (a : CC) : (-a).im = -a.im := rfl
@[simp] theorem sub_re (a b : CC) : (a - b).re = a.re - b.re := rfl
@[simp] theorem sub_im (a b : CC) : (a - b).im = a.im - b.im := rfl
@[simp] theorem mul_re (a b : CC) : (a * b).re = a.re * b.re - a.im * b.im := rfl
@[simp] theorem mul_im (a b : CC) : (a * b).im = a.re * b.im + a.im * b.re := rfl

instance : CommRing CC where
  add_assoc a b c := by ext <;> simp <;> ring
  zero_add a := by ext <;> simp
  add_zero a := by ext <;> simp
  add_comm a b := by ext <;> simp <;> ring
  left_distrib a b c := by ext <;> simp <;> ring
  right_distrib a b c := by ext <;> simp <;> ring
  zero_mul a := by ext <;> simp
  mul_zero a := by ext <;> simp
  mul_assoc a b c := by ext <;> simp <;> ring
  one_mul a := by ext <;> simp
  mul_one a := by ext <;> simp
  mul_comm a b := by ext <;> simp <;> ring
  neg_add_cancel a := by ext <;> simp
  nsmul := nsmulRec
  zsmul := zsmulRec
  sub_eq_add_neg a b := by ext <;> simp <;> ring

/-- Complex conjugate (`np.conj`). -/
def conj (a : CC) : CC := ⟨a.re, -a.im⟩

@[simp] theorem conj_re (a : CC) : (conj a).re = a.re := rfl
@[simp] theorem conj_im (a : CC) : (conj a).im = -a.im := rfl

/-- Squared magnitude: the exact value of the source's
`abs(z) * abs(z)` for a complex `z`. -/
def normSq (a : CC) : ℚ := a.re ^ 2 + a.im ^ 2

theorem normSq_nonneg (a : CC) : 0 ≤ normSq a := by
  have h1 : (0 : ℚ) ≤ a.re ^ 2 := sq_nonneg _
  have h2 : (0 : ℚ) ≤ a.im ^ 2 := sq_nonneg _
  simpa [normSq] using add_nonneg h1 h2

theorem normSq_mul (a b : CC) : normSq (a * b) = normSq a * normSq b := by
  simp [normSq]; ring

end CC

/-- A 2×2 complex matrix, the `targetGateVector` of the source, with
entry `a i j` written `aij`. -/
@[ext] structure Mat2 where
  a00 : CC
  a01 : CC
  a10 : CC
  a11 : CC
deriving DecidableEq

instance : Inhabited Mat2 := ⟨⟨0, 0, 0, 0⟩⟩

/-- The Pauli-X (bit flip) matrix `X = [[0,1],[1,0]]` of the source. -/
def X : Mat2 := ⟨0, 1, 1, 0⟩

/-! ## Gate application kernel (`apply_controlled_gate`, source lines 101-186) -/

/-- The scan for the target qubit: `targetQubit = -1`, then
`for i in range(numQubit): if "TG" == gate[i]: targetQubit = i`.
`none` models `-1` (no target found); a later match overwrites an
earlier one, exactly as in the source. -/
def findTG (gate : List String) (numQubit : Nat) : Option Nat :=
  (List.range numQubit).foldl (fun t i => if gate.getD i noMark = TGmark then some i else t) none

/-- The control-state table: starting from `[1]`, every non-target qubit
doubles the array, writing `cs[j]*one0` at `2*j` and `cs[j]` at `2*j+1`,
where `one0 = 0` when that qubit is a control and `1` otherwise
(source lines 147-156).  The doubling by index is rendered as
interleaving two-element blocks, which produces the identical list. -/
def controlStateArr (gate : List String) (targetQubit numQubit : Nat) : List Nat :=
  (List.range numQubit).foldl (fun cs i =>
    if i ≠ targetQubit then
      let one0 : Nat := if gate.getD i noMark = cMark then 0 else 1
      cs.flatMap (fun c => [c * one0, c])
    else cs) [1]

/-- One pairwise update of the kernel: read `sv0 = sv[i0]`, `sv1 = sv[i1]`,
then write `sv[i0] = sv0*t00 + sv1*t01` and `sv[i1] = sv0*t10 + sv1*t11`
(source lines 165-170 and 179-184). -/
def pairStep (g : Mat2) (sv : List CC) (i0 i1 : Nat) : List CC :=
  let sv0 := sv.getD i0 0
  let sv1 := sv.getD i1 0
  (sv.set i0 (sv0 * g.a00 + sv1 * g.a01)).set i1 (sv0 * g.a10 + sv1 * g.a11)

/-- The controlled double loop (source lines 159-170): blocks `i < m`,
offsets `j < p`, update only when `controlState[i*p+j] == 1`. -/
def gateLoopCtl (g : Mat2) (cS : List Nat) (s p m : Nat) (sv : List CC) : List CC :=
  (List.range m).foldl (fun sv1 i =>
    (List.range p).foldl (fun sv2 j =>
      if cS.getD (i * p + j) 0 = 1 then pairStep g sv2 (i * s + j) (i * s + j + p) else sv2) sv1) sv

/-- The unconditional double loop (source lines 174-184). -/
def gateLoopUnc (g : Mat2) (s p m : Nat) (sv : List CC) : List CC :=
  (List.range m).foldl (fun sv1 i =>
    (List.range p).foldl (fun sv2 j =>
      pairStep g sv2 (i * s + j) (i * s + j + p)) sv1) sv

/-- `apply_controlled_gate(state_vector, gate, targetGateVector, numQubit)`
(source lines 101-186).  The in-place mutation of `state_vector` is
rendered as returning the updated list. -/
def apply_controlled_gate (state_vector : List CC) (gate : List String)
    (targetGateVector : Mat2) (numQubit : Nat) : List CC :=
  match findTG gate numQubit with
  | none => state_vector
  | some targetQubit =>
    let n := 2 ^ numQubit
    let m := 2 ^ targetQubit
    let s := n / m
    let p := s / 2
    let controlbit := (List.range numQubit).any (fun i => gate.getD i noMark == cMark)
    if controlbit then
      gateLoopCtl targetGateVector (controlStateArr gate targetQubit numQubit) s p m state_vector
    else
      gateLoopUnc targetGateVector s p m state_vector

theorem apply_x_uncontrolled_check :
    apply_controlled_gate [⟨1, 0⟩, ⟨2, 0⟩] [TGmark] X 1 = [⟨2, 0⟩, ⟨1, 0⟩] := by
  with_unfolding_all decide

theorem apply_cx_control_zero_check :
    apply_controlled_gate [1, 0, 0, 0] [cMark, TGmark] X 2 = [1, 0, 0, 0] := by
  with_unfolding_all decide

theorem apply_cx_control_one_check :
    apply_controlled_gate [0, 0, ⟨3, 0⟩, 0] [cMark, TGmark] X 2 = [0, 0, 0, ⟨3, 0⟩] := by
  with_unfolding_all decide

/-! ### List access helpers -/

theorem getD_set_self {α : Type _} {l : List α} {i : Nat} (h : i < l.length) (a d : α) :
    (l.set i a).getD i d = a := by
  simp [List.getD_eq_getElem?_getD, List.getElem?_set_self h]

theorem getD_set_ne {α : Type _} {l : List α} {i j : Nat} (h : i ≠ j) (a d : α) :
    (l.set i a).getD j d = l.getD j d := by
  simp [List.getD_eq_getElem?_getD, List.getElem?_set_ne h]

theorem getD_map_range {α : Type _} (f : Nat → α) {i n : Nat} (h : i < n) (d : α) :
    (((List.range n).map f).getD i d) = f i := by
  simp [List.getD_eq_getElem?_getD, List.getElem?_map, List.getElem?_range h]

/-! ### Characterization of the pairwise-update double loop -/

/-- One row of the kernel double loop: offsets `j < c` inside block `i`,
each conditionally pair-updated.  `gateLoopCtl`/`gateLoopUnc` are
instances with `c = p` and the respective conditions. -/
def rowFold (g : Mat2) (cond : Nat → Nat → Bool) (s p i c : Nat) (sv : List CC) : List CC :=
  (List.range c).foldl (fun sv2 j =>
    if cond i j then pairStep g sv2 (i * s + j) (i * s + j + p) else sv2) sv

/-- The kernel double loop with an abstract firing condition. -/
def condLoop (g : Mat2) (cond : Nat → Nat → Bool) (s p m : Nat) (sv : List CC) : List CC :=
  (List.range m).foldl (fun sv1 i => rowFold g cond s p i p sv1) sv

theorem pairStep_length (g : Mat2) (sv : List CC) (i0 i1 : Nat) :
    (pairStep g sv i0 i1).length = sv.length := by
  simp [pairStep]

theorem rowFold_succ (g : Mat2) (cond : Nat → Nat → Bool) (s p i c : Nat) (sv : List CC) :
    rowFold g cond s p i (c + 1) sv =
      (if cond i c then
        pairStep g (rowFold g cond s p i c sv) (i * s + c) (i * s + c + p)
      else rowFold g cond s p i c sv) := by
  simp [rowFold, List.range_succ]

theorem rowFold_length (g : Mat2) (cond : Nat → Nat → Bool) (s p i c : Nat) (sv : List CC) :
    (rowFold g cond s p i c sv).length = sv.length := by
  induction c with
  | zero => simp [rowFold]
  | succ c ih =>
    rw [rowFold_succ]
    by_cases h : cond i c = true <;> simp [h, pairStep_length, ih]

theorem rowFold_untouched (g : Mat2) (cond : Nat → Nat → Bool) (s p i c : Nat) (sv : List CC)
    (x : Nat) (hx : ∀ j < c, x ≠ i * s + j ∧ x ≠ i * s + j + p) :
    (rowFold g cond s p i c sv).getD x 0 = sv.getD x 0 := by
  induction c with
  | zero => simp [rowFold]
  | succ c ih =>
    have hxc := hx c (Nat.lt_succ_self c)
    rw [rowFold_succ]
    by_cases h : cond i c = true
    · simp only [h, if_true, pairStep]
      rw [getD_set_ne (fun he => hxc.2 he.symm), getD_set_ne (fun he => hxc.1 he.symm)]
      exact ih (fun j hj => hx j (Nat.lt_succ_of_lt hj))
    · rw [if_neg h]
      exact ih (fun j hj => hx j (Nat.lt_succ_of_lt hj))

theorem rowFold_spec (g : Mat2) (cond : Nat → Nat → Bool) (s p i c : Nat) (sv : List CC)
    (hs : s = 2 * p) (hc : c ≤ p) (hlen : i * s + s ≤ sv.length) :
    ∀ j < c,
      (rowFold g cond s p i c sv).getD (i * s + j) 0 =
        (if cond i j then
          sv.getD (i * s + j) 0 * g.a00 + sv.getD (i * s + j + p) 0 * g.a01
        else sv.getD (i * s + j) 0) ∧
      (rowFold g cond s p i c sv).getD (i * s + j + p) 0 =
        (if cond i j then
          sv.getD (i * s + j) 0 * g.a10 + sv.getD (i * s + j + p) 0 * g.a11
        else sv.getD (i * s + j + p) 0) := by
  induction c with
  | zero => intro j hj; exact absurd hj (Nat.not_lt_zero j)
  | succ c ih =>
    intro j hj
    have hcp : c < p := Nat.lt_of_lt_of_le (Nat.lt_succ_self c) hc
    have hc' : c ≤ p := Nat.le_of_lt hcp
    have hread0 : (rowFold g cond s p i c sv).getD (i * s + c) 0 = sv.getD (i * s + c) 0 := by
      apply rowFold_untouched
      intro j' hj'
      omega
    have hread1 : (rowFold g cond s p i c sv).getD (i * s + c + p) 0 =
        sv.getD (i * s + c + p) 0 := by
      apply rowFold_untouched
      intro j' hj'
      omega
    have hlenR : (rowFold g cond s p i c sv).length = sv.length := rowFold_length ..
    have hq0lt : i * s + c < sv.length := by omega
    have hq1lt : i * s + c + p < sv.length := by omega
    rcases Nat.lt_or_ge j c with hjc | hjc
    · -- untouched by the last update
      rw [rowFold_succ]
      by_cases h : cond i c = true
      · rw [if_pos h]
        have hne : ∀ x : Nat, (x = i * s + j ∨ x = i * s + j + p) →
            x ≠ i * s + c ∧ x ≠ i * s + c + p := by
          intro x hx; omega
        constructor
        · simp only [pairStep]
          rw [getD_set_ne (fun he => ((hne _ (Or.inl rfl)).2 he.symm)),
            getD_set_ne (fun he => ((hne _ (Or.inl rfl)).1 he.symm))]
          exact (ih hc' j hjc).1
        · simp only [pairStep]
          rw [getD_set_ne (fun he => ((hne _ (Or.inr rfl)).2 he.symm)),
            getD_set_ne (fun he => ((hne _ (Or.inr rfl)).1 he.symm))]
          exact (ih hc' j hjc).2
      · rw [if_neg h]
        exact ih hc' j hjc
    · -- j = c : this is the step just performed
      have hj' : j = c := by omega
      subst hj'
      rw [rowFold_succ]
      by_cases h : cond i j = true
      · rw [if_pos h, if_pos h, if_pos h]
        simp only [pairStep, hread0, hread1]
        have hne01 : i * s + j ≠ i * s + j + p := by omega
        constructor
        · rw [getD_set_ne (Ne.symm hne01), getD_set_self (by rw [hlenR]; exact hq0lt)]
        · rw [getD_set_self (by rw [List.length_set, hlenR]; exact hq1lt)]
      · rw [if_neg h, if_neg h, if_neg h]
        exact ⟨hread0, hread1⟩

/-- The first `d` blocks of the kernel double loop. -/
def condLoopUpTo (g : Mat2) (cond : Nat → Nat → Bool) (s p d : Nat) (sv : List CC) : List CC :=
  (List.range d).foldl (fun sv1 i => rowFold g cond s p i p sv1) sv

theorem condLoop_eq_upTo (g : Mat2) (cond : Nat → Nat → Bool) (s p m : Nat) (sv : List CC) :
    condLoop g cond s p m sv = condLoopUpTo g cond s p m sv := rfl

theorem condLoopUpTo_succ (g : Mat2) (cond : Nat → Nat → Bool) (s p d : Nat) (sv : List CC) :
    condLoopUpTo g cond s p (d + 1) sv =
      rowFold g cond s p d p (condLoopUpTo g cond s p d sv) := by
  simp [condLoopUpTo, List.range_succ]

theorem condLoopUpTo_length (g : Mat2) (cond : Nat → Nat → Bool) (s p d : Nat) (sv : List CC) :
    (condLoopUpTo g cond s p d sv).length = sv.length := by
  induction d with
  | zero => simp [condLoopUpTo]
  | succ d ih => rw [condLoopUpTo_succ, rowFold_length, ih]

theorem condLoopUpTo_untouched (g : Mat2) (cond : Nat → Nat → Bool) (s p d : Nat) (sv : List CC)
    (hs : s = 2 * p) (x : Nat) (hx : d * s ≤ x) :
    (condLoopUpTo g cond s p d sv).getD x 0 = sv.getD x 0 := by
  induction d with
  | zero => simp [condLoopUpTo]
  | succ d ih =>
    have hds : (d + 1) * s = d * s + s := by ring
    rw [condLoopUpTo_succ]
    rw [rowFold_untouched]
    · exact ih (by omega)
    · intro j hj
      constructor <;> omega

theorem condLoopUpTo_spec (g : Mat2) (cond : Nat → Nat → Bool) (s p d m : Nat) (sv : List CC)
    (hs : s = 2 * p) (hp : 0 < p) (hd : d ≤ m) (hlen : m * s ≤ sv.length) :
    ∀ i < d, ∀ j < p,
      (condLoopUpTo g cond s p d sv).getD (i * s + j) 0 =
        (if cond i j then
          sv.getD (i * s + j) 0 * g.a00 + sv.getD (i * s + j + p) 0 * g.a01
        else sv.getD (i * s + j) 0) ∧
      (condLoopUpTo g cond s p d sv).getD (i * s + j + p) 0 =
        (if cond i j then
          sv.getD (i * s + j) 0 * g.a10 + sv.getD (i * s + j + p) 0 * g.a11
        else sv.getD (i * s + j + p) 0) := by
  induction d with
  | zero => intro i hi; exact absurd hi (Nat.not_lt_zero i)
  | succ d ih =>
    intro i hi j hj
    have hdm : d ≤ m := Nat.le_of_succ_le hd
    have hblock : d * s + s ≤ sv.length := by
      have : (d + 1) * s ≤ m * s := Nat.mul_le_mul_right s hd
      calc d * s + s = (d + 1) * s := by ring
        _ ≤ m * s := this
        _ ≤ sv.length := hlen
    rw [condLoopUpTo_succ]
    rcases Nat.lt_or_ge i d with hid | hid
    · -- block i was processed earlier; block d leaves it untouched
      have h0 : ∀ x : Nat, x < d * s →
          (rowFold g cond s p d p (condLoopUpTo g cond s p d sv)).getD x 0 =
            (condLoopUpTo g cond s p d sv).getD x 0 := by
        intro x hx
        apply rowFold_untouched
        intro j' hj'
        constructor <;> omega
      have h1 : i * s + s ≤ d * s := by
        calc i * s + s = (i + 1) * s := by ring
          _ ≤ d * s := Nat.mul_le_mul_right s hid
      have hi0 : i * s + j < d * s := by omega
      have hi1 : i * s + j + p < d * s := by omega
      rw [h0 _ hi0, h0 _ hi1]
      exact ih hdm i hid j hj
    · -- i = d : block d acting on a state unchanged at its own indices
      have hi' : i = d := by omega
      subst hi'
      have hu : ∀ x : Nat, i * s ≤ x →
          (condLoopUpTo g cond s p i sv).getD x 0 = sv.getD x 0 :=
        fun x hx => condLoopUpTo_untouched g cond s p i sv hs x hx
      have := rowFold_spec g cond s p i p (condLoopUpTo g cond s p i sv) hs (le_refl p)
        (by rw [condLoopUpTo_length]; exact hblock) j hj
      rw [this.1, this.2,
        hu (i * s + j) (Nat.le_add_right _ _),
        hu (i * s + j + p) (by omega)]
      exact ⟨rfl, rfl⟩

theorem gateLoopCtl_eq_condLoop (g : Mat2) (cS : List Nat) (s p m : Nat) (sv : List CC) :
    gateLoopCtl g cS s p m sv =
      condLoop g (fun i j => decide (cS.getD (i * p + j) 0 = 1)) s p m sv := by
  unfold gateLoopCtl condLoop rowFold
  apply List.foldl_ext
  intro a i _
  apply List.foldl_ext
  intro b j _
  simp

theorem gateLoopUnc_eq_condLoop (g : Mat2) (s p m : Nat) (sv : List CC) :
    gateLoopUnc g s p m sv = condLoop g (fun _ _ => true) s p m sv := by
  unfold gateLoopUnc condLoop rowFold
  apply List.foldl_ext
  intro a i _
  apply List.foldl_ext
  intro b j _
  simp

/-! ### The control-state table characterization -/

/-- Prefix of the control-state construction: only qubits `< w` processed. -/
def csAux (gate : List String) (tq w : Nat) : List Nat :=
  (List.range w).foldl (fun cs i =>
    if i ≠ tq then
      let one0 : Nat := if gate.getD i noMark = cMark then 0 else 1
      cs.flatMap (fun c => [c * one0, c])
    else cs) [1]

theorem controlStateArr_eq_csAux (gate : List String) (tq nq : Nat) :
    controlStateArr gate tq nq = csAux gate tq nq := rfl

theorem csAux_succ (gate : List String) (tq w : Nat) :
    csAux gate tq (w + 1) =
      (if w ≠ tq then
        (csAux gate tq w).flatMap
          (fun c => [c * (if gate.getD w noMark = cMark then 0 else 1), c])
      else csAux gate tq w) := by
  simp only [csAux, List.range_succ, List.foldl_append, List.foldl_cons, List.foldl_nil]

/-- Non-target qubit count among qubits `0, …, w-1` (with target `tq`). -/
def ntCount (tq w : Nat) : Nat := if w ≤ tq then w else w - 1

theorem ntCount_succ_ne (tq w : Nat) (h : w ≠ tq) :
    ntCount tq (w + 1) = ntCount tq w + 1 := by
  unfold ntCount
  split <;> split <;> omega

theorem ntCount_succ_eq (tq : Nat) : ntCount tq (tq + 1) = ntCount tq tq := by
  unfold ntCount
  split <;> split <;> omega

theorem ntCount_mono (tq : Nat) {w w' : Nat} (h : w ≤ w') : ntCount tq w ≤ ntCount tq w' := by
  unfold ntCount
  split <;> split <;> omega

theorem ntCount_lt (tq : Nat) {q w : Nat} (hq : q < w) (hne : q ≠ tq) :
    ntCount tq q < ntCount tq w := by
  have h1 : ntCount tq (q + 1) = ntCount tq q + 1 := ntCount_succ_ne tq q hne
  have h2 : ntCount tq (q + 1) ≤ ntCount tq w := ntCount_mono tq hq
  omega

theorem flatMap_pair_length (f g : Nat → Nat) (cs : List Nat) :
    (cs.flatMap (fun c => [f c, g c])).length = 2 * cs.length := by
  induction cs with
  | nil => simp
  | cons c cs ih => simp [ih]; omega

theorem flatMap_pair_getD (f g : Nat → Nat) (cs : List Nat) :
    ∀ y, y < 2 * cs.length →
      (cs.flatMap (fun c => [f c, g c])).getD y 0 =
        (if y % 2 = 0 then f (cs.getD (y / 2) 0) else g (cs.getD (y / 2) 0)) := by
  induction cs with
  | nil => intro y hy; simp at hy
  | cons c cs ih =>
    intro y hy
    match y with
    | 0 => simp
    | 1 => simp
    | Nat.succ (Nat.succ y') =>
      have h1 : (y' + 2) % 2 = y' % 2 := by omega
      have h2 : (y' + 2) / 2 = y' / 2 + 1 := by omega
      have h3 : y' < 2 * cs.length := by simp at hy; omega
      simp only [List.flatMap_cons, List.cons_append, List.nil_append]
      show (cs.flatMap (fun c => [f c, g c])).getD y' 0 = _
      rw [ih y' h3, h1, h2]
      simp

/-- The condition that the control-state prefix table encodes at index
`y`: every control qubit among the first `w` qubits has its bit set. -/
def csCond (gate : List String) (tq w y : Nat) : Prop :=
  ∀ q < w, q ≠ tq → gate.getD q noMark = cMark →
    y.testBit (ntCount tq w - 1 - ntCount tq q) = true

instance (gate : List String) (tq w y : Nat) : Decidable (csCond gate tq w y) := by
  unfold csCond
  infer_instance

theorem csCond_succ_target (gate : List String) (tq y : Nat) :
    csCond gate tq (tq + 1) y ↔ csCond gate tq tq y := by
  unfold csCond
  rw [ntCount_succ_eq]
  constructor
  · intro h q hq hne hc
    exact h q (by omega) hne hc
  · intro h q hq hne hc
    have hq' : q < tq := by omega
    exact h q hq' hne hc

theorem csCond_succ_ne (gate : List String) (tq w y : Nat) (hw : w ≠ tq) :
    csCond gate tq (w + 1) y ↔
      (csCond gate tq w (y / 2) ∧ (gate.getD w noMark = cMark → y % 2 = 1)) := by
  have hsu := ntCount_succ_ne tq w hw
  unfold csCond
  constructor
  · intro h
    refine ⟨fun q hq hne hc => ?_, fun hc => ?_⟩
    · have hb := h q (by omega) hne hc
      have hlt := ntCount_lt tq hq hne
      have h3 : ntCount tq (w + 1) - 1 - ntCount tq q =
          (ntCount tq w - 1 - ntCount tq q) + 1 := by omega
      rw [h3, Nat.testBit_add_one] at hb
      exact hb
    · have hb := h w (Nat.lt_succ_self w) hw hc
      have h3 : ntCount tq (w + 1) - 1 - ntCount tq w = 0 := by omega
      rw [h3, Nat.testBit_zero] at hb
      exact of_decide_eq_true hb
  · rintro ⟨h1, h2⟩ q hq hne hc
    rcases Nat.lt_or_ge q w with hqw | hqw
    · have hb := h1 q hqw hne hc
      have hlt := ntCount_lt tq hqw hne
      have h3 : ntCount tq (w + 1) - 1 - ntCount tq q =
          (ntCount tq w - 1 - ntCount tq q) + 1 := by omega
      rw [h3, Nat.testBit_add_one]
      exact hb
    · have hqw' : q = w := by omega
      subst hqw'
      have h3 : ntCount tq (q + 1) - 1 - ntCount tq q = 0 := by omega
      rw [h3, Nat.testBit_zero]
      exact decide_eq_true (h2 hc)

theorem csAux_length (gate : List String) (tq : Nat) :
    ∀ w, (csAux gate tq w).length = 2 ^ ntCount tq w := by
  intro w
  induction w with
  | zero => simp [csAux, ntCount]
  | succ w ih =>
    rw [csAux_succ]
    by_cases hw : w = tq
    · subst hw
      rw [if_neg (by simp), ih, ntCount_succ_eq]
    · rw [if_pos hw, flatMap_pair_length, ih, ntCount_succ_ne tq w hw, Nat.pow_succ]
      ring

theorem csAux_getD (gate : List String) (tq : Nat) :
    ∀ w y, y < 2 ^ ntCount tq w →
      (csAux gate tq w).getD y 0 = if csCond gate tq w y then 1 else 0 := by
  intro w
  induction w with
  | zero =>
    intro y hy
    simp only [ntCount, Nat.le_zero, if_pos (Nat.zero_le tq), pow_zero] at hy
    interval_cases y
    have hc : csCond gate tq 0 0 := fun q hq => absurd hq (Nat.not_lt_zero q)
    simp [csAux, if_pos hc]
  | succ w ih =>
    intro y hy
    rw [csAux_succ]
    by_cases hw : w = tq
    · subst hw
      rw [if_neg (by simp)]
      rw [ntCount_succ_eq] at hy
      rw [ih y hy]
      by_cases hc : csCond gate w w y
      · rw [if_pos hc, if_pos ((csCond_succ_target gate w y).2 hc)]
      · rw [if_neg hc, if_neg (fun h => hc ((csCond_succ_target gate w y).1 h))]
    · rw [if_pos hw]
      have hsu := ntCount_succ_ne tq w hw
      have hy2 : y < 2 * (csAux gate tq w).length := by
        rw [csAux_length gate tq w]
        calc y < 2 ^ ntCount tq (w + 1) := hy
          _ = 2 * 2 ^ ntCount tq w := by rw [hsu, Nat.pow_succ]; ring
      have hyhalf : y / 2 < 2 ^ ntCount tq w := by
        have h2 : (2:Nat) ^ ntCount tq (w+1) = 2 * 2 ^ ntCount tq w := by
          rw [hsu, Nat.pow_succ]; ring
        omega
      rw [flatMap_pair_getD _ _ _ y hy2, ih (y / 2) hyhalf]
      by_cases hc : gate.getD w noMark = cMark
      · simp only [if_pos hc]
        by_cases hp : y % 2 = 0
        · rw [if_pos hp]
          have hB : ¬(gate.getD w noMark = cMark → y % 2 = 1) :=
            fun h => absurd (h hc) (by omega)
          rw [if_neg (fun hAB => hB ((csCond_succ_ne gate tq w y hw).1 hAB).2)]
          by_cases hA : csCond gate tq w (y / 2) <;> simp [hA]
        · rw [if_neg hp]
          have hp1 : y % 2 = 1 := by omega
          by_cases hA : csCond gate tq w (y / 2)
          · rw [if_pos hA,
              if_pos ((csCond_succ_ne gate tq w y hw).2 ⟨hA, fun _ => hp1⟩)]
          · rw [if_neg hA,
              if_neg (fun hAB => hA ((csCond_succ_ne gate tq w y hw).1 hAB).1)]
      · simp only [if_neg hc]
        have hiff : csCond gate tq (w + 1) y ↔ csCond gate tq w (y / 2) := by
          rw [csCond_succ_ne gate tq w y hw]
          constructor
          · exact fun h => h.1
          · exact fun h => ⟨h, fun hcc => absurd hcc hc⟩
        by_cases hp : y % 2 = 0
        · rw [if_pos hp]
          by_cases hA : csCond gate tq w (y / 2)
          · rw [if_pos hA, if_pos (hiff.2 hA)]
          · rw [if_neg hA, if_neg (fun h => hA (hiff.1 h))]
        · rw [if_neg hp]
          by_cases hA : csCond gate tq w (y / 2)
          · rw [if_pos hA, if_pos (hiff.2 hA)]
          · rw [if_neg hA, if_neg (fun h => hA (hiff.1 h))]

/-! ### Target-qubit scan -/

theorem findTG_succ (gate : List String) (n : Nat) :
    findTG gate (n + 1) =
      (if gate.getD n noMark = TGmark then some n else findTG gate n) := by
  simp only [findTG, List.range_succ, List.foldl_append, List.foldl_cons, List.foldl_nil]

theorem findTG_none_iff (gate : List String) (nq : Nat) :
    findTG gate nq = none ↔ ∀ q < nq, gate.getD q noMark ≠ TGmark := by
  induction nq with
  | zero =>
    constructor
    · intro _ q hq; exact absurd hq (Nat.not_lt_zero q)
    · intro _; rfl
  | succ n ih =>
    rw [findTG_succ]
    by_cases h : gate.getD n noMark = TGmark
    · rw [if_pos h]
      constructor
      · intro hc; exact absurd hc (by simp)
      · intro hall; exact absurd h (hall n (Nat.lt_succ_self n))
    · rw [if_neg h, ih]
      constructor
      · intro hall q hq
        rcases Nat.lt_or_ge q n with h1 | h1
        · exact hall q h1
        · have : q = n := by omega
          subst this; exact h
      · intro hall q hq; exact hall q (Nat.lt_succ_of_lt hq)

theorem findTG_some (gate : List String) (nq t : Nat) (h : findTG gate nq = some t) :
    t < nq ∧ gate.getD t noMark = TGmark := by
  induction nq with
  | zero => exact absurd h (by simp [findTG])
  | succ n ih =>
    rw [findTG_succ] at h
    by_cases h1 : gate.getD n noMark = TGmark
    · rw [if_pos h1] at h
      have ht : t = n := by
        have := Option.some_injective Nat h.symm
        omega
      subst ht
      exact ⟨Nat.lt_succ_self t, h1⟩
    · rw [if_neg h1] at h
      obtain ⟨h2, h3⟩ := ih h
      exact ⟨Nat.lt_succ_of_lt h2, h3⟩

/-! ### From control-state indices to state-vector indices -/

theorem bit_transfer (nq tq q i j : Nat) (htq : tq < nq) (hq : q < nq) (hne : q ≠ tq)
    (hj : j < 2 ^ (nq - tq - 1)) :
    (i * 2 ^ (nq - tq - 1) + j).testBit (nq - 2 - ntCount tq q) =
      (i * 2 ^ (nq - tq) + j).testBit (nq - 1 - q) := by
  have ha1 : nq - tq = (nq - tq - 1) + 1 := by omega
  have hj' : j < 2 ^ (nq - tq) := by
    calc j < 2 ^ (nq - tq - 1) := hj
      _ ≤ 2 ^ (nq - tq) := Nat.pow_le_pow_right (by omega) (by omega)
  rw [Nat.mul_comm i, Nat.mul_comm i,
    Nat.testBit_mul_pow_two_add i hj, Nat.testBit_mul_pow_two_add i hj']
  rcases Nat.lt_or_ge q tq with hlt | hge
  · -- q below the target: bit taken from the block part `i`
    have hcnt : ntCount tq q = q := by unfold ntCount; rw [if_pos (le_of_lt hlt)]
    rw [hcnt]
    rw [if_neg (by omega), if_neg (by omega)]
    congr 1
    omega
  · -- q above the target: bit taken from the offset part `j`
    have hgt : tq < q := by omega
    have hcnt : ntCount tq q = q - 1 := by unfold ntCount; rw [if_neg (by omega)]
    rw [hcnt]
    rw [if_pos (by omega), if_pos (by omega)]
    congr 1
    omega

theorem ctl_entry_iff (gate : List String) (nq tq : Nat) (htq : tq < nq)
    (hTG : gate.getD tq noMark = TGmark) (i j : Nat) (hi : i < 2 ^ tq)
    (hj : j < 2 ^ (nq - tq - 1)) :
    (controlStateArr gate tq nq).getD (i * 2 ^ (nq - tq - 1) + j) 0 = 1 ↔
      ∀ q < nq, gate.getD q noMark = cMark →
        (i * 2 ^ (nq - tq) + j).testBit (nq - 1 - q) = true := by
  have hnt : ntCount tq nq = nq - 1 := by unfold ntCount; rw [if_neg (by omega)]
  have hTGne : TGmark ≠ cMark := by decide
  have hy : i * 2 ^ (nq - tq - 1) + j < 2 ^ ntCount tq nq := by
    rw [hnt]
    have hpow : (2 : Nat) ^ tq * 2 ^ (nq - tq - 1) = 2 ^ (nq - 1) := by
      rw [← pow_add]; congr 1; omega
    have hsplit : (i + 1) * 2 ^ (nq - tq - 1) =
        i * 2 ^ (nq - tq - 1) + 2 ^ (nq - tq - 1) := by ring
    calc i * 2 ^ (nq - tq - 1) + j < (i + 1) * 2 ^ (nq - tq - 1) := by omega
      _ ≤ 2 ^ tq * 2 ^ (nq - tq - 1) := Nat.mul_le_mul_right _ hi
      _ = 2 ^ (nq - 1) := hpow
  rw [controlStateArr_eq_csAux, csAux_getD gate tq nq _ hy]
  have hposidx : ∀ q : Nat, ntCount tq nq - 1 - ntCount tq q = nq - 2 - ntCount tq q := by
    intro q; omega
  constructor
  · intro h1 q hq hc
    have hP : csCond gate tq nq (i * 2 ^ (nq - tq - 1) + j) := by
      by_contra hP
      rw [if_neg hP] at h1
      exact absurd h1 (by omega)
    have hneq : q ≠ tq := by
      intro he; rw [he, hTG] at hc; exact hTGne hc
    have hb := hP q hq hneq hc
    rw [hposidx q, bit_transfer nq tq q i j htq hq hneq hj] at hb
    exact hb
  · intro h1
    have hP : csCond gate tq nq (i * 2 ^ (nq - tq - 1) + j) := by
      intro q hq hneq hc
      rw [hposidx q, bit_transfer nq tq q i j htq hq hneq hj]
      exact h1 q hq hc
    rw [if_pos hP]

theorem apply_controlled_gate_eq_some (sv : List CC) (gate : List String) (g : Mat2)
    (nq t : Nat) (hfind : findTG gate nq = some t) :
    apply_controlled_gate sv gate g nq =
      (if (List.range nq).any (fun i => gate.getD i noMark == cMark) then
        gateLoopCtl g (controlStateArr gate t nq) (2 ^ nq / 2 ^ t) (2 ^ nq / 2 ^ t / 2)
          (2 ^ t) sv
      else gateLoopUnc g (2 ^ nq / 2 ^ t) (2 ^ nq / 2 ^ t / 2) (2 ^ t) sv) := by
  unfold apply_controlled_gate
  rw [hfind]

/-- **C1** Full contract of gate application: on a state vector of length
`2^numQubit`, `apply_controlled_gate` is the identity when no qubit is
marked `TG`; otherwise, with target `t`, `stride = 2^numQubit / 2^t`
and `half = stride / 2`, for every block `i < 2^t` and offset
`j < half` the amplitude pair at `(i*stride+j, i*stride+j+half)` is
replaced by `(sv0*t00 + sv1*t01, sv0*t10 + sv1*t11)` exactly when every
qubit marked `c` has its bit set in the index, and is left untouched
otherwise — covering zero, one, or several simultaneous controls. -/
theorem apply_controlled_gate_contract
    (sv : List CC) (gate : List String) (g : Mat2) (nq : Nat)
    (hlen : sv.length = 2 ^ nq) :
    ((∀ q < nq, gate.getD q noMark ≠ TGmark) →
        apply_controlled_gate sv gate g nq = sv) ∧
    ∀ t, findTG gate nq = some t →
      ∀ i < 2 ^ t, ∀ j < 2 ^ nq / 2 ^ t / 2,
        ((∀ q < nq, gate.getD q noMark = cMark →
            (i * (2 ^ nq / 2 ^ t) + j).testBit (nq - 1 - q) = true) →
          (apply_controlled_gate sv gate g nq).getD (i * (2 ^ nq / 2 ^ t) + j) 0 =
              sv.getD (i * (2 ^ nq / 2 ^ t) + j) 0 * g.a00 +
                sv.getD (i * (2 ^ nq / 2 ^ t) + j + 2 ^ nq / 2 ^ t / 2) 0 * g.a01 ∧
            (apply_controlled_gate sv gate g nq).getD
                (i * (2 ^ nq / 2 ^ t) + j + 2 ^ nq / 2 ^ t / 2) 0 =
              sv.getD (i * (2 ^ nq / 2 ^ t) + j) 0 * g.a10 +
                sv.getD (i * (2 ^ nq / 2 ^ t) + j + 2 ^ nq / 2 ^ t / 2) 0 * g.a11) ∧
        ((¬ ∀ q < nq, gate.getD q noMark = cMark →
            (i * (2 ^ nq / 2 ^ t) + j).testBit (nq - 1 - q) = true) →
          (apply_controlled_gate sv gate g nq).getD (i * (2 ^ nq / 2 ^ t) + j) 0 =
              sv.getD (i * (2 ^ nq / 2 ^ t) + j) 0 ∧
            (apply_controlled_gate sv gate g nq).getD
                (i * (2 ^ nq / 2 ^ t) + j + 2 ^ nq / 2 ^ t / 2) 0 =
              sv.getD (i * (2 ^ nq / 2 ^ t) + j + 2 ^ nq / 2 ^ t / 2) 0) := by
  constructor
  · intro hno
    have hfind : findTG gate nq = none := (findTG_none_iff gate nq).2 hno
    unfold apply_controlled_gate
    rw [hfind]
  · intro t hfind i hi j hj
    obtain ⟨htlt, hTG⟩ := findTG_some gate nq t hfind
    have hsd : 2 ^ nq / 2 ^ t = 2 ^ (nq - t) :=
      Nat.pow_div (le_of_lt htlt) (by omega)
    have hpd : 2 ^ nq / 2 ^ t / 2 = 2 ^ (nq - t - 1) := by
      rw [hsd]
      have h1 : (2 : Nat) ^ (nq - t) = 2 ^ (nq - t - 1) * 2 := by
        rw [← pow_succ]; congr 1; omega
      rw [h1]
      exact Nat.mul_div_cancel _ (by omega)
    rw [apply_controlled_gate_eq_some sv gate g nq t hfind]
    rw [hpd] at hj ⊢
    rw [hsd]
    have hsp : (2 : Nat) ^ (nq - t) = 2 * 2 ^ (nq - t - 1) := by
      rw [← pow_succ']; congr 1; omega
    have hppos : (0 : Nat) < 2 ^ (nq - t - 1) := Nat.two_pow_pos _
    have hms : 2 ^ t * 2 ^ (nq - t) ≤ sv.length := by
      rw [hlen, ← pow_add]
      apply le_of_eq; congr 1; omega
    cases hctl : (List.range nq).any (fun i => gate.getD i noMark == cMark) with
    | true =>
      rw [if_pos rfl]
      rw [gateLoopCtl_eq_condLoop, condLoop_eq_upTo]
      have hspec := condLoopUpTo_spec g
        (fun a b => decide ((controlStateArr gate t nq).getD (a * 2 ^ (nq - t - 1) + b) 0 = 1))
        (2 ^ (nq - t)) (2 ^ (nq - t - 1)) (2 ^ t) (2 ^ t) sv hsp hppos (le_refl _) hms
        i hi j hj
      have hiff := ctl_entry_iff gate nq t htlt hTG i j hi hj
      constructor
      · intro hok
        have hcs : (controlStateArr gate t nq).getD (i * 2 ^ (nq - t - 1) + j) 0 = 1 :=
          hiff.2 hok
        have hc' : (decide ((controlStateArr gate t nq).getD
            (i * 2 ^ (nq - t - 1) + j) 0 = 1)) = true := decide_eq_true hcs
        simp only [hc', eq_self_iff_true, if_true] at hspec
        exact hspec
      · intro hbad
        have hcs : ¬((controlStateArr gate t nq).getD (i * 2 ^ (nq - t - 1) + j) 0 = 1) :=
          fun h => hbad (hiff.1 h)
        have hc' : (decide ((controlStateArr gate t nq).getD
            (i * 2 ^ (nq - t - 1) + j) 0 = 1)) = false := decide_eq_false hcs
        simp only [hc', Bool.false_eq_true, if_false] at hspec
        exact hspec
    | false =>
      rw [if_neg (by simp)]
      rw [gateLoopUnc_eq_condLoop, condLoop_eq_upTo]
      have hspec := condLoopUpTo_spec g (fun _ _ => true)
        (2 ^ (nq - t)) (2 ^ (nq - t - 1)) (2 ^ t) (2 ^ t) sv hsp hppos (le_refl _) hms
        i hi j hj
      rw [if_pos rfl, if_pos rfl] at hspec
      have hnoc : ∀ q < nq, gate.getD q noMark ≠ cMark := by
        intro q hq hc
        have hx : (List.range nq).any (fun i => gate.getD i noMark == cMark) = true := by
          rw [List.any_eq_true]
          exact ⟨q, List.mem_range.2 hq, beq_iff_eq.mpr hc⟩
        rw [hctl] at hx
        exact absurd hx (by simp)
      constructor
      · intro _; exact hspec
      · intro hbad
        exact absurd (fun q hq hc => absurd hc (hnoc q hq)) hbad

theorem apply_controlled_gate_contract_witness :
    (([⟨1, 0⟩, ⟨2, 0⟩] : List CC).length = 2 ^ 1) ∧
      (apply_controlled_gate [⟨1, 0⟩, ⟨2, 0⟩] [TGmark] X 1).getD 0 0 =
          ([⟨1, 0⟩, ⟨2, 0⟩] : List CC).getD 0 0 * X.a00 +
            ([⟨1, 0⟩, ⟨2, 0⟩] : List CC).getD 1 0 * X.a01 := by
  refine ⟨by decide, ?_⟩
  have h := (apply_controlled_gate_contract [⟨1, 0⟩, ⟨2, 0⟩] [TGmark] X 1 (by decide)).2
    0 (by with_unfolding_all decide) 0 (by decide) 0 (by decide)
  have h2 := (h.1 (by with_unfolding_all decide)).1
  simpa using h2

/-! ## Reduced density matrices (`partical_trace`, source lines 189-233) -/

/-- `partical_trace(state, numQubit)` (source lines 189-233).  For each
qubit `i` it computes, with `n = 2^numQubit`, `m = 2^i`, `s = n/m`,
`p = s/2`:
* the off-diagonal `[0][1]` entry as the double loop
  `Σ_{j<m} Σ_{k<p} state[j*s+k] * conj(state[j*s+k+p])`;
* the diagonal `[0][0]` entry as `Σ` of `abs(state[j])²` over all `j`
  whose bit `numQubit-i-1` is clear (the source tests
  `(~j >> (numQubit-i-1)) & 1`), where `abs(z)*abs(z)` is `normSq z`;
* `[1][0]` as the conjugate of `[0][1]` and `[1][1]` as
  `1 - abs([0][0])`; the `[0][0]` entry is a real number, so the
  source's complex `abs` is the rational absolute value of its real
  part.
The source fills one `[numQubit,2,2]` array with separate loops over
qubits; collecting the same sums per qubit with a `map` produces the
identical matrix list. -/
def partical_trace (state : List CC) (numQubit : Nat) : List Mat2 :=
  let n := 2 ^ numQubit
  (List.range numQubit).map (fun i =>
    let m := 2 ^ i
    let s := n / m
    let p := s / 2
    let offd : CC :=
      (List.range m).foldl (fun a1 j =>
        (List.range p).foldl
          (fun a2 k => a2 + state.getD (j * s + k) 0 * CC.conj (state.getD (j * s + k + p) 0))
          a1) 0
    let d00 : ℚ :=
      (List.range n).foldl (fun acc j =>
        if j.testBit (numQubit - i - 1) = false then acc + CC.normSq (state.getD j 0)
        else acc) 0
    { a00 := ⟨d00, 0⟩, a01 := offd, a10 := CC.conj offd, a11 := ⟨1 - |d00|, 0⟩ })

theorem partical_trace_ground_state_check :
    partical_trace [⟨1, 0⟩, 0, 0, 0] 2 =
      [⟨⟨1, 0⟩, 0, 0, 0⟩, ⟨⟨1, 0⟩, 0, 0, 0⟩] := by
  with_unfolding_all decide

/-! ### Fold-to-sum conversions -/

theorem foldl_add_eq_sum {M : Type _} [AddCommMonoid M] (f : Nat → M) (n : Nat) :
    ∀ c : M, (List.range n).foldl (fun a j => a + f j) c = c + ∑ j ∈ Finset.range n, f j := by
  induction n with
  | zero => intro c; simp
  | succ n ih =>
    intro c
    rw [List.range_succ, List.foldl_append, List.foldl_cons, List.foldl_nil, ih,
      Finset.sum_range_succ, add_assoc]

theorem foldl_add_ite_eq_sum (q : Nat → Prop) [DecidablePred q] (f : Nat → ℚ) (n : Nat) :
    (List.range n).foldl (fun a j => if q j then a + f j else a) 0 =
      ∑ j ∈ (Finset.range n).filter q, f j := by
  have h1 : ∀ c : ℚ, (List.range n).foldl (fun a j => if q j then a + f j else a) c =
      (List.range n).foldl (fun a j => a + (if q j then f j else 0)) c := by
    intro c
    apply List.foldl_ext
    intro a b _
    by_cases hb : q b <;> simp [hb]
  rw [h1, foldl_add_eq_sum, zero_add, Finset.sum_filter]

theorem lt_pow_of_testBit_false {y a : Nat} (h1 : y < 2 ^ (a + 1)) (h2 : y.testBit a = false) :
    y < 2 ^ a := by
  by_contra h3
  push_neg at h3
  have hdiv : y / 2 ^ a = 1 := by
    have h4 : y < 2 ^ a * 2 := by
      calc y < 2 ^ (a + 1) := h1
        _ = 2 ^ a * 2 := by rw [pow_succ]
    exact Nat.div_eq_of_lt_le (by omega) (by omega)
  rw [Nat.testBit_to_div_mod, hdiv] at h2
  simp at h2

theorem double_sum_filter {M : Type _} [AddCommMonoid M] (F : Nat → M) (m a : Nat) :
    ∑ j ∈ Finset.range m, ∑ k ∈ Finset.range (2 ^ a), F (j * (2 ^ (a + 1)) + k) =
      ∑ x ∈ (Finset.range (m * 2 ^ (a + 1))).filter (fun x => x.testBit a = false), F x := by
  rw [← Finset.sum_product']
  have hs : (0 : Nat) < 2 ^ (a + 1) := Nat.two_pow_pos _
  have hps : (2 : Nat) ^ a < 2 ^ (a + 1) := Nat.pow_lt_pow_right (by omega) (Nat.lt_succ_self a)
  refine Finset.sum_nbij' (fun y => y.1 * 2 ^ (a + 1) + y.2) (fun x => (x / 2 ^ (a + 1), x % 2 ^ (a + 1)))
    ?_ ?_ ?_ ?_ ?_
  · rintro ⟨j, k⟩ hjk
    rw [Finset.mem_product, Finset.mem_range, Finset.mem_range] at hjk
    rw [Finset.mem_filter, Finset.mem_range]
    constructor
    · calc j * 2 ^ (a + 1) + k < j * 2 ^ (a + 1) + 2 ^ (a + 1) :=
            Nat.add_lt_add_left (lt_trans hjk.2 hps) _
        _ = (j + 1) * 2 ^ (a + 1) := by ring
        _ ≤ m * 2 ^ (a + 1) := Nat.mul_le_mul_right _ hjk.1
    · show (j * 2 ^ (a + 1) + k).testBit a = false
      rw [Nat.mul_comm j, Nat.testBit_mul_pow_two_add j (lt_trans hjk.2 hps),
        if_pos (Nat.lt_succ_self a)]
      exact Nat.testBit_lt_two_pow hjk.2
  · intro x hx
    rw [Finset.mem_filter, Finset.mem_range] at hx
    rw [Finset.mem_product, Finset.mem_range, Finset.mem_range]
    constructor
    · exact Nat.div_lt_of_lt_mul (by rw [Nat.mul_comm] at hx; exact hx.1)
    · have h1 : x % 2 ^ (a + 1) < 2 ^ (a + 1) := Nat.mod_lt _ hs
      have h2 : (x % 2 ^ (a + 1)).testBit a = false := by
        rw [Nat.testBit_mod_two_pow]
        simp [Nat.lt_succ_self a, hx.2]
      exact lt_pow_of_testBit_false h1 h2
  · rintro ⟨j, k⟩ hjk
    rw [Finset.mem_product, Finset.mem_range, Finset.mem_range] at hjk
    have h1 : (j * 2 ^ (a + 1) + k) / 2 ^ (a + 1) = j := by
      rw [Nat.mul_comm j, Nat.mul_add_div hs, Nat.div_eq_of_lt (lt_trans hjk.2 hps)]
      omega
    have h2 : (j * 2 ^ (a + 1) + k) % 2 ^ (a + 1) = k := by
      rw [Nat.mul_comm j, Nat.mul_add_mod, Nat.mod_eq_of_lt (lt_trans hjk.2 hps)]
    show ((j * 2 ^ (a + 1) + k) / 2 ^ (a + 1), (j * 2 ^ (a + 1) + k) % 2 ^ (a + 1)) = (j, k)
    rw [h1, h2]
  · intro x _
    show x / 2 ^ (a + 1) * 2 ^ (a + 1) + x % 2 ^ (a + 1) = x
    rw [Nat.mul_comm]
    exact Nat.div_add_mod x (2 ^ (a + 1))
  · rintro ⟨j, k⟩ _
    rfl

theorem partical_trace_getD (state : List CC) (nq i : Nat) (hi : i < nq) :
    (partical_trace state nq).getD i default =
      { a00 := ⟨(List.range (2 ^ nq)).foldl (fun acc j =>
            if j.testBit (nq - i - 1) = false then acc + CC.normSq (state.getD j 0)
            else acc) 0, 0⟩,
        a01 := (List.range (2 ^ i)).foldl (fun a1 j =>
            (List.range (2 ^ nq / 2 ^ i / 2)).foldl
              (fun a2 k => a2 + state.getD (j * (2 ^ nq / 2 ^ i) + k) 0 *
                CC.conj (state.getD (j * (2 ^ nq / 2 ^ i) + k + 2 ^ nq / 2 ^ i / 2) 0))
              a1) 0,
        a10 := CC.conj ((List.range (2 ^ i)).foldl (fun a1 j =>
            (List.range (2 ^ nq / 2 ^ i / 2)).foldl
              (fun a2 k => a2 + state.getD (j * (2 ^ nq / 2 ^ i) + k) 0 *
                CC.conj (state.getD (j * (2 ^ nq / 2 ^ i) + k + 2 ^ nq / 2 ^ i / 2) 0))
              a1) 0),
        a11 := ⟨1 - |(List.range (2 ^ nq)).foldl (fun acc j =>
            if j.testBit (nq - i - 1) = false then acc + CC.normSq (state.getD j 0)
            else acc) 0|, 0⟩ } := by
  unfold partical_trace
  rw [getD_map_range _ hi]

/-- **C2** Contract of the per-qubit partial trace: for every state
vector of length `2^numQubit` and every qubit `i`, the `i`-th density
matrix has `[0][1]` equal to the coherence sum over all basis indices
with qubit `i`'s bit clear (obtained by the same stride/half
decomposition as the gate kernel with target `i`), `[0][0]` equal to
the sum of squared magnitudes over the same indices, `[1][1] = 1 -
[0][0]`, and `[1][0]` the conjugate of `[0][1]` — for every qubit
independently. -/
theorem partical_trace_contract (state : List CC) (nq : Nat) (hlen : state.length = 2 ^ nq)
    (i : Nat) (hi : i < nq) :
    (partical_trace state nq).getD i default =
      { a00 := ⟨∑ x ∈ (Finset.range (2 ^ nq)).filter
            (fun x => x.testBit (nq - i - 1) = false), CC.normSq (state.getD x 0), 0⟩,
        a01 := ∑ x ∈ (Finset.range (2 ^ nq)).filter
            (fun x => x.testBit (nq - i - 1) = false),
            state.getD x 0 * CC.conj (state.getD (x + 2 ^ (nq - i - 1)) 0),
        a10 := CC.conj (∑ x ∈ (Finset.range (2 ^ nq)).filter
            (fun x => x.testBit (nq - i - 1) = false),
            state.getD x 0 * CC.conj (state.getD (x + 2 ^ (nq - i - 1)) 0)),
        a11 := ⟨1 - ∑ x ∈ (Finset.range (2 ^ nq)).filter
            (fun x => x.testBit (nq - i - 1) = false), CC.normSq (state.getD x 0), 0⟩ } := by
  have hsd : 2 ^ nq / 2 ^ i = 2 ^ (nq - i) := Nat.pow_div (le_of_lt hi) (by omega)
  have hpd : 2 ^ nq / 2 ^ i / 2 = 2 ^ (nq - i - 1) := by
    rw [hsd]
    have h1 : (2 : Nat) ^ (nq - i) = 2 ^ (nq - i - 1) * 2 := by
      rw [← pow_succ]; congr 1; omega
    rw [h1]
    exact Nat.mul_div_cancel _ (by omega)
  have hsucc : nq - i = (nq - i - 1) + 1 := by omega
  have hd00 : (List.range (2 ^ nq)).foldl (fun acc j =>
      if j.testBit (nq - i - 1) = false then acc + CC.normSq (state.getD j 0)
      else acc) 0 =
      ∑ x ∈ (Finset.range (2 ^ nq)).filter
        (fun x => x.testBit (nq - i - 1) = false), CC.normSq (state.getD x 0) :=
    foldl_add_ite_eq_sum _ _ _
  have hoffd : (List.range (2 ^ i)).foldl (fun a1 j =>
      (List.range (2 ^ nq / 2 ^ i / 2)).foldl
        (fun a2 k => a2 + state.getD (j * (2 ^ nq / 2 ^ i) + k) 0 *
          CC.conj (state.getD (j * (2 ^ nq / 2 ^ i) + k + 2 ^ nq / 2 ^ i / 2) 0))
        a1) 0 =
      ∑ x ∈ (Finset.range (2 ^ nq)).filter
        (fun x => x.testBit (nq - i - 1) = false),
        state.getD x 0 * CC.conj (state.getD (x + 2 ^ (nq - i - 1)) 0) := by
    have hstep : ∀ (c : CC) (j : Nat),
        (List.range (2 ^ nq / 2 ^ i / 2)).foldl
          (fun a2 k => a2 + state.getD (j * (2 ^ nq / 2 ^ i) + k) 0 *
            CC.conj (state.getD (j * (2 ^ nq / 2 ^ i) + k + 2 ^ nq / 2 ^ i / 2) 0)) c =
          c + ∑ k ∈ Finset.range (2 ^ (nq - i - 1)),
            state.getD (j * 2 ^ ((nq - i - 1) + 1) + k) 0 *
              CC.conj (state.getD (j * 2 ^ ((nq - i - 1) + 1) + k + 2 ^ (nq - i - 1)) 0) := by
      intro c j
      rw [hpd, hsd, hsucc]
      exact foldl_add_eq_sum _ _ c
    calc (List.range (2 ^ i)).foldl (fun a1 j =>
        (List.range (2 ^ nq / 2 ^ i / 2)).foldl
          (fun a2 k => a2 + state.getD (j * (2 ^ nq / 2 ^ i) + k) 0 *
            CC.conj (state.getD (j * (2 ^ nq / 2 ^ i) + k + 2 ^ nq / 2 ^ i / 2) 0))
          a1) 0
        = (List.range (2 ^ i)).foldl (fun a1 j =>
            a1 + ∑ k ∈ Finset.range (2 ^ (nq - i - 1)),
              state.getD (j * 2 ^ ((nq - i - 1) + 1) + k) 0 *
                CC.conj (state.getD (j * 2 ^ ((nq - i - 1) + 1) + k + 2 ^ (nq - i - 1)) 0)) 0 := by
          apply List.foldl_ext
          intro a b _
          exact hstep a b
      _ = ∑ j ∈ Finset.range (2 ^ i), ∑ k ∈ Finset.range (2 ^ (nq - i - 1)),
            state.getD (j * 2 ^ ((nq - i - 1) + 1) + k) 0 *
              CC.conj (state.getD (j * 2 ^ ((nq - i - 1) + 1) + k + 2 ^ (nq - i - 1)) 0) := by
          rw [foldl_add_eq_sum, zero_add]
      _ = ∑ x ∈ (Finset.range (2 ^ i * 2 ^ ((nq - i - 1) + 1))).filter
            (fun x => x.testBit (nq - i - 1) = false),
            state.getD x 0 * CC.conj (state.getD (x + 2 ^ (nq - i - 1)) 0) :=
          double_sum_filter
            (fun x => state.getD x 0 * CC.conj (state.getD (x + 2 ^ (nq - i - 1)) 0))
            (2 ^ i) (nq - i - 1)
      _ = ∑ x ∈ (Finset.range (2 ^ nq)).filter
            (fun x => x.testBit (nq - i - 1) = false),
            state.getD x 0 * CC.conj (state.getD (x + 2 ^ (nq - i - 1)) 0) := by
          have hexp : i + (nq - i - 1 + 1) = nq := by omega
          rw [← pow_add, hexp]
  rw [partical_trace_getD state nq i hi]
  rw [hd00, hoffd,
    abs_of_nonneg (Finset.sum_nonneg (fun x _ => CC.normSq_nonneg (state.getD x 0)))]

theorem partical_trace_contract_witness :
    ([⟨1, 0⟩, 0] : List CC).length = 2 ^ 1 ∧ 0 < 1 ∧
      (partical_trace [⟨1, 0⟩, 0] 1).getD 0 default =
        { a00 := ⟨∑ x ∈ (Finset.range (2 ^ 1)).filter
              (fun x => x.testBit (1 - 0 - 1) = false),
              CC.normSq (([⟨1, 0⟩, 0] : List CC).getD x 0), 0⟩,
          a01 := ∑ x ∈ (Finset.range (2 ^ 1)).filter
              (fun x => x.testBit (1 - 0 - 1) = false),
              ([⟨1, 0⟩, 0] : List CC).getD x 0 *
                CC.conj (([⟨1, 0⟩, 0] : List CC).getD (x + 2 ^ (1 - 0 - 1)) 0),
          a10 := CC.conj (∑ x ∈ (Finset.range (2 ^ 1)).filter
              (fun x => x.testBit (1 - 0 - 1) = false),
              ([⟨1, 0⟩, 0] : List CC).getD x 0 *
                CC.conj (([⟨1, 0⟩, 0] : List CC).getD (x + 2 ^ (1 - 0 - 1)) 0)),
          a11 := ⟨1 - ∑ x ∈ (Finset.range (2 ^ 1)).filter
              (fun x => x.testBit (1 - 0 - 1) = false),
              CC.normSq (([⟨1, 0⟩, 0] : List CC).getD x 0), 0⟩ } :=
  ⟨by decide, by decide, partical_trace_contract [⟨1, 0⟩, 0] 1 (by decide) 0 (by decide)⟩

/-! ## Entanglement feasibility (`radius_inspect` / `radius_judge`,
source lines 380-400 and 564-601) -/

/-- `radius_inspect(sorted_data)` (source lines 380-400): the product of
all-but-the-first radii, the first entry, and the validity flag.
Returns `(sorted_data[0], (min_radius, flag))`; the flag is `false`
(error) when the list has exactly one element or the first radius is
strictly below the product. -/
def radius_inspect (sorted_data : List (Nat × ℚ)) : (Nat × ℚ) × ℚ × Bool :=
  let min_radius : ℚ := (sorted_data.drop 1).foldl (fun acc d => acc * d.2) 1
  if sorted_data.length = 1 ∨ (sorted_data.headD (0, 0)).2 < min_radius then
    ((sorted_data.headD (0, 0)), (min_radius, false))
  else
    ((sorted_data.headD (0, 0)), (min_radius, true))

/-- Result of `radius_judge`: either the (possibly empty) ascending
order list, or the `["radiusError", count, data, min_radius]` payload. -/
inductive JudgeResult where
  | order (sorted : List (Nat × ℚ))
  | err (count : Nat) (data : Nat × ℚ) (minRadius : ℚ)
deriving DecidableEq

/-- `radius_judge(numQubit, target_radius)` (source lines 564-601):
keep the qubits whose target radius is `< 1 - 1e-5`, sort them by
radius ascending (`np.argsort`), and either report the feasibility
error payload or return the sorted list ( `[]` when no qubit needs
entanglement). -/
def radius_judge (numQubit : Nat) (target_radius : List ℚ) : JudgeResult :=
  let radius_index := target_radius.enum.filterMap
    (fun d => if d.2 < 1 - 1 / 100000 then some (d.1, d.2) else none)
  if radius_index.length = 0 then .order []
  else
    let sorted_data := radius_index.mergeSort (fun a b => a.2 ≤ b.2)
    let result := radius_inspect sorted_data
    if result.2.2 = false then .err radius_index.length result.1 result.2.1
    else .order sorted_data

theorem radius_judge_trivial_check : radius_judge 2 [1, 1] = .order [] := by with_unfolding_all decide

theorem radius_judge_error_check :
    radius_judge 2 [9/10, 1/2] =
      .err 2 (1, 1/2) (9/10) := by with_unfolding_all decide

/-- **C3** Feasibility check contract: for every non-empty list sorted
ascending by radius, `radius_inspect` returns the first pair, the
product `P` of the radii after the first, and a flag that is `false`
exactly when the list is a singleton or `P` exceeds the first radius;
and whenever the filtered, sorted data of `radius_judge` is non-empty
with a `false` flag, `radius_judge` wraps it as the error payload
`(count, offending pair, P)`, having kept only qubits with radius
`< 1 - 1e-5`. -/
theorem radius_feasibility_contract :
    (∀ l : List (Nat × ℚ), l ≠ [] →
      l.Sorted (fun a b => a.2 ≤ b.2) →
      radius_inspect l =
        ((l.headD (0, 0)),
          (((l.drop 1).map Prod.snd).prod,
            !decide (l.length = 1 ∨ (l.headD (0, 0)).2 < ((l.drop 1).map Prod.snd).prod)))) ∧
    (∀ (numQubit : Nat) (target_radius : List ℚ),
      (target_radius.enum.filterMap
        (fun d => if d.2 < 1 - 1 / 100000 then some (d.1, d.2) else none)).length ≠ 0 →
      (radius_inspect ((target_radius.enum.filterMap
        (fun d => if d.2 < 1 - 1 / 100000 then some (d.1, d.2) else none)).mergeSort
          (fun a b => a.2 ≤ b.2))).2.2 = false →
      radius_judge numQubit target_radius =
        .err (target_radius.enum.filterMap
            (fun d => if d.2 < 1 - 1 / 100000 then some (d.1, d.2) else none)).length
          (radius_inspect ((target_radius.enum.filterMap
            (fun d => if d.2 < 1 - 1 / 100000 then some (d.1, d.2) else none)).mergeSort
              (fun a b => a.2 ≤ b.2))).1
          (radius_inspect ((target_radius.enum.filterMap
            (fun d => if d.2 < 1 - 1 / 100000 then some (d.1, d.2) else none)).mergeSort
              (fun a b => a.2 ≤ b.2))).2.1) := by
  constructor
  · intro l hne _
    have hprod : ∀ (t : List (Nat × ℚ)) (c : ℚ),
        t.foldl (fun acc d => acc * d.2) c = c * (t.map Prod.snd).prod := by
      intro t
      induction t with
      | nil => intro c; simp
      | cons d t ih =>
        intro c
        rw [List.foldl_cons, ih, List.map_cons, List.prod_cons]
        ring
    unfold radius_inspect
    rw [hprod, one_mul]
    by_cases h : l.length = 1 ∨ (l.headD (0, 0)).2 < ((l.drop 1).map Prod.snd).prod
    · rw [if_pos h, decide_eq_true h]
      rfl
    · rw [if_neg h, decide_eq_false h]
      rfl
  · intro numQubit target_radius hne hflag
    unfold radius_judge
    rw [if_neg hne, if_pos hflag]

theorem radius_feasibility_contract_witness :
    (([(0, 1/2), (1, 9/10)] : List (Nat × ℚ)) ≠ [] ∧
      ([(0, 1/2), (1, 9/10)] : List (Nat × ℚ)).Sorted (fun a b => a.2 ≤ b.2)) ∧
      radius_inspect [(0, 1/2), (1, 9/10)] = ((0, 1/2), (9/10, false)) := by
  have hsorted : ([(0, 1/2), (1, 9/10)] : List (Nat × ℚ)).Sorted (fun a b => a.2 ≤ b.2) := by
    with_unfolding_all decide
  refine ⟨⟨by with_unfolding_all decide, hsorted⟩, ?_⟩
  rw [radius_feasibility_contract.1 [(0, 1/2), (1, 9/10)] (by with_unfolding_all decide) hsorted]
  with_unfolding_all decide

/-- **C4 counterexample** On the ascending data
`[(0, 0.5), (1, 0.9), (2, 0.95)]` the validity flag returned by
`radius_inspect` is `false`, not `true` as claimed: the product
`0.9 × 0.95 = 0.855` exceeds the smallest radius `0.5`, which the code
(and the spec's own feasibility rule) treats as infeasible. -/
theorem radius_inspect_half_nine_c4_counterexample :
    (radius_inspect [(0, 1/2), (1, 9/10), (2, 19/20)]).2.2 = false := by
  with_unfolding_all decide

/-- **C4 amended** `radius_inspect` applied to the ascending-sorted data
`[[q0, 0.5], [q1, 0.9], [q2, 0.95]]` (for any qubit indices) reports
the input infeasible (validity flag `false`), because the product of
the two larger radii, `0.9 × 0.95 = 0.855`, exceeds the smallest
radius `0.5`; the returned lower bound is `0.855`. -/
theorem radius_inspect_half_nine_infeasible (q0 q1 q2 : Nat) :
    radius_inspect [(q0, 1/2), (q1, 9/10), (q2, 19/20)] =
      ((q0, 1/2), (171/200, false)) := by
  unfold radius_inspect
  norm_num

/-! ## State initialization (`calc_initialize_state`, source lines 66-98) -/

/-- The floating-point trigonometric primitives used by the source
(`np.deg2rad`, `np.cos`, `np.sin`, and `np.exp(1j*_)`), kept abstract:
every theorem below holds for any implementation, and the real ones
satisfy the Pythagorean hypotheses used for the norm property. -/
structure TrigPrims where
  d2r : ℚ → ℚ
  cosf : ℚ → ℚ
  sinf : ℚ → ℚ
  cisf : ℚ → CC

/-- The single-qubit amplitudes of source lines 84-90:
`(cos(θ_rad/2), exp(iφ_rad) * sin(θ_rad/2))` with `data = (φ, θ)` in
degrees. -/
def qubitAmp (pr : TrigPrims) (d : ℚ × ℚ) : CC × CC :=
  (⟨pr.cosf (pr.d2r d.2 / 2), 0⟩, pr.cisf (pr.d2r d.1) * ⟨pr.sinf (pr.d2r d.2 / 2), 0⟩)

/-- One doubling step of `calc_initialize_state` (source lines 81-96):
the new vector has twice the length, with entry
`j = old[j/2] * initialize[j%2]`.  The source allocates `1 << (i+1)`
entries at qubit index `i`; since the running vector has length `2^i`,
that is `2 * st.length`. -/
def initStep (pr : TrigPrims) (st : List CC) (data : ℚ × ℚ) : List CC :=
  (List.range (2 * st.length)).map (fun j =>
    st.getD (j / 2) 0 * (if j % 2 = 0 then (qubitAmp pr data).1 else (qubitAmp pr data).2))

/-- `calc_initialize_state(initialize_values)` (source lines 66-98),
starting from the vector `[1]` and doubling once per qubit. -/
def calc_initialize_state (pr : TrigPrims) (initialize_values : List (ℚ × ℚ)) : List CC :=
  initialize_values.foldl (initStep pr) [1]

theorem initStep_length (pr : TrigPrims) (st : List CC) (d : ℚ × ℚ) :
    (initStep pr st d).length = 2 * st.length := by
  simp [initStep]

theorem calc_initialize_state_foldl_length (pr : TrigPrims) :
    ∀ (vals : List (ℚ × ℚ)) (st : List CC),
      (vals.foldl (initStep pr) st).length = st.length * 2 ^ vals.length := by
  intro vals
  induction vals with
  | nil => intro st; simp
  | cons d rest ih =>
    intro st
    rw [List.foldl_cons, ih, initStep_length, List.length_cons, pow_succ]
    ring

/-- **C9** Contract of state initialization: the result has length
`2^n`; appending one more `(φ, θ)` pair doubles the vector with entry
`j = previous[⌊j/2⌋] × s[j mod 2]`, where
`s = (cos(θ_rad/2), e^{iφ_rad} sin(θ_rad/2))` and the angles are
converted from degrees; and for a single qubit the two squared
magnitudes sum to exactly 1 whenever the trigonometric primitives
satisfy `cos² + sin² = 1` and `|e^{iφ}| = 1` (as the real ones do). -/
theorem calc_initialize_state_contract (pr : TrigPrims)
    (hpyth : ∀ x : ℚ, pr.cosf x ^ 2 + pr.sinf x ^ 2 = 1)
    (hcis : ∀ x : ℚ, CC.normSq (pr.cisf x) = 1) :
    (∀ vals : List (ℚ × ℚ), (calc_initialize_state pr vals).length = 2 ^ vals.length) ∧
    (∀ (vals : List (ℚ × ℚ)) (a : ℚ × ℚ) (j : Nat), j < 2 ^ (vals.length + 1) →
      (calc_initialize_state pr (vals ++ [a])).getD j 0 =
        (calc_initialize_state pr vals).getD (j / 2) 0 *
          (if j % 2 = 0 then (qubitAmp pr a).1 else (qubitAmp pr a).2)) ∧
    (∀ phi theta : ℚ,
      CC.normSq ((calc_initialize_state pr [(phi, theta)]).getD 0 0) +
        CC.normSq ((calc_initialize_state pr [(phi, theta)]).getD 1 0) = 1) := by
  have hlen : ∀ vals : List (ℚ × ℚ),
      (calc_initialize_state pr vals).length = 2 ^ vals.length := by
    intro vals
    rw [calc_initialize_state, calc_initialize_state_foldl_length]
    simp
  refine ⟨hlen, ?_, ?_⟩
  · intro vals a j hj
    rw [calc_initialize_state, List.foldl_append, List.foldl_cons, List.foldl_nil]
    show (initStep pr (calc_initialize_state pr vals) a).getD j 0 = _
    rw [initStep]
    have hj2 : j < 2 * (calc_initialize_state pr vals).length := by
      rw [hlen vals]
      calc j < 2 ^ (vals.length + 1) := hj
        _ = 2 * 2 ^ vals.length := by rw [pow_succ]; ring
    rw [getD_map_range _ hj2]
  · intro phi theta
    have h0 : (calc_initialize_state pr [(phi, theta)]).getD 0 0 =
        (qubitAmp pr (phi, theta)).1 := by
      show (initStep pr [1] (phi, theta)).getD 0 0 = _
      rw [initStep]
      rw [getD_map_range _ (by simp)]
      simp
    have h1 : (calc_initialize_state pr [(phi, theta)]).getD 1 0 =
        (qubitAmp pr (phi, theta)).2 := by
      show (initStep pr [1] (phi, theta)).getD 1 0 = _
      rw [initStep]
      rw [getD_map_range _ (by simp)]
      simp
    rw [h0, h1]
    show CC.normSq ⟨pr.cosf (pr.d2r theta / 2), 0⟩ +
      CC.normSq (pr.cisf (pr.d2r phi) * ⟨pr.sinf (pr.d2r theta / 2), 0⟩) = 1
    rw [CC.normSq_mul, hcis, one_mul]
    have hc : CC.normSq ⟨pr.cosf (pr.d2r theta / 2), 0⟩ = pr.cosf (pr.d2r theta / 2) ^ 2 := by
      simp [CC.normSq]
    have hs : CC.normSq ⟨pr.sinf (pr.d2r theta / 2), 0⟩ = pr.sinf (pr.d2r theta / 2) ^ 2 := by
      simp [CC.normSq]
    rw [hc, hs, hpyth]

theorem calc_initialize_state_contract_witness :
    (∀ x : ℚ, (1 : ℚ) ^ 2 + (0 * x) ^ 2 = 1) ∧
      (calc_initialize_state ⟨id, fun _ => 1, fun x => 0 * x, fun _ => 1⟩ []).length =
        2 ^ (0 : Nat) ∧
      CC.normSq ((calc_initialize_state ⟨id, fun _ => 1, fun x => 0 * x, fun _ => 1⟩
            [(0, 0)]).getD 0 0) +
        CC.normSq ((calc_initialize_state ⟨id, fun _ => 1, fun x => 0 * x, fun _ => 1⟩
            [(0, 0)]).getD 1 0) = 1 := by
  have h := calc_initialize_state_contract ⟨id, fun _ => 1, fun x => 0 * x, fun _ => 1⟩
    (fun x => by norm_num) (fun x => by norm_num [CC.normSq])
  exact ⟨fun x => by norm_num, h.1 [], h.2.2 0 0⟩

/-! ## Bloch module (`CoordinateCalc`, `RadiusCalc`, `radiusDiff`,
`distanceDiff`, `diff_compare`, `CreateGateArray`; source lines 236-378) -/

/-- A Bloch coordinate triple `[x, y, z]`. -/
abbrev Coord3 := ℚ × ℚ × ℚ

/-- `CoordinateCalc(densityMatrix)` (source lines 236-252):
`x = 2·Re(ρ[1][0])`, `y = 2·Im(ρ[1][0])`, `z = abs(2·ρ[0][0]) - 1`.
Every matrix this is applied to comes from `partical_trace`, whose
`[0][0]` entry is real, so the complex `abs` is the rational absolute
value of `2·Re(ρ[0][0])`. -/
def CoordinateCalc (densityMatrix : Mat2) : Coord3 :=
  (2 * densityMatrix.a10.re, 2 * densityMatrix.a10.im, |2 * densityMatrix.a00.re| - 1)

/-- The radius of one Bloch coordinate, `sqrt(x² + y² + z²)`, with the
floating-point square root abstracted as `sqrtf`. -/
def radiusOf (sqrtf : ℚ → ℚ) (c : Coord3) : ℚ :=
  sqrtf (c.1 ^ 2 + c.2.1 ^ 2 + c.2.2 ^ 2)

/-- `RadiusCalc(densityMatrix, targetQubits)` (source lines 278-294):
the radius of each requested qubit's Bloch coordinate. -/
def RadiusCalc (sqrtf : ℚ → ℚ) (densityMatrix : List Mat2) (targetQubits : List Nat) :
    List ℚ :=
  targetQubits.map (fun q => radiusOf sqrtf (CoordinateCalc (densityMatrix.getD q default)))

/-- `radiusDiff(data1, data2)` (source lines 314-326). -/
def radiusDiff (data1 data2 : ℚ) : ℚ := |data1 - data2|

/-- `distanceDiff(data1, data2)` (source lines 329-341), with the
square root abstracted as `sqrtf`. -/
def distanceDiff (sqrtf : ℚ → ℚ) (data1 data2 : Coord3) : ℚ :=
  sqrtf ((data1.1 - data2.1) ^ 2 + (data1.2.1 - data2.2.1) ^ 2 + (data1.2.2 - data2.2.2) ^ 2)

/-- `diff_compare(min_diff, result_diff)` (source lines 344-359):
the updated minimum and the improvement flag; the comparison uses the
exact literal `0.000000000001`. -/
def diff_compare (min_diff result_diff : ℚ) : ℚ × Bool :=
  if min_diff - 1 / 1000000000000 > result_diff then (result_diff, true) else (min_diff, false)

/-- `CreateGateArray(numQubit, targetQubit, controlQubit)` (source lines
362-378); `none` models the `-1` sentinel for "no control". -/
def CreateGateArray (numQubit targetQubit : Nat) (controlQubit : Option Nat) : List String :=
  let gate := List.replicate numQubit noMark
  let gate := match controlQubit with
    | some c => gate.set c cMark
    | none => gate
  gate.set targetQubit TGmark

theorem CreateGateArray_check : CreateGateArray 3 2 (some 0) = [cMark, noMark, TGmark] := by
  with_unfolding_all decide

/-! ## Entanglement order planner (`add_order`, `calc_order_1`,
`calc_order_2`; source lines 403-561) -/

/-- One calc-order step: `[[qubitA, radiusA], [qubitB, radiusB]]`. -/
abbrev Order2 := (Nat × ℚ) × (Nat × ℚ)

/-- `calc_order_2(sorted_data)` (source lines 487-499). -/
def calc_order_2 (sorted_data : (Nat × ℚ) × (Nat × ℚ)) : Order2 :=
  ((sorted_data.1.1, sorted_data.1.2), (sorted_data.2.1, sorted_data.2.2))

/-- `calc_order_1(array_data)` (source lines 502-561): the iterative
midpoint heuristic.  The interior divisions are total in `ℚ`
(`x / 0 = 0`); no claim below depends on those values. -/
def calc_order_1 (array_data : ℚ × List (Nat × ℚ)) : List Order2 :=
  let A := array_data.1
  let sd := array_data.2
  let count := sd.length
  if count = 2 then
    [(((sd.getD 1 (0, 0)).1, (sd.getD 1 (0, 0)).2),
      ((sd.getD 0 (0, 0)).1, (sd.getD 0 (0, 0)).2))]
  else
    ((List.range' 1 (count - 1)).foldl (fun acc i =>
      let A1 := acc.1
      let min_radius := acc.2.1
      let order := acc.2.2
      let min_radius' := min_radius * (sd.getD i (0, 0)).2
      let max_radius := min_radius' * A
      let result_radius_min :=
        if (sd.getD 0 (0, 0)).2 > min_radius' * A / A1 then (sd.getD 0 (0, 0)).2
        else min_radius' * A / A1
      let result_radius_max :=
        if max_radius < min_radius' * A / A1 / (sd.getD i (0, 0)).2 then max_radius
        else min_radius' * A / A1 / (sd.getD i (0, 0)).2
      let average_radius := (result_radius_min + result_radius_max) / 2
      let ave_radius_position := (average_radius - min_radius' * A / A1) /
        (max_radius - min_radius' * A / A1)
      let x : ℚ := if i = 1 then 0 else ave_radius_position
      let A0 := 1 + (A1 - 1) * x
      let A1' := A1 / A0
      let radius_2 := A / A1' * min_radius'
      (A1', min_radius', order ++ [(((sd.getD i (0, 0)).1, (sd.getD i (0, 0)).2),
        ((sd.getD 0 (0, 0)).1, radius_2))]))
      (A, 1, [])).2.2

/-- The mutable locals of the group-scanning loop of `add_order`
(source lines 435-453). -/
structure ScanSt where
  judge : Bool
  maltiply : ℚ
  new_maltiply : ℚ
  new_mask : List Nat
  last_data : Nat
deriving DecidableEq

/-- The inner scan of `add_order` over the enumerated sorted data
(source lines 435-453), with the `break` rendered as returning without
consuming the rest. -/
def add_order_scan (indexR : ℚ) (mask : List Nat) :
    List (Nat × (Nat × ℚ)) → ScanSt → ScanSt
  | [], st => st
  | (i, num) :: rest, st =>
    if mask.getD i 0 = 0 then
      let nm := (if st.judge then st.maltiply else st.new_maltiply) * num.2
      if nm ≤ indexR then
        add_order_scan indexR mask rest
          { judge := true, maltiply := st.maltiply, new_maltiply := nm,
            new_mask := st.new_mask, last_data := i }
      else if st.judge then
        { judge := st.judge, maltiply := st.maltiply, new_maltiply := nm,
          new_mask := st.new_mask, last_data := st.last_data }
      else
        add_order_scan indexR mask rest
          { judge := st.judge, maltiply := nm, new_maltiply := nm,
            new_mask := st.new_mask ++ [i], last_data := st.last_data }
    else add_order_scan indexR mask rest st

/-- The `while True` loop of `add_order` (source lines 420-475), with a
fuel argument: every iteration marks the found index, so
`sorted_data.length + 1` rounds always suffice and the fuel never runs
out on the code's actual inputs. -/
def add_order_loop (sd : List (Nat × ℚ)) :
    Nat → List Nat → Nat →
    List (ℚ × List (Nat × ℚ)) → List ((Nat × ℚ) × (Nat × ℚ)) →
    List (ℚ × List (Nat × ℚ)) × List ((Nat × ℚ) × (Nat × ℚ))
  | 0, _, _, ra, ra2 => (ra, ra2)
  | fuel + 1, mask, count, ra, ra2 =>
    let count' := count + 1
    match (List.range sd.length).find? (fun k => mask.getD k 0 = 0) with
    | none => (ra, ra2)
    | some index =>
      let mask1 := mask.set index count'
      let st := add_order_scan (sd.getD index (0, 0)).2 mask1 sd.enum
        { judge := false, maltiply := 1, new_maltiply := 1, new_mask := [], last_data := 0 }
      if st.judge then
        let malt := st.maltiply * (sd.getD st.last_data (0, 0)).2
        let newMask := st.new_mask ++ [st.last_data]
        let mask2 := newMask.foldl (fun m d => m.set d count') mask1
        let ra' := ra ++ [((sd.getD index (0, 0)).2 / malt,
          sd.enum.filterMap (fun d => if mask2.getD d.1 0 = count' then some d.2 else none))]
        if (mask2.filter (fun d => d = 0)).length = 0 then (ra', ra2)
        else add_order_loop sd fuel mask2 count' ra' ra2
      else
        let ra2' := ra2 ++ sd.enum.filterMap (fun d =>
          if mask1.getD d.1 0 = 0 ∨ mask1.getD d.1 0 = count' then
            some ((if d.1 = 0 then sd.getD (sd.length - 1) (0, 0)
              else sd.getD (d.1 - 1) (0, 0)), d.2)
          else none)
        (ra, ra2')

/-- `add_order(sorted_data)` (source lines 403-484). -/
def add_order (sorted_data : List (Nat × ℚ)) : List Order2 :=
  let lp := add_order_loop sorted_data (sorted_data.length + 1)
    (List.replicate sorted_data.length 0) 0 [] []
  lp.1.flatMap calc_order_1 ++ lp.2.map calc_order_2

theorem add_order_two_check :
    add_order [(0, 9/10), (1, 9/10)] = [((1, 9/10), (0, 9/10))] := by
  with_unfolding_all decide

theorem add_order_three_check :
    add_order [(0, 1/2), (1, 9/10), (2, 19/20)] =
      [((2, 19/20), (0, 1/2)), ((0, 1/2), (1, 9/10)), ((1, 9/10), (2, 19/20))] := by
  with_unfolding_all decide

/-! ## The two-phase search optimizer (`mainCalc`, source lines 604-749)

The embedding makes two effects explicit that the source performs
imperatively:

* every invocation of `update_progress_callback` is recorded in a trace
  list of progress values, and the callback is modelled as a pure
  function `cb : Nat → ℚ → Bool` of the invocation count and the
  progress value, so that stateful callbacks are covered;
* the boolean `allFresh` records whether every committed step saw at
  least one improving candidate; when a step sees none, the source
  silently reuses the stale `state` / `gate_array_result` variables
  from an earlier step (or raises `UnboundLocalError` if there is
  none, modelled by the `exn` outcome, which also models the
  `ZeroDivisionError` raised when `totalCalcStep == 0`).

The mutable locals `state`, `gate_array_result_1`, `gate_array_result_2`
and `gate_array_result` are threaded as `Option` values (`none` =
still unassigned), shared across phases exactly as Python function
locals are. -/

/-- A candidate-table entry `[label, matrix]`. -/
abbrev GE := List String × Mat2

/-- A gate record `[label, qubit]` of the output gate array. -/
abbrev GA := List String × Nat

/-- Early exit of the search loops: cooperative cancellation or an
uncaught Python exception, each with the trace so far. -/
inductive Stop where
  | cancel (tr : List ℚ)
  | exn (tr : List ℚ)
deriving DecidableEq

/-- Result of `mainCalc`: `(False, False)`, the `radiusError` payload,
an uncaught exception, or the gate list plus final state. -/
inductive MCRes where
  | cancelled
  | radiusError (count : Nat) (data : Nat × ℚ) (minRadius : ℚ)
  | exn
  | ok (gates : List GA) (finalState : List CC)
deriving DecidableEq

/-- The phase-2 inner loop over `json_long` (source lines 722-740):
check the callback, apply the candidate to a copy of the committed
state, score by distance to the target coordinate, and keep the best. -/
def p2_inner (sqrtf : ℚ → ℚ) (cb : Nat → ℚ → Bool) (numQubit qub : Nat)
    (result_state : List CC) (gate : List String) (targetC : Coord3) (base S2 : ℚ) :
    List GE → Nat → List ℚ → ℚ → Option (List CC) → Option GA → Bool →
    Except Stop (List ℚ × ℚ × Option (List CC) × Option GA × Bool)
  | [], _, tr, md, stv, gr, fr => .ok (tr, md, stv, gr, fr)
  | data :: rest, index, tr, md, stv, gr, fr =>
    let progress := base + S2 * (index : ℚ)
    if cb tr.length progress then
      let new_state := apply_controlled_gate result_state gate data.2 numQubit
      let densityMatrix := partical_trace new_state numQubit
      let new_coordinate := CoordinateCalc (densityMatrix.getD qub default)
      let result_diff := distanceDiff sqrtf new_coordinate targetC
      let mr := diff_compare md result_diff
      if mr.2 then
        p2_inner sqrtf cb numQubit qub result_state gate targetC base S2 rest (index + 1)
          (tr ++ [progress]) mr.1 (some new_state) (some (data.1, qub)) true
      else
        p2_inner sqrtf cb numQubit qub result_state gate targetC base S2 rest (index + 1)
          (tr ++ [progress]) mr.1 stv gr fr
    else .error (.cancel (tr ++ [progress]))

/-- One phase-2 step (one qubit `i`; source lines 717-745): run the
inner loop with `min_diff = 2`, then commit `result_state =
state.copy()` and append `gate_array_result`; an unassigned local is
an `UnboundLocalError` (`exn`). -/
def p2_step (sqrtf : ℚ → ℚ) (cb : Nat → ℚ → Bool) (numQubit : Nat) (json_long : List GE)
    (target_coordinates : List Coord3) (FP SO S2 : ℚ) (i : Nat) (result_state : List CC)
    (gate_array : List GA) (tr : List ℚ) (stv : Option (List CC)) (gr : Option GA) :
    Except Stop (List CC × List GA × List ℚ × Option (List CC) × Option GA × Bool) :=
  let gate := CreateGateArray numQubit i none
  match p2_inner sqrtf cb numQubit i result_state gate (target_coordinates.getD i default)
      (FP + SO * (i : ℚ)) S2 json_long 0 tr 2 stv gr false with
  | .error s => .error s
  | .ok (tr', _, stv', gr', fr) =>
    match stv', gr' with
    | some st, some g => .ok (st, gate_array ++ [g], tr', some st, some g, fr)
    | _, _ => .error (.exn tr')

/-- Phase 2 over the given qubits (source lines 717-745), accumulating
the committed state, the gate array, the trace, the shared locals, and
the `allFresh` instrumentation flag. -/
def p2_all (sqrtf : ℚ → ℚ) (cb : Nat → ℚ → Bool) (numQubit : Nat) (json_long : List GE)
    (target_coordinates : List Coord3) (FP SO S2 : ℚ) :
    List Nat → List CC × List GA × List ℚ × Option (List CC) × Option GA × Bool →
    Except Stop (List CC × List GA × List ℚ × Option (List CC) × Option GA × Bool)
  | [], acc => .ok acc
  | i :: rest, (rs, ga, tr, stv, gr, af) =>
    match p2_step sqrtf cb numQubit json_long target_coordinates FP SO S2 i rs ga tr stv gr with
    | .error s => .error s
    | .ok (rs', ga', tr', stv', gr', fr) =>
      p2_all sqrtf cb numQubit json_long target_coordinates FP SO S2 rest
        (rs', ga', tr', stv', gr', af && fr)

/-- The phase-1 inner loop over `json_short` (source lines 674-701):
check the callback, apply the second gate and the hard-coded CNOT,
score by the mean absolute radius error of the step's two qubits, and
keep the best. -/
def p1_inner (sqrtf : ℚ → ℚ) (cb : Nat → ℚ → Bool) (numQubit : Nat) (order : Order2)
    (gate_2 ControlGate : List String) (data_1 : GE) (data_1_state : List CC)
    (F1 FO FI : ℚ) (num index_1 : Nat) :
    List GE → Nat → List ℚ → ℚ → Option (List CC) → Option GA → Option GA → Bool →
    Except Stop (List ℚ × ℚ × Option (List CC) × Option GA × Option GA × Bool)
  | [], _, tr, md, stv, g1, g2, fr => .ok (tr, md, stv, g1, g2, fr)
  | data_2 :: rest, index_2, tr, md, stv, g1, g2, fr =>
    let progress := F1 * (num : ℚ) + FO * (index_1 : ℚ) + FI * (index_2 : ℚ)
    if cb tr.length progress then
      let data_2_state := apply_controlled_gate data_1_state gate_2 data_2.2 numQubit
      let new_state := apply_controlled_gate data_2_state ControlGate X numQubit
      let densityMatrix := partical_trace new_state numQubit
      let radius := RadiusCalc sqrtf densityMatrix [order.1.1, order.2.1]
      let result_diff := (radiusDiff (radius.getD 0 0) order.1.2 +
        radiusDiff (radius.getD 1 0) order.2.2) / 2
      let mr := diff_compare md result_diff
      if mr.2 then
        p1_inner sqrtf cb numQubit order gate_2 ControlGate data_1 data_1_state F1 FO FI
          num index_1 rest (index_2 + 1) (tr ++ [progress]) mr.1 (some new_state)
          (some (data_1.1, order.1.1)) (some (data_2.1, order.2.1)) true
      else
        p1_inner sqrtf cb numQubit order gate_2 ControlGate data_1 data_1_state F1 FO FI
          num index_1 rest (index_2 + 1) (tr ++ [progress]) mr.1 stv g1 g2 fr
    else .error (.cancel (tr ++ [progress]))

/-- The phase-1 outer loop over `json_short` (source lines 670-701):
apply the first gate to a copy of the committed state, then run the
inner loop. -/
def p1_outer (sqrtf : ℚ → ℚ) (cb : Nat → ℚ → Bool) (numQubit : Nat) (order : Order2)
    (gate_1 gate_2 ControlGate : List String) (json_short : List GE)
    (result_state : List CC) (F1 FO FI : ℚ) (num : Nat) :
    List GE → Nat → List ℚ → ℚ → Option (List CC) → Option GA → Option GA → Bool →
    Except Stop (List ℚ × ℚ × Option (List CC) × Option GA × Option GA × Bool)
  | [], _, tr, md, stv, g1, g2, fr => .ok (tr, md, stv, g1, g2, fr)
  | data_1 :: rest, index_1, tr, md, stv, g1, g2, fr =>
    let data_1_state := apply_controlled_gate result_state gate_1 data_1.2 numQubit
    match p1_inner sqrtf cb numQubit order gate_2 ControlGate data_1 data_1_state F1 FO FI
        num index_1 json_short 0 tr md stv g1 g2 fr with
    | .error s => .error s
    | .ok (tr', md', stv', g1', g2', fr') =>
      p1_outer sqrtf cb numQubit order gate_1 gate_2 ControlGate json_short result_state
        F1 FO FI num rest (index_1 + 1) tr' md' stv' g1' g2' fr'

/-- One phase-1 step (one calc-order entry; source lines 659-708): set
up the three gate arrays, run the double loop with `min_diff = 2`,
then commit the best state and append the three gate records
(`gate-on-A`, `gate-on-B`, `cnot`); unassigned locals raise
(`exn`). -/
def p1_step (sqrtf : ℚ → ℚ) (cb : Nat → ℚ → Bool) (numQubit : Nat) (json_short : List GE)
    (F1 FO FI : ℚ) (num : Nat) (order : Order2) (result_state : List CC)
    (gate_array : List GA) (tr : List ℚ) (stv : Option (List CC)) (g1 g2 : Option GA) :
    Except Stop
      (List CC × List GA × List ℚ × Option (List CC) × Option GA × Option GA × Bool) :=
  let targetQubit_1 := order.1.1
  let targetQubit_2 := order.2.1
  let gate_1 := CreateGateArray numQubit targetQubit_1 none
  let gate_2 := CreateGateArray numQubit targetQubit_2 none
  let ControlGate := CreateGateArray numQubit targetQubit_2 (some targetQubit_1)
  match p1_outer sqrtf cb numQubit order gate_1 gate_2 ControlGate json_short result_state
      F1 FO FI num json_short 0 tr 2 stv g1 g2 false with
  | .error s => .error s
  | .ok (tr', _, stv', g1', g2', fr) =>
    match stv', g1', g2' with
    | some st, some a1, some a2 =>
      .ok (st, gate_array ++ [a1, a2, (cnotLabel, targetQubit_2)], tr', stv', g1', g2', fr)
    | _, _, _ => .error (.exn tr')

/-- Phase 1 over the calc order (source lines 655-711). -/
def p1_all (sqrtf : ℚ → ℚ) (cb : Nat → ℚ → Bool) (numQubit : Nat) (json_short : List GE)
    (F1 FO FI : ℚ) :
    List Order2 → Nat →
    List CC × List GA × List ℚ × Option (List CC) × Option GA × Option GA × Bool →
    Except Stop
      (List CC × List GA × List ℚ × Option (List CC) × Option GA × Option GA × Bool)
  | [], _, acc => .ok acc
  | order :: rest, num, (rs, ga, tr, stv, g1, g2, af) =>
    match p1_step sqrtf cb numQubit json_short F1 FO FI num order rs ga tr stv g1 g2 with
    | .error s => .error s
    | .ok (rs', ga', tr', stv', g1', g2', fr) =>
      p1_all sqrtf cb numQubit json_short F1 FO FI rest (num + 1)
        (rs', ga', tr', stv', g1', g2', af && fr)

/-- `mainCalc(json_long, json_short, initialize_state,
target_coordinates, target_radius, update_progress_callback)` (source
lines 604-749), instrumented with the trace of progress values passed
to the callback and the `allFresh` flag.  `totalCalcStep = 0` makes
the source divide by zero (`exn`). -/
def mainCalc (sqrtf : ℚ → ℚ) (cb : Nat → ℚ → Bool) (json_long json_short : List GE)
    (initialize_state : List CC) (target_coordinates : List Coord3)
    (target_radius : List ℚ) : MCRes × List ℚ × Bool :=
  let numQubit := target_coordinates.length
  match radius_judge numQubit target_radius with
  | .err c d mr => (.radiusError c d mr, [], true)
  | .order sorted_data =>
    let calc_order := if sorted_data.length ≠ 0 then add_order sorted_data else []
    let FirstStep := json_short.length * (1 + json_short.length * 3)
    let SecondOutsideStep := 2 * json_long.length
    let totalCalcStep := calc_order.length * FirstStep + numQubit * SecondOutsideStep
    if totalCalcStep = 0 then (.exn, [], true)
    else
      let FI : ℚ := (3 / (totalCalcStep : ℚ)) * 100
      let FO : ℚ := (((1 + json_short.length * 3 : Nat) : ℚ) / (totalCalcStep : ℚ)) * 100
      let F1 : ℚ := ((FirstStep : ℚ) / (totalCalcStep : ℚ)) * 100
      let FP : ℚ := (((calc_order.length * FirstStep : Nat) : ℚ) / (totalCalcStep : ℚ)) * 100
      let S2 : ℚ := ((2 : ℚ) / (totalCalcStep : ℚ)) * 100
      let SO : ℚ := ((SecondOutsideStep : ℚ) / (totalCalcStep : ℚ)) * 100
      match p1_all sqrtf cb numQubit json_short F1 FO FI calc_order 0
          (initialize_state, [], [], none, none, none, true) with
      | .error (.cancel tr) => (.cancelled, tr, true)
      | .error (.exn tr) => (.exn, tr, true)
      | .ok (rs, ga, tr, stv, _, _, af) =>
        match p2_all sqrtf cb numQubit json_long target_coordinates FP SO S2
            (List.range numQubit) (rs, ga, tr, stv, none, af) with
        | .error (.cancel tr') => (.cancelled, tr', true)
        | .error (.exn tr') => (.exn, tr', true)
        | .ok (rs', ga', tr', _, _, af') => (.ok ga' rs', tr', af')

theorem mainCalc_stale_run_check :
    mainCalc (fun q => if q = 4 then 2 else 0) (fun _ _ => true)
      [(["x"], X)] [] [1, 0, 0, 0]
      [(0, 0, -1), (0, 0, 1)] [1, 1] =
      (.ok [(["x"], 0), (["x"], 0)] [0, 0, ⟨1, 0⟩, 0], [0, 50], false) := by
  with_unfolding_all decide

/-! ### Trace discipline of the callback loops -/

theorem getD_append_left {α : Type _} {l1 l2 : List α} {n : Nat} (h : n < l1.length) (d : α) :
    (l1 ++ l2).getD n d = l1.getD n d := by
  simp [List.getD_eq_getElem?_getD, List.getElem?_append_left h]

theorem getD_append_right {α : Type _} {l1 l2 : List α} {n : Nat} (h : l1.length ≤ n) (d : α) :
    (l1 ++ l2).getD n d = l2.getD (n - l1.length) d := by
  simp [List.getD_eq_getElem?_getD, List.getElem?_append_right h]

/-- The run appended block `B` to the trace, with every invocation of
the callback approved. -/
def TraceDone (cb : Nat → ℚ → Bool) (tr B tr' : List ℚ) : Prop :=
  tr' = tr ++ B ∧ ∀ u < B.length, cb (tr.length + u) (B.getD u 0) = true

/-- The run stopped inside block `B`: a strict prefix was approved, and
the one invocation after it returned `false`. -/
def TraceCancel (cb : Nat → ℚ → Bool) (tr B tr' : List ℚ) : Prop :=
  ∃ u < B.length, tr' = tr ++ B.take (u + 1) ∧
    (∀ v < u, cb (tr.length + v) (B.getD v 0) = true) ∧
    cb (tr.length + u) (B.getD u 0) = false

/-- The run appended some approved prefix of block `B` (used for the
exception outcome, which can interrupt the block sequence but not a
block). -/
def TracePre (cb : Nat → ℚ → Bool) (tr B tr' : List ℚ) : Prop :=
  ∃ c ≤ B.length, tr' = tr ++ B.take c ∧ ∀ u < c, cb (tr.length + u) (B.getD u 0) = true

theorem TraceDone.pre {cb : Nat → ℚ → Bool} {tr B tr' : List ℚ}
    (h : TraceDone cb tr B tr') : TracePre cb tr B tr' :=
  ⟨B.length, le_refl _, by rw [h.1, List.take_of_length_le (le_refl _)], h.2⟩

theorem TraceDone.comp {cb : Nat → ℚ → Bool} {tr B1 tr1 B2 tr2 : List ℚ}
    (h1 : TraceDone cb tr B1 tr1) (h2 : TraceDone cb tr1 B2 tr2) :
    TraceDone cb tr (B1 ++ B2) tr2 := by
  obtain ⟨e1, a1⟩ := h1
  obtain ⟨e2, a2⟩ := h2
  constructor
  · rw [e2, e1, List.append_assoc]
  · intro u hu
    rw [List.length_append] at hu
    rcases Nat.lt_or_ge u B1.length with h | h
    · rw [getD_append_left h]
      exact a1 u h
    · rw [getD_append_right h]
      have := a2 (u - B1.length) (by omega)
      rw [e1, List.length_append] at this
      have harith : tr.length + B1.length + (u - B1.length) = tr.length + u := by omega
      rw [harith] at this
      exact this

theorem TraceDone.compCancel {cb : Nat → ℚ → Bool} {tr B1 tr1 B2 tr2 : List ℚ}
    (h1 : TraceDone cb tr B1 tr1) (h2 : TraceCancel cb tr1 B2 tr2) :
    TraceCancel cb tr (B1 ++ B2) tr2 := by
  obtain ⟨e1, a1⟩ := h1
  obtain ⟨u, hu, e2, a2, hf⟩ := h2
  refine ⟨B1.length + u, by rw [List.length_append]; omega, ?_, ?_, ?_⟩
  · rw [e2, e1, List.append_assoc]
    congr 1
    rw [← List.take_append]
    have harr : B1.length + (u + 1) = B1.length + u + 1 := by omega
    rw [harr]
  · intro v hv
    rcases Nat.lt_or_ge v B1.length with h | h
    · rw [getD_append_left h]
      exact a1 v h
    · rw [getD_append_right h]
      have := a2 (v - B1.length) (by omega)
      rw [e1, List.length_append] at this
      have harith : tr.length + B1.length + (v - B1.length) = tr.length + v := by omega
      rw [harith] at this
      exact this
  · rw [getD_append_right (by omega)]
    have harith : B1.length + u - B1.length = u := by omega
    rw [harith]
    have := hf
    rw [e1, List.length_append] at this
    have harith2 : tr.length + B1.length + u = tr.length + (B1.length + u) := by omega
    rw [harith2] at this
    exact this

theorem TraceDone.compPre {cb : Nat → ℚ → Bool} {tr B1 tr1 B2 tr2 : List ℚ}
    (h1 : TraceDone cb tr B1 tr1) (h2 : TracePre cb tr1 B2 tr2) :
    TracePre cb tr (B1 ++ B2) tr2 := by
  obtain ⟨e1, a1⟩ := h1
  obtain ⟨c, hc, e2, a2⟩ := h2
  refine ⟨B1.length + c, by rw [List.length_append]; omega, ?_, ?_⟩
  · rw [e2, e1, List.append_assoc, List.take_append]
  · intro u hu
    rcases Nat.lt_or_ge u B1.length with h | h
    · rw [getD_append_left h]
      exact a1 u h
    · rw [getD_append_right h]
      have := a2 (u - B1.length) (by omega)
      rw [e1, List.length_append] at this
      have harith : tr.length + B1.length + (u - B1.length) = tr.length + u := by omega
      rw [harith] at this
      exact this

theorem TraceCancel.extendBlock {cb : Nat → ℚ → Bool} {tr B1 tr' : List ℚ} (B2 : List ℚ)
    (h : TraceCancel cb tr B1 tr') : TraceCancel cb tr (B1 ++ B2) tr' := by
  obtain ⟨u, hu, e, a, hf⟩ := h
  refine ⟨u, by rw [List.length_append]; omega, ?_, ?_, ?_⟩
  · rw [e, List.take_append_of_le_length (by omega)]
  · intro v hv
    rw [getD_append_left (by omega)]
    exact a v hv
  · rw [getD_append_left hu]
    exact hf

theorem TracePre.extendBlocks {cb : Nat → ℚ → Bool} {tr B1 tr' : List ℚ} (B2 : List ℚ)
    (h : TracePre cb tr B1 tr') : TracePre cb tr (B1 ++ B2) tr' := by
  obtain ⟨c, hc, e, a⟩ := h
  refine ⟨c, by rw [List.length_append]; omega, ?_, ?_⟩
  · rw [e, List.take_append_of_le_length hc]
  · intro u hu
    rw [getD_append_left (by omega)]
    exact a u hu

/-- Progress values of the phase-2 inner loop starting at `index`. -/
def p2_block (base S2 : ℚ) (index cnt : Nat) : List ℚ :=
  (List.range' index cnt).map (fun u => base + S2 * (u : ℚ))

theorem p2_block_succ (base S2 : ℚ) (index cnt : Nat) :
    p2_block base S2 index (cnt + 1) =
      (base + S2 * (index : ℚ)) :: p2_block base S2 (index + 1) cnt := by
  simp [p2_block, List.range'_succ]

theorem p2_inner_trace (sqrtf : ℚ → ℚ) (cb : Nat → ℚ → Bool) (numQubit qub : Nat)
    (result_state : List CC) (gate : List String) (targetC : Coord3) (base S2 : ℚ) :
    ∀ (cands : List GE) (index : Nat) (tr : List ℚ) (md : ℚ) (stv : Option (List CC))
      (gr : Option GA) (fr : Bool),
      (∀ r1 r2 r3 r4 r5, p2_inner sqrtf cb numQubit qub result_state gate targetC base S2
          cands index tr md stv gr fr = .ok (r1, r2, r3, r4, r5) →
        TraceDone cb tr (p2_block base S2 index cands.length) r1) ∧
      (∀ tr', p2_inner sqrtf cb numQubit qub result_state gate targetC base S2
          cands index tr md stv gr fr = .error (.cancel tr') →
        TraceCancel cb tr (p2_block base S2 index cands.length) tr') ∧
      (∀ tr', p2_inner sqrtf cb numQubit qub result_state gate targetC base S2
          cands index tr md stv gr fr ≠ .error (.exn tr')) := by
  intro cands
  induction cands with
  | nil =>
    intro index tr md stv gr fr
    refine ⟨?_, ?_, ?_⟩
    · intro r1 r2 r3 r4 r5 h
      simp only [p2_inner, Except.ok.injEq, Prod.mk.injEq] at h
      obtain ⟨h1, -⟩ := h
      subst h1
      exact ⟨by simp [p2_block], by simp [p2_block]⟩
    · intro tr' h
      simp only [p2_inner] at h
      exact Except.noConfusion h
    · intro tr' h
      simp only [p2_inner] at h
      exact Except.noConfusion h
  | cons data rest ih =>
    intro index tr md stv gr fr
    have hdone : cb tr.length (base + S2 * (index : ℚ)) = true →
        TraceDone cb tr [base + S2 * (index : ℚ)] (tr ++ [base + S2 * (index : ℚ)]) := by
      intro hcb
      refine ⟨rfl, ?_⟩
      intro u hu
      have hu0 : u = 0 := by simpa using hu
      subst hu0
      simpa using hcb
    refine ⟨?_, ?_, ?_⟩
    · intro r1 r2 r3 r4 r5 h
      rw [List.length_cons, p2_block_succ, ← List.singleton_append]
      simp only [p2_inner] at h
      split at h
      · rename_i hcb
        split at h
        · exact TraceDone.comp (hdone hcb) ((ih (index + 1) _ _ _ _ _).1 r1 r2 r3 r4 r5 h)
        · exact TraceDone.comp (hdone hcb) ((ih (index + 1) _ _ _ _ _).1 r1 r2 r3 r4 r5 h)
      · exact Except.noConfusion h
    · intro tr' h
      rw [List.length_cons, p2_block_succ, ← List.singleton_append]
      simp only [p2_inner] at h
      split at h
      · rename_i hcb
        split at h
        · exact TraceDone.compCancel (hdone hcb) ((ih (index + 1) _ _ _ _ _).2.1 tr' h)
        · exact TraceDone.compCancel (hdone hcb) ((ih (index + 1) _ _ _ _ _).2.1 tr' h)
      · rename_i hcb
        have h' : tr' = tr ++ [base + S2 * (index : ℚ)] :=
          (Stop.cancel.inj (Except.error.inj h)).symm
        subst h'
        refine ⟨0, by simp, ?_, ?_, ?_⟩
        · simp
        · intro v hv; omega
        · simpa using (by simpa using hcb)
    · intro tr' h
      simp only [p2_inner] at h
      split at h
      · split at h
        · exact (ih (index + 1) _ _ _ _ _).2.2 tr' h
        · exact (ih (index + 1) _ _ _ _ _).2.2 tr' h
      · exact Stop.noConfusion (Except.error.inj h)

/-- Progress values of the phase-1 inner loop starting at `index_2`. -/
def p1_block (F1 FO FI : ℚ) (num index_1 index_2 cnt : Nat) : List ℚ :=
  (List.range' index_2 cnt).map
    (fun u => F1 * (num : ℚ) + FO * (index_1 : ℚ) + FI * (u : ℚ))

theorem p1_block_succ (F1 FO FI : ℚ) (num index_1 index_2 cnt : Nat) :
    p1_block F1 FO FI num index_1 index_2 (cnt + 1) =
      (F1 * (num : ℚ) + FO * (index_1 : ℚ) + FI * (index_2 : ℚ)) ::
        p1_block F1 FO FI num index_1 (index_2 + 1) cnt := by
  simp [p1_block, List.range'_succ]

theorem p1_inner_trace (sqrtf : ℚ → ℚ) (cb : Nat → ℚ → Bool) (numQubit : Nat)
    (order : Order2) (gate_2 ControlGate : List String) (data_1 : GE)
    (data_1_state : List CC) (F1 FO FI : ℚ) (num index_1 : Nat) :
    ∀ (cands : List GE) (index_2 : Nat) (tr : List ℚ) (md : ℚ) (stv : Option (List CC))
      (g1 g2 : Option GA) (fr : Bool),
      (∀ r1 r2 r3 r4 r5 r6, p1_inner sqrtf cb numQubit order gate_2 ControlGate data_1
          data_1_state F1 FO FI num index_1 cands index_2 tr md stv g1 g2 fr =
            .ok (r1, r2, r3, r4, r5, r6) →
        TraceDone cb tr (p1_block F1 FO FI num index_1 index_2 cands.length) r1) ∧
      (∀ tr', p1_inner sqrtf cb numQubit order gate_2 ControlGate data_1 data_1_state
          F1 FO FI num index_1 cands index_2 tr md stv g1 g2 fr = .error (.cancel tr') →
        TraceCancel cb tr (p1_block F1 FO FI num index_1 index_2 cands.length) tr') ∧
      (∀ tr', p1_inner sqrtf cb numQubit order gate_2 ControlGate data_1 data_1_state
          F1 FO FI num index_1 cands index_2 tr md stv g1 g2 fr ≠ .error (.exn tr')) := by
  intro cands
  induction cands with
  | nil =>
    intro index_2 tr md stv g1 g2 fr
    refine ⟨?_, ?_, ?_⟩
    · intro r1 r2 r3 r4 r5 r6 h
      simp only [p1_inner, Except.ok.injEq, Prod.mk.injEq] at h
      obtain ⟨h1, -⟩ := h
      subst h1
      exact ⟨by simp [p1_block], by simp [p1_block]⟩
    · intro tr' h
      simp only [p1_inner] at h
      exact Except.noConfusion h
    · intro tr' h
      simp only [p1_inner] at h
      exact Except.noConfusion h
  | cons data rest ih =>
    intro index_2 tr md stv g1 g2 fr
    have hdone : cb tr.length (F1 * (num : ℚ) + FO * (index_1 : ℚ) + FI * (index_2 : ℚ)) =
        true →
        TraceDone cb tr [F1 * (num : ℚ) + FO * (index_1 : ℚ) + FI * (index_2 : ℚ)]
          (tr ++ [F1 * (num : ℚ) + FO * (index_1 : ℚ) + FI * (index_2 : ℚ)]) := by
      intro hcb
      refine ⟨rfl, ?_⟩
      intro u hu
      have hu0 : u = 0 := by simpa using hu
      subst hu0
      simpa using hcb
    refine ⟨?_, ?_, ?_⟩
    · intro r1 r2 r3 r4 r5 r6 h
      rw [List.length_cons, p1_block_succ, ← List.singleton_append]
      simp only [p1_inner] at h
      split at h
      · rename_i hcb
        split at h
        · exact TraceDone.comp (hdone hcb)
            ((ih (index_2 + 1) _ _ _ _ _ _).1 r1 r2 r3 r4 r5 r6 h)
        · exact TraceDone.comp (hdone hcb)
            ((ih (index_2 + 1) _ _ _ _ _ _).1 r1 r2 r3 r4 r5 r6 h)
      · exact Except.noConfusion h
    · intro tr' h
      rw [List.length_cons, p1_block_succ, ← List.singleton_append]
      simp only [p1_inner] at h
      split at h
      · rename_i hcb
        split at h
        · exact TraceDone.compCancel (hdone hcb) ((ih (index_2 + 1) _ _ _ _ _ _).2.1 tr' h)
        · exact TraceDone.compCancel (hdone hcb) ((ih (index_2 + 1) _ _ _ _ _ _).2.1 tr' h)
      · rename_i hcb
        have h' : tr' = tr ++ [F1 * (num : ℚ) + FO * (index_1 : ℚ) + FI * (index_2 : ℚ)] :=
          (Stop.cancel.inj (Except.error.inj h)).symm
        subst h'
        refine ⟨0, by simp, ?_, ?_, ?_⟩
        · simp
        · intro v hv; omega
        · simpa using (by simpa using hcb)
    · intro tr' h
      simp only [p1_inner] at h
      split at h
      · split at h
        · exact (ih (index_2 + 1) _ _ _ _ _ _).2.2 tr' h
        · exact (ih (index_2 + 1) _ _ _ _ _ _).2.2 tr' h
      · exact Stop.noConfusion (Except.error.inj h)

/-- Progress values of one phase-1 outer loop, blocks `index_1` onward. -/
def p1_outer_block (F1 FO FI : ℚ) (num ns index_1 cnt : Nat) : List ℚ :=
  (List.range' index_1 cnt).flatMap (fun i1 => p1_block F1 FO FI num i1 0 ns)

theorem p1_outer_trace (sqrtf : ℚ → ℚ) (cb : Nat → ℚ → Bool) (numQubit : Nat)
    (order : Order2) (gate_1 gate_2 ControlGate : List String) (json_short : List GE)
    (result_state : List CC) (F1 FO FI : ℚ) (num : Nat) :
    ∀ (cands : List GE) (index_1 : Nat) (tr : List ℚ) (md : ℚ) (stv : Option (List CC))
      (g1 g2 : Option GA) (fr : Bool),
      (∀ r1 r2 r3 r4 r5 r6, p1_outer sqrtf cb numQubit order gate_1 gate_2 ControlGate
          json_short result_state F1 FO FI num cands index_1 tr md stv g1 g2 fr =
            .ok (r1, r2, r3, r4, r5, r6) →
        TraceDone cb tr
          (p1_outer_block F1 FO FI num json_short.length index_1 cands.length) r1) ∧
      (∀ tr', p1_outer sqrtf cb numQubit order gate_1 gate_2 ControlGate json_short
          result_state F1 FO FI num cands index_1 tr md stv g1 g2 fr =
            .error (.cancel tr') →
        TraceCancel cb tr
          (p1_outer_block F1 FO FI num json_short.length index_1 cands.length) tr') ∧
      (∀ tr', p1_outer sqrtf cb numQubit order gate_1 gate_2 ControlGate json_short
          result_state F1 FO FI num cands index_1 tr md stv g1 g2 fr ≠
            .error (.exn tr')) := by
  intro cands
  induction cands with
  | nil =>
    intro index_1 tr md stv g1 g2 fr
    refine ⟨?_, ?_, ?_⟩
    · intro r1 r2 r3 r4 r5 r6 h
      simp only [p1_outer, Except.ok.injEq, Prod.mk.injEq] at h
      obtain ⟨h1, -⟩ := h
      subst h1
      exact ⟨by simp [p1_outer_block], by simp [p1_outer_block]⟩
    · intro tr' h
      simp only [p1_outer] at h
      exact Except.noConfusion h
    · intro tr' h
      simp only [p1_outer] at h
      exact Except.noConfusion h
  | cons data rest ih =>
    intro index_1 tr md stv g1 g2 fr
    have hblockdec : p1_outer_block F1 FO FI num json_short.length index_1
        (rest.length + 1) =
        p1_block F1 FO FI num index_1 0 json_short.length ++
          p1_outer_block F1 FO FI num json_short.length (index_1 + 1) rest.length := by
      simp [p1_outer_block, List.range'_succ]
    refine ⟨?_, ?_, ?_⟩
    · intro r1 r2 r3 r4 r5 r6 h
      rw [List.length_cons, hblockdec]
      simp only [p1_outer] at h
      split at h
      · exact Except.noConfusion h
      · rename_i tr2 md2 stv2 g12 g22 fr2 heq
        have hin := (p1_inner_trace sqrtf cb numQubit order gate_2 ControlGate data
          (apply_controlled_gate result_state gate_1 data.2 numQubit) F1 FO FI num index_1
          json_short 0 tr md stv g1 g2 fr).1 tr2 md2 stv2 g12 g22 fr2 heq
        exact TraceDone.comp hin
          ((ih (index_1 + 1) tr2 md2 stv2 g12 g22 fr2).1 r1 r2 r3 r4 r5 r6 h)
    · intro tr' h
      rw [List.length_cons, hblockdec]
      simp only [p1_outer] at h
      split at h
      · rename_i s heq
        have hs : s = .cancel tr' := Except.error.inj h
        subst hs
        exact TraceCancel.extendBlock _
          ((p1_inner_trace sqrtf cb numQubit order gate_2 ControlGate data
            (apply_controlled_gate result_state gate_1 data.2 numQubit) F1 FO FI num index_1
            json_short 0 tr md stv g1 g2 fr).2.1 tr' heq)
      · rename_i tr2 md2 stv2 g12 g22 fr2 heq
        have hin := (p1_inner_trace sqrtf cb numQubit order gate_2 ControlGate data
          (apply_controlled_gate result_state gate_1 data.2 numQubit) F1 FO FI num index_1
          json_short 0 tr md stv g1 g2 fr).1 tr2 md2 stv2 g12 g22 fr2 heq
        exact TraceDone.compCancel hin
          ((ih (index_1 + 1) tr2 md2 stv2 g12 g22 fr2).2.1 tr' h)
    · intro tr' h
      simp only [p1_outer] at h
      split at h
      · rename_i s heq
        have hs : s = .exn tr' := Except.error.inj h
        subst hs
        exact (p1_inner_trace sqrtf cb numQubit order gate_2 ControlGate data
          (apply_controlled_gate result_state gate_1 data.2 numQubit) F1 FO FI num index_1
          json_short 0 tr md stv g1 g2 fr).2.2 tr' heq
      · rename_i tr2 md2 stv2 g12 g22 fr2 heq
        exact (ih (index_1 + 1) tr2 md2 stv2 g12 g22 fr2).2.2 tr' h

theorem p1_step_trace (sqrtf : ℚ → ℚ) (cb : Nat → ℚ → Bool) (numQubit : Nat)
    (json_short : List GE) (F1 FO FI : ℚ) (num : Nat) (order : Order2)
    (result_state : List CC) (gate_array : List GA) (tr : List ℚ)
    (stv : Option (List CC)) (g1 g2 : Option GA) :
    (∀ r1 r2 r3 r4 r5 r6 r7, p1_step sqrtf cb numQubit json_short F1 FO FI num order
        result_state gate_array tr stv g1 g2 = .ok (r1, r2, r3, r4, r5, r6, r7) →
      TraceDone cb tr
        (p1_outer_block F1 FO FI num json_short.length 0 json_short.length) r3) ∧
    (∀ tr', p1_step sqrtf cb numQubit json_short F1 FO FI num order result_state
        gate_array tr stv g1 g2 = .error (.cancel tr') →
      TraceCancel cb tr
        (p1_outer_block F1 FO FI num json_short.length 0 json_short.length) tr') ∧
    (∀ tr', p1_step sqrtf cb numQubit json_short F1 FO FI num order result_state
        gate_array tr stv g1 g2 = .error (.exn tr') →
      TraceDone cb tr
        (p1_outer_block F1 FO FI num json_short.length 0 json_short.length) tr') := by
  refine ⟨?_, ?_, ?_⟩
  · intro r1 r2 r3 r4 r5 r6 r7 h
    simp only [p1_step] at h
    split at h
    · exact Except.noConfusion h
    · rename_i tr2 md2 stv2 g12 g22 fr2 heq
      split at h
      · simp only [Except.ok.injEq, Prod.mk.injEq] at h
        obtain ⟨-, -, h3, -⟩ := h
        subst h3
        exact (p1_outer_trace sqrtf cb numQubit order _ _ _ json_short result_state
          F1 FO FI num json_short 0 tr 2 stv g1 g2 false).1 _ _ _ _ _ _ heq
      · exact Except.noConfusion h
  · intro tr' h
    simp only [p1_step] at h
    split at h
    · rename_i s heq
      have hs : s = .cancel tr' := Except.error.inj h
      subst hs
      exact (p1_outer_trace sqrtf cb numQubit order _ _ _ json_short result_state
        F1 FO FI num json_short 0 tr 2 stv g1 g2 false).2.1 tr' heq
    · rename_i tr2 md2 stv2 g12 g22 fr2 heq
      split at h
      · exact Except.noConfusion h
      · exact Stop.noConfusion (Except.error.inj h)
  · intro tr' h
    simp only [p1_step] at h
    split at h
    · rename_i s heq
      have hs : s = .exn tr' := Except.error.inj h
      subst hs
      exact absurd heq ((p1_outer_trace sqrtf cb numQubit order _ _ _ json_short
        result_state F1 FO FI num json_short 0 tr 2 stv g1 g2 false).2.2 tr')
    · rename_i tr2 md2 stv2 g12 g22 fr2 heq
      split at h
      · exact Except.noConfusion h
      · rename_i hne
        have ht : tr2 = tr' := Stop.exn.inj (Except.error.inj h)
        subst ht
        exact (p1_outer_trace sqrtf cb numQubit order _ _ _ json_short result_state
          F1 FO FI num json_short 0 tr 2 stv g1 g2 false).1 _ _ _ _ _ _ heq

/-- Progress values of phase 1: one full double loop per order step,
for steps `num` onward. -/
def p1_steps_block (F1 FO FI : ℚ) (ns num cnt : Nat) : List ℚ :=
  (List.range' num cnt).flatMap (fun w => p1_outer_block F1 FO FI w ns 0 ns)

theorem p1_steps_block_succ (F1 FO FI : ℚ) (ns num cnt : Nat) :
    p1_steps_block F1 FO FI ns num (cnt + 1) =
      p1_outer_block F1 FO FI num ns 0 ns ++ p1_steps_block F1 FO FI ns (num + 1) cnt := by
  simp [p1_steps_block, List.range'_succ]

theorem p1_all_trace (sqrtf : ℚ → ℚ) (cb : Nat → ℚ → Bool) (numQubit : Nat)
    (json_short : List GE) (F1 FO FI : ℚ) :
    ∀ (orders : List Order2) (num : Nat) (rs : List CC) (ga : List GA) (tr : List ℚ)
      (stv : Option (List CC)) (g1 g2 : Option GA) (af : Bool),
      (∀ r1 r2 r3 r4 r5 r6 r7, p1_all sqrtf cb numQubit json_short F1 FO FI orders num
          (rs, ga, tr, stv, g1, g2, af) = .ok (r1, r2, r3, r4, r5, r6, r7) →
        TraceDone cb tr
          (p1_steps_block F1 FO FI json_short.length num orders.length) r3) ∧
      (∀ tr', p1_all sqrtf cb numQubit json_short F1 FO FI orders num
          (rs, ga, tr, stv, g1, g2, af) = .error (.cancel tr') →
        TraceCancel cb tr
          (p1_steps_block F1 FO FI json_short.length num orders.length) tr') ∧
      (∀ tr', p1_all sqrtf cb numQubit json_short F1 FO FI orders num
          (rs, ga, tr, stv, g1, g2, af) = .error (.exn tr') →
        TracePre cb tr
          (p1_steps_block F1 FO FI json_short.length num orders.length) tr') := by
  intro orders
  induction orders with
  | nil =>
    intro num rs ga tr stv g1 g2 af
    refine ⟨?_, ?_, ?_⟩
    · intro r1 r2 r3 r4 r5 r6 r7 h
      simp only [p1_all, Except.ok.injEq, Prod.mk.injEq] at h
      obtain ⟨-, -, h3, -⟩ := h
      subst h3
      exact ⟨by simp [p1_steps_block], by simp [p1_steps_block]⟩
    · intro tr' h
      simp only [p1_all] at h
      exact Except.noConfusion h
    · intro tr' h
      simp only [p1_all] at h
      exact Except.noConfusion h
  | cons order rest ih =>
    intro num rs ga tr stv g1 g2 af
    have hstep := p1_step_trace sqrtf cb numQubit json_short F1 FO FI num order
      rs ga tr stv g1 g2
    refine ⟨?_, ?_, ?_⟩
    · intro r1 r2 r3 r4 r5 r6 r7 h
      rw [List.length_cons, p1_steps_block_succ]
      simp only [p1_all] at h
      split at h
      · exact Except.noConfusion h
      · rename_i rs2 ga2 tr2 stv2 g12 g22 fr2 heq
        exact TraceDone.comp (hstep.1 _ _ _ _ _ _ _ heq)
          ((ih (num + 1) rs2 ga2 tr2 stv2 g12 g22 (af && fr2)).1 _ _ _ _ _ _ _ h)
    · intro tr' h
      rw [List.length_cons, p1_steps_block_succ]
      simp only [p1_all] at h
      split at h
      · rename_i s heq
        have hs : s = .cancel tr' := Except.error.inj h
        subst hs
        exact TraceCancel.extendBlock _ (hstep.2.1 tr' heq)
      · rename_i rs2 ga2 tr2 stv2 g12 g22 fr2 heq
        exact TraceDone.compCancel (hstep.1 _ _ _ _ _ _ _ heq)
          ((ih (num + 1) rs2 ga2 tr2 stv2 g12 g22 (af && fr2)).2.1 tr' h)
    · intro tr' h
      rw [List.length_cons, p1_steps_block_succ]
      simp only [p1_all] at h
      split at h
      · rename_i s heq
        have hs : s = .exn tr' := Except.error.inj h
        subst hs
        exact TracePre.extendBlocks _ (hstep.2.2 tr' heq).pre
      · rename_i rs2 ga2 tr2 stv2 g12 g22 fr2 heq
        exact TraceDone.compPre (hstep.1 _ _ _ _ _ _ _ heq)
          ((ih (num + 1) rs2 ga2 tr2 stv2 g12 g22 (af && fr2)).2.2 tr' h)

theorem p2_step_trace (sqrtf : ℚ → ℚ) (cb : Nat → ℚ → Bool) (numQubit : Nat)
    (json_long : List GE) (target_coordinates : List Coord3) (FP SO S2 : ℚ) (i : Nat)
    (result_state : List CC) (gate_array : List GA) (tr : List ℚ)
    (stv : Option (List CC)) (gr : Option GA) :
    (∀ r1 r2 r3 r4 r5 r6, p2_step sqrtf cb numQubit json_long target_coordinates FP SO S2
        i result_state gate_array tr stv gr = .ok (r1, r2, r3, r4, r5, r6) →
      TraceDone cb tr (p2_block (FP + SO * (i : ℚ)) S2 0 json_long.length) r3) ∧
    (∀ tr', p2_step sqrtf cb numQubit json_long target_coordinates FP SO S2 i
        result_state gate_array tr stv gr = .error (.cancel tr') →
      TraceCancel cb tr (p2_block (FP + SO * (i : ℚ)) S2 0 json_long.length) tr') ∧
    (∀ tr', p2_step sqrtf cb numQubit json_long target_coordinates FP SO S2 i
        result_state gate_array tr stv gr = .error (.exn tr') →
      TraceDone cb tr (p2_block (FP + SO * (i : ℚ)) S2 0 json_long.length) tr') := by
  refine ⟨?_, ?_, ?_⟩
  · intro r1 r2 r3 r4 r5 r6 h
    simp only [p2_step] at h
    split at h
    · exact Except.noConfusion h
    · rename_i tr2 md2 stv2 gr2 fr2 heq
      split at h
      · simp only [Except.ok.injEq, Prod.mk.injEq] at h
        obtain ⟨-, -, h3, -⟩ := h
        subst h3
        exact (p2_inner_trace sqrtf cb numQubit i result_state _ _ _ S2 json_long 0 tr 2
          stv gr false).1 _ _ _ _ _ heq
      · exact Except.noConfusion h
  · intro tr' h
    simp only [p2_step] at h
    split at h
    · rename_i s heq
      have hs : s = .cancel tr' := Except.error.inj h
      subst hs
      exact (p2_inner_trace sqrtf cb numQubit i result_state _ _ _ S2 json_long 0 tr 2
        stv gr false).2.1 tr' heq
    · rename_i tr2 md2 stv2 gr2 fr2 heq
      split at h
      · exact Except.noConfusion h
      · exact Stop.noConfusion (Except.error.inj h)
  · intro tr' h
    simp only [p2_step] at h
    split at h
    · rename_i s heq
      have hs : s = .exn tr' := Except.error.inj h
      subst hs
      exact absurd heq ((p2_inner_trace sqrtf cb numQubit i result_state _ _ _ S2
        json_long 0 tr 2 stv gr false).2.2 tr')
    · rename_i tr2 md2 stv2 gr2 fr2 heq
      split at h
      · exact Except.noConfusion h
      · have ht : tr2 = tr' := Stop.exn.inj (Except.error.inj h)
        subst ht
        exact (p2_inner_trace sqrtf cb numQubit i result_state _ _ _ S2 json_long 0 tr 2
          stv gr false).1 _ _ _ _ _ heq

/-- Progress values of phase 2 over an explicit qubit list. -/
def p2_qubits_block (FP SO S2 : ℚ) (nl : Nat) (qs : List Nat) : List ℚ :=
  qs.flatMap (fun i => p2_block (FP + SO * (i : ℚ)) S2 0 nl)

theorem p2_qubits_block_cons (FP SO S2 : ℚ) (nl : Nat) (i : Nat) (qs : List Nat) :
    p2_qubits_block FP SO S2 nl (i :: qs) =
      p2_block (FP + SO * (i : ℚ)) S2 0 nl ++ p2_qubits_block FP SO S2 nl qs := by
  simp [p2_qubits_block]

theorem p2_all_trace (sqrtf : ℚ → ℚ) (cb : Nat → ℚ → Bool) (numQubit : Nat)
    (json_long : List GE) (target_coordinates : List Coord3) (FP SO S2 : ℚ) :
    ∀ (qs : List Nat) (rs : List CC) (ga : List GA) (tr : List ℚ)
      (stv : Option (List CC)) (gr : Option GA) (af : Bool),
      (∀ r1 r2 r3 r4 r5 r6, p2_all sqrtf cb numQubit json_long target_coordinates FP SO S2
          qs (rs, ga, tr, stv, gr, af) = .ok (r1, r2, r3, r4, r5, r6) →
        TraceDone cb tr (p2_qubits_block FP SO S2 json_long.length qs) r3) ∧
      (∀ tr', p2_all sqrtf cb numQubit json_long target_coordinates FP SO S2
          qs (rs, ga, tr, stv, gr, af) = .error (.cancel tr') →
        TraceCancel cb tr (p2_qubits_block FP SO S2 json_long.length qs) tr') ∧
      (∀ tr', p2_all sqrtf cb numQubit json_long target_coordinates FP SO S2
          qs (rs, ga, tr, stv, gr, af) = .error (.exn tr') →
        TracePre cb tr (p2_qubits_block FP SO S2 json_long.length qs) tr') := by
  intro qs
  induction qs with
  | nil =>
    intro rs ga tr stv gr af
    refine ⟨?_, ?_, ?_⟩
    · intro r1 r2 r3 r4 r5 r6 h
      simp only [p2_all, Except.ok.injEq, Prod.mk.injEq] at h
      obtain ⟨-, -, h3, -⟩ := h
      subst h3
      exact ⟨by simp [p2_qubits_block], by simp [p2_qubits_block]⟩
    · intro tr' h
      simp only [p2_all] at h
      exact Except.noConfusion h
    · intro tr' h
      simp only [p2_all] at h
      exact Except.noConfusion h
  | cons i rest ih =>
    intro rs ga tr stv gr af
    have hstep := p2_step_trace sqrtf cb numQubit json_long target_coordinates FP SO S2 i
      rs ga tr stv gr
    refine ⟨?_, ?_, ?_⟩
    · intro r1 r2 r3 r4 r5 r6 h
      rw [p2_qubits_block_cons]
      simp only [p2_all] at h
      split at h
      · exact Except.noConfusion h
      · rename_i rs2 ga2 tr2 stv2 gr2 fr2 heq
        exact TraceDone.comp (hstep.1 _ _ _ _ _ _ heq)
          ((ih rs2 ga2 tr2 stv2 gr2 (af && fr2)).1 _ _ _ _ _ _ h)
    · intro tr' h
      rw [p2_qubits_block_cons]
      simp only [p2_all] at h
      split at h
      · rename_i s heq
        have hs : s = .cancel tr' := Except.error.inj h
        subst hs
        exact TraceCancel.extendBlock _ (hstep.2.1 tr' heq)
      · rename_i rs2 ga2 tr2 stv2 gr2 fr2 heq
        exact TraceDone.compCancel (hstep.1 _ _ _ _ _ _ heq)
          ((ih rs2 ga2 tr2 stv2 gr2 (af && fr2)).2.1 tr' h)
    · intro tr' h
      rw [p2_qubits_block_cons]
      simp only [p2_all] at h
      split at h
      · rename_i s heq
        have hs : s = .exn tr' := Except.error.inj h
        subst hs
        exact TracePre.extendBlocks _ (hstep.2.2 tr' heq).pre
      · rename_i rs2 ga2 tr2 stv2 gr2 fr2 heq
        exact TraceDone.compPre (hstep.1 _ _ _ _ _ _ heq)
          ((ih rs2 ga2 tr2 stv2 gr2 (af && fr2)).2.2 tr' h)

/-- The complete progress schedule of a run: one phase-1 double loop
per calc-order step, then one phase-2 loop per qubit; empty when the
radius check fails or the step total is zero. -/
def fullTrace (json_long json_short : List GE) (target_coordinates : List Coord3)
    (target_radius : List ℚ) : List ℚ :=
  let numQubit := target_coordinates.length
  match radius_judge numQubit target_radius with
  | .err _ _ _ => []
  | .order sorted_data =>
    let calc_order := if sorted_data.length ≠ 0 then add_order sorted_data else []
    let FirstStep := json_short.length * (1 + json_short.length * 3)
    let SecondOutsideStep := 2 * json_long.length
    let totalCalcStep := calc_order.length * FirstStep + numQubit * SecondOutsideStep
    if totalCalcStep = 0 then []
    else
      let FI : ℚ := (3 / (totalCalcStep : ℚ)) * 100
      let FO : ℚ := (((1 + json_short.length * 3 : Nat) : ℚ) / (totalCalcStep : ℚ)) * 100
      let F1 : ℚ := ((FirstStep : ℚ) / (totalCalcStep : ℚ)) * 100
      let FP : ℚ := (((calc_order.length * FirstStep : Nat) : ℚ) / (totalCalcStep : ℚ)) * 100
      let S2 : ℚ := ((2 : ℚ) / (totalCalcStep : ℚ)) * 100
      let SO : ℚ := ((SecondOutsideStep : ℚ) / (totalCalcStep : ℚ)) * 100
      p1_steps_block F1 FO FI json_short.length 0 calc_order.length ++
        p2_qubits_block FP SO S2 json_long.length (List.range numQubit)

theorem mainCalc_trace (sqrtf : ℚ → ℚ) (cb : Nat → ℚ → Bool)
    (json_long json_short : List GE) (initialize_state : List CC)
    (target_coordinates : List Coord3) (target_radius : List ℚ) :
    ∀ res tr af, mainCalc sqrtf cb json_long json_short initialize_state
        target_coordinates target_radius = (res, tr, af) →
      ((∀ ga rs, res = MCRes.ok ga rs →
         TraceDone cb []
           (fullTrace json_long json_short target_coordinates target_radius) tr) ∧
       (res = .cancelled →
         TraceCancel cb []
           (fullTrace json_long json_short target_coordinates target_radius) tr) ∧
       (res = .exn →
         TracePre cb []
           (fullTrace json_long json_short target_coordinates target_radius) tr)) := by
  intro res tr af h
  simp only [mainCalc] at h
  simp only [fullTrace]
  split at h
  · rename_i c d mr heq
    simp only [Prod.mk.injEq] at h
    obtain ⟨h1, h2, -⟩ := h
    subst h1
    subst h2
    exact ⟨fun ga rs hok => MCRes.noConfusion hok,
           fun hc => MCRes.noConfusion hc,
           fun he => MCRes.noConfusion he⟩
  · rename_i sorted_data heq
    split at h
    · rename_i hlen
      rw [if_pos hlen]
      split at h
      · rename_i htot
        simp only [Prod.mk.injEq] at h
        obtain ⟨h1, h2, -⟩ := h
        subst h1
        subst h2
        exact ⟨fun ga rs hok => MCRes.noConfusion hok,
               fun hc => MCRes.noConfusion hc,
               fun he => ⟨0, Nat.zero_le _, by simp,
                 fun u hu => absurd hu (Nat.not_lt_zero u)⟩⟩
      · rename_i htot
        rw [if_neg htot]
        split at h
        · rename_i tr1 heq1
          simp only [Prod.mk.injEq] at h
          obtain ⟨h1, h2, -⟩ := h
          subst h1
          subst h2
          refine ⟨fun ga rs hok => MCRes.noConfusion hok, fun hc => ?_,
                  fun he => MCRes.noConfusion he⟩
          exact TraceCancel.extendBlock _
            ((p1_all_trace sqrtf cb _ json_short _ _ _ _ 0 initialize_state [] [] none none
              none true).2.1 tr1 heq1)
        · rename_i tr1 heq1
          simp only [Prod.mk.injEq] at h
          obtain ⟨h1, h2, -⟩ := h
          subst h1
          subst h2
          refine ⟨fun ga rs hok => MCRes.noConfusion hok,
                  fun hc => MCRes.noConfusion hc, fun he => ?_⟩
          exact TracePre.extendBlocks _
            ((p1_all_trace sqrtf cb _ json_short _ _ _ _ 0 initialize_state [] [] none none
              none true).2.2 tr1 heq1)
        · rename_i rs1 ga1 tr1 stv1 g11 g21 af1 heq1
          have hp1 := (p1_all_trace sqrtf cb _ json_short _ _ _ _ 0 initialize_state [] []
            none none none true).1 rs1 ga1 tr1 stv1 g11 g21 af1 heq1
          split at h
          · rename_i tr2 heq2
            simp only [Prod.mk.injEq] at h
            obtain ⟨h1, h2, -⟩ := h
            subst h1
            subst h2
            refine ⟨fun ga rs hok => MCRes.noConfusion hok, fun hc => ?_,
                    fun he => MCRes.noConfusion he⟩
            exact TraceDone.compCancel hp1
              ((p2_all_trace sqrtf cb _ json_long target_coordinates _ _ _ (List.range _)
                rs1 ga1 tr1 stv1 none af1).2.1 tr2 heq2)
          · rename_i tr2 heq2
            simp only [Prod.mk.injEq] at h
            obtain ⟨h1, h2, -⟩ := h
            subst h1
            subst h2
            refine ⟨fun ga rs hok => MCRes.noConfusion hok,
                    fun hc => MCRes.noConfusion hc, fun he => ?_⟩
            exact TraceDone.compPre hp1
              ((p2_all_trace sqrtf cb _ json_long target_coordinates _ _ _ (List.range _)
                rs1 ga1 tr1 stv1 none af1).2.2 tr2 heq2)
          · rename_i rs2 ga2 tr2 stv2 gr2 af2 heq2
            simp only [Prod.mk.injEq] at h
            obtain ⟨h1, h2, -⟩ := h
            subst h1
            subst h2
            refine ⟨fun ga rs hok => ?_, fun hc => MCRes.noConfusion hc,
                    fun he => MCRes.noConfusion he⟩
            exact TraceDone.comp hp1
              ((p2_all_trace sqrtf cb _ json_long target_coordinates _ _ _ (List.range _)
                rs1 ga1 tr1 stv1 none af1).1 rs2 ga2 tr2 stv2 gr2 af2 heq2)
    · rename_i hlen
      rw [if_neg hlen]
      split at h
      · rename_i htot
        simp only [Prod.mk.injEq] at h
        obtain ⟨h1, h2, -⟩ := h
        subst h1
        subst h2
        exact ⟨fun ga rs hok => MCRes.noConfusion hok,
               fun hc => MCRes.noConfusion hc,
               fun he => ⟨0, Nat.zero_le _, by simp,
                 fun u hu => absurd hu (Nat.not_lt_zero u)⟩⟩
      · rename_i htot
        rw [if_neg htot]
        split at h
        · rename_i tr1 heq1
          simp only [Prod.mk.injEq] at h
          obtain ⟨h1, h2, -⟩ := h
          subst h1
          subst h2
          refine ⟨fun ga rs hok => MCRes.noConfusion hok, fun hc => ?_,
                  fun he => MCRes.noConfusion he⟩
          exact TraceCancel.extendBlock _
            ((p1_all_trace sqrtf cb _ json_short _ _ _ _ 0 initialize_state [] [] none none
              none true).2.1 tr1 heq1)
        · rename_i tr1 heq1
          simp only [Prod.mk.injEq] at h
          obtain ⟨h1, h2, -⟩ := h
          subst h1
          subst h2
          refine ⟨fun ga rs hok => MCRes.noConfusion hok,
                  fun hc => MCRes.noConfusion hc, fun he => ?_⟩
          exact TracePre.extendBlocks _
            ((p1_all_trace sqrtf cb _ json_short _ _ _ _ 0 initialize_state [] [] none none
              none true).2.2 tr1 heq1)
        · rename_i rs1 ga1 tr1 stv1 g11 g21 af1 heq1
          have hp1 := (p1_all_trace sqrtf cb _ json_short _ _ _ _ 0 initialize_state [] []
            none none none true).1 rs1 ga1 tr1 stv1 g11 g21 af1 heq1
          split at h
          · rename_i tr2 heq2
            simp only [Prod.mk.injEq] at h
            obtain ⟨h1, h2, -⟩ := h
            subst h1
            subst h2
            refine ⟨fun ga rs hok => MCRes.noConfusion hok, fun hc => ?_,
                    fun he => MCRes.noConfusion he⟩
            exact TraceDone.compCancel hp1
              ((p2_all_trace sqrtf cb _ json_long target_coordinates _ _ _ (List.range _)
                rs1 ga1 tr1 stv1 none af1).2.1 tr2 heq2)
          · rename_i tr2 heq2
            simp only [Prod.mk.injEq] at h
            obtain ⟨h1, h2, -⟩ := h
            subst h1
            subst h2
            refine ⟨fun ga rs hok => MCRes.noConfusion hok,
                    fun hc => MCRes.noConfusion hc, fun he => ?_⟩
            exact TraceDone.compPre hp1
              ((p2_all_trace sqrtf cb _ json_long target_coordinates _ _ _ (List.range _)
                rs1 ga1 tr1 stv1 none af1).2.2 tr2 heq2)
          · rename_i rs2 ga2 tr2 stv2 gr2 af2 heq2
            simp only [Prod.mk.injEq] at h
            obtain ⟨h1, h2, -⟩ := h
            subst h1
            subst h2
            refine ⟨fun ga rs hok => ?_, fun hc => MCRes.noConfusion hc,
                    fun he => MCRes.noConfusion he⟩
            exact TraceDone.comp hp1
              ((p2_all_trace sqrtf cb _ json_long target_coordinates _ _ _ (List.range _)
                rs1 ga1 tr1 stv1 none af1).1 rs2 ga2 tr2 stv2 gr2 af2 heq2)

/-- C5: cooperative cancellation.  If the caller-supplied progress
callback returns `false` at some invocation — including the very first
— `mainCalc` returns the bare failure signal `.cancelled` (the
source's `return False, False`, which carries no partial gate list and
no state): the recorded invocations are exactly the approved prefix of
the progress schedule followed by the single refused one, so no
further invocation happens after the refusal and nothing is committed
beyond what preceded it; conversely a normally completed run had every
invocation approved, so a refusal anywhere always triggers
cancellation. -/
theorem mainCalc_cancel_contract (sqrtf : ℚ → ℚ) (cb : Nat → ℚ → Bool)
    (json_long json_short : List GE) (initialize_state : List CC)
    (target_coordinates : List Coord3) (target_radius : List ℚ)
    (res : MCRes) (tr : List ℚ) (af : Bool)
    (h : mainCalc sqrtf cb json_long json_short initialize_state target_coordinates
      target_radius = (res, tr, af)) :
    (res = MCRes.cancelled →
      ∃ u < (fullTrace json_long json_short target_coordinates target_radius).length,
        tr = (fullTrace json_long json_short target_coordinates target_radius).take
          (u + 1) ∧
        (∀ v < u,
          cb v ((fullTrace json_long json_short target_coordinates target_radius).getD
            v 0) = true) ∧
        cb u ((fullTrace json_long json_short target_coordinates target_radius).getD
          u 0) = false) ∧
    (∀ ga rs, res = MCRes.ok ga rs →
      tr = fullTrace json_long json_short target_coordinates target_radius ∧
      ∀ u < (fullTrace json_long json_short target_coordinates target_radius).length,
        cb u ((fullTrace json_long json_short target_coordinates target_radius).getD
          u 0) = true) := by
  have hm := mainCalc_trace sqrtf cb json_long json_short initialize_state
    target_coordinates target_radius res tr af h
  constructor
  · intro hc
    obtain ⟨u, hu, he, ha, hf⟩ := hm.2.1 hc
    refine ⟨u, hu, by simpa using he, ?_, ?_⟩
    · intro v hv
      simpa using ha v hv
    · simpa using hf
  · intro ga rs hok
    obtain ⟨he, ha⟩ := hm.1 ga rs hok
    refine ⟨by simpa using he, ?_⟩
    intro u hu
    simpa using ha u hu

theorem mainCalc_cancel_contract_witness :
    ∃ u < (fullTrace [(["x"], X)] [] [(0, 0, -1), (0, 0, 1)] [1, 1]).length,
      [(0 : ℚ)] = (fullTrace [(["x"], X)] [] [(0, 0, -1), (0, 0, 1)] [1, 1]).take
        (u + 1) ∧
      (∀ v < u,
        (fun (_ : Nat) (_ : ℚ) => false) v
          ((fullTrace [(["x"], X)] [] [(0, 0, -1), (0, 0, 1)] [1, 1]).getD v 0) = true) ∧
      (fun (_ : Nat) (_ : ℚ) => false) u
        ((fullTrace [(["x"], X)] [] [(0, 0, -1), (0, 0, 1)] [1, 1]).getD u 0) = false :=
  (mainCalc_cancel_contract (fun q => if q = 4 then 2 else 0) (fun _ _ => false)
    [(["x"], X)] [] [1, 0, 0, 0] [(0, 0, -1), (0, 0, 1)] [1, 1] .cancelled [0] true
    (by with_unfolding_all decide)).1 rfl

/-- C6 counterexample: a run whose feasibility check passes (the radius
judge returns an order list) and whose callback always approves, yet
which raises instead of returning a result: the short candidate table
is empty, so the first order step's commit reads the never-assigned
best-candidate locals (the source's `UnboundLocalError`). -/
theorem mainCalc_empty_short_c6_counterexample :
    radius_judge 2 [9 / 10, 9 / 10] = JudgeResult.order [(0, 9 / 10), (1, 9 / 10)] ∧
    mainCalc (fun q => if q = 4 then 2 else 0) (fun _ _ => true)
      [(["x"], X)] [] [1, 0, 0, 0] [(0, 0, 1), (0, 0, 1)] [9 / 10, 9 / 10] =
      (.exn, [], true) := by
  constructor
  · with_unfolding_all decide
  · with_unfolding_all decide

/-- C6 (amended): the brute-force search does not always produce a
best-effort result even when the input is feasible and the callback
never refuses: whenever the feasibility check passes, the planner
produced at least one order step, and the total step count is nonzero,
an empty short candidate table makes the very first order step's
commit read never-assigned locals, so `mainCalc` raises
(`UnboundLocalError`) regardless of the callback; likewise a zero
total step count raises (`ZeroDivisionError`) before any search. -/
theorem mainCalc_empty_short_exn (sqrtf : ℚ → ℚ) (cb : Nat → ℚ → Bool)
    (json_long : List GE) (initialize_state : List CC)
    (target_coordinates : List Coord3) (target_radius : List ℚ) (sd : List (Nat × ℚ))
    (hjudge : radius_judge target_coordinates.length target_radius =
      JudgeResult.order sd)
    (hco : (if sd.length ≠ 0 then add_order sd else []) ≠ [])
    (htot : target_coordinates.length * (2 * json_long.length) ≠ 0) :
    mainCalc sqrtf cb json_long [] initialize_state target_coordinates target_radius =
      (.exn, [], true) := by
  obtain ⟨o, rest, hco'⟩ := List.exists_cons_of_ne_nil hco
  simp only [mainCalc, hjudge]
  rw [hco']
  rw [if_neg (by simpa using htot)]
  simp only [p1_all, p1_step, p1_outer]

theorem mainCalc_empty_short_exn_witness :
    radius_judge 2 [9 / 10, 9 / 10] = JudgeResult.order [(0, 9 / 10), (1, 9 / 10)] ∧
    (if ([(0, 9 / 10), (1, 9 / 10)] : List (Nat × ℚ)).length ≠ 0 then
      add_order [(0, 9 / 10), (1, 9 / 10)] else []) ≠ [] ∧
    mainCalc (fun _ => 0) (fun _ _ => true) [(["x"], X)] []
      [1, 0, 0, 0] [(0, 0, 1), (0, 0, 1)] [9 / 10, 9 / 10] = (.exn, [], true) :=
  ⟨by with_unfolding_all decide, by with_unfolding_all decide,
   mainCalc_empty_short_exn (fun _ => 0) (fun _ _ => true) [(["x"], X)] [1, 0, 0, 0]
     [(0, 0, 1), (0, 0, 1)] [9 / 10, 9 / 10] [(0, 9 / 10), (1, 9 / 10)]
     (by with_unfolding_all decide) (by with_unfolding_all decide) (by decide)⟩

/-! ### Strict monotonicity of the progress schedule -/

theorem chain_lt_range' (a n : Nat) : List.Chain' (· < ·) (List.range' a n) := by
  induction n generalizing a with
  | zero => simp
  | succ n ih =>
    rw [List.range'_succ]
    refine List.chain'_cons'.mpr ⟨?_, ih (a + 1)⟩
    intro b hb
    cases n with
    | zero => simp at hb
    | succ m =>
      rw [List.range'_succ] at hb
      simp only [List.head?_cons, Option.mem_def, Option.some.injEq] at hb
      omega

theorem chain'_append_of_lt {A B : List ℚ} (hA : List.Chain' (· < ·) A)
    (hB : List.Chain' (· < ·) B) (hAB : ∀ x ∈ A, ∀ y ∈ B, x < y) :
    List.Chain' (· < ·) (A ++ B) := by
  rw [List.chain'_append]
  refine ⟨hA, hB, ?_⟩
  intro x hx y hy
  obtain ⟨hn, hxe⟩ := List.mem_getLast?_eq_getLast hx
  exact hxe ▸ hAB _ (List.getLast_mem hn) y (List.mem_of_mem_head? hy)

theorem chain'_flatMap_range' (f : Nat → List ℚ) (a n : Nat)
    (hchain : ∀ i, List.Chain' (· < ·) (f i))
    (hsep : ∀ i j, i < j → ∀ x ∈ f i, ∀ y ∈ f j, x < y) :
    List.Chain' (· < ·) ((List.range' a n).flatMap f) := by
  induction n generalizing a with
  | zero => simp
  | succ n ih =>
    rw [List.range'_succ, List.flatMap_cons]
    refine chain'_append_of_lt (hchain a) (ih (a + 1)) ?_
    intro x hx y hy
    rw [List.mem_flatMap] at hy
    obtain ⟨j, hj, hyj⟩ := hy
    rw [List.mem_range'] at hj
    obtain ⟨i, -, hji⟩ := hj
    exact hsep a j (by omega) x hx y hyj

theorem mem_p2_block {base S2 : ℚ} {index cnt : Nat} {x : ℚ} :
    x ∈ p2_block base S2 index cnt →
    ∃ u, index ≤ u ∧ u < index + cnt ∧ x = base + S2 * (u : ℚ) := by
  induction cnt generalizing index with
  | zero => intro h; simp [p2_block] at h
  | succ n ih =>
    intro h
    rw [p2_block_succ] at h
    rcases List.mem_cons.mp h with h | h
    · exact ⟨index, le_refl _, by omega, h⟩
    · obtain ⟨u, h1, h2, h3⟩ := ih h
      exact ⟨u, by omega, by omega, h3⟩

theorem mem_p1_block {F1 FO FI : ℚ} {num index_1 index_2 cnt : Nat} {x : ℚ} :
    x ∈ p1_block F1 FO FI num index_1 index_2 cnt →
    ∃ u, index_2 ≤ u ∧ u < index_2 + cnt ∧
      x = F1 * (num : ℚ) + FO * (index_1 : ℚ) + FI * (u : ℚ) := by
  induction cnt generalizing index_2 with
  | zero => intro h; simp [p1_block] at h
  | succ n ih =>
    intro h
    rw [p1_block_succ] at h
    rcases List.mem_cons.mp h with h | h
    · exact ⟨index_2, le_refl _, by omega, h⟩
    · obtain ⟨u, h1, h2, h3⟩ := ih h
      exact ⟨u, by omega, by omega, h3⟩

theorem p2_block_chain {S2 : ℚ} (hS2 : 0 < S2) (base : ℚ) (index cnt : Nat) :
    List.Chain' (· < ·) (p2_block base S2 index cnt) := by
  induction cnt generalizing index with
  | zero => simp [p2_block]
  | succ n ih =>
    rw [p2_block_succ]
    refine List.chain'_cons'.mpr ⟨?_, ih (index + 1)⟩
    intro b hb
    cases n with
    | zero => simp [p2_block] at hb
    | succ m =>
      rw [p2_block_succ] at hb
      simp only [List.head?_cons, Option.mem_def, Option.some.injEq] at hb
      subst hb
      have hc : (index : ℚ) < ((index + 1 : Nat) : ℚ) := by exact_mod_cast Nat.lt_succ_self index
      nlinarith

theorem p1_block_chain {FI : ℚ} (hFI : 0 < FI) (F1 FO : ℚ)
    (num index_1 index_2 cnt : Nat) :
    List.Chain' (· < ·) (p1_block F1 FO FI num index_1 index_2 cnt) := by
  induction cnt generalizing index_2 with
  | zero => simp [p1_block]
  | succ n ih =>
    rw [p1_block_succ]
    refine List.chain'_cons'.mpr ⟨?_, ih (index_2 + 1)⟩
    intro b hb
    cases n with
    | zero => simp [p1_block] at hb
    | succ m =>
      rw [p1_block_succ] at hb
      simp only [List.head?_cons, Option.mem_def, Option.some.injEq] at hb
      subst hb
      have hc : (index_2 : ℚ) < ((index_2 + 1 : Nat) : ℚ) := by
        exact_mod_cast Nat.lt_succ_self index_2
      nlinarith

theorem ratio_lt_ratio {T : ℚ} (hT : 0 < T) {A B : ℚ} (h : A < B) :
    A / T * 100 < B / T * 100 :=
  mul_lt_mul_of_pos_right ((div_lt_div_right hT).mpr h) (by norm_num)

theorem p1_outer_block_succ (F1 FO FI : ℚ) (num ns index_1 cnt : Nat) :
    p1_outer_block F1 FO FI num ns index_1 (cnt + 1) =
      p1_block F1 FO FI num index_1 0 ns ++
        p1_outer_block F1 FO FI num ns (index_1 + 1) cnt := by
  simp [p1_outer_block, List.range'_succ]

theorem mem_p1_outer_block {F1 FO FI : ℚ} {num ns index_1 cnt : Nat} {x : ℚ} :
    x ∈ p1_outer_block F1 FO FI num ns index_1 cnt →
    ∃ i1 u, index_1 ≤ i1 ∧ i1 < index_1 + cnt ∧ u < ns ∧
      x = F1 * (num : ℚ) + FO * (i1 : ℚ) + FI * (u : ℚ) := by
  induction cnt generalizing index_1 with
  | zero => intro h; simp [p1_outer_block] at h
  | succ n ih =>
    intro h
    rw [p1_outer_block_succ] at h
    rcases List.mem_append.mp h with h | h
    · obtain ⟨u, -, hu, hxe⟩ := mem_p1_block h
      exact ⟨index_1, u, le_refl _, by omega, by omega, hxe⟩
    · obtain ⟨i1, u, h1, h2, h3, hxe⟩ := ih h
      exact ⟨i1, u, by omega, by omega, h3, hxe⟩

theorem mem_p1_steps_block {F1 FO FI : ℚ} {ns num cnt : Nat} {x : ℚ} :
    x ∈ p1_steps_block F1 FO FI ns num cnt →
    ∃ w i1 u, num ≤ w ∧ w < num + cnt ∧ i1 < ns ∧ u < ns ∧
      x = F1 * (w : ℚ) + FO * (i1 : ℚ) + FI * (u : ℚ) := by
  induction cnt generalizing num with
  | zero => intro h; simp [p1_steps_block] at h
  | succ n ih =>
    intro h
    rw [p1_steps_block_succ] at h
    rcases List.mem_append.mp h with h | h
    · obtain ⟨i1, u, -, hi1, hu, hxe⟩ := mem_p1_outer_block h
      exact ⟨num, i1, u, le_refl _, by omega, by omega, hu, hxe⟩
    · obtain ⟨w, i1, u, h1, h2, h3, h4, hxe⟩ := ih h
      exact ⟨w, i1, u, by omega, by omega, h3, h4, hxe⟩

theorem p1_outer_block_chain {F1 FO FI : ℚ} {ns : Nat} (hFI : 0 < FI)
    (hsepO : ∀ u : Nat, u < ns → FI * (u : ℚ) < FO) (num index_1 cnt : Nat) :
    List.Chain' (· < ·) (p1_outer_block F1 FO FI num ns index_1 cnt) := by
  simp only [p1_outer_block]
  refine chain'_flatMap_range' _ _ _ (fun i => p1_block_chain hFI F1 FO num i 0 ns) ?_
  intro i j hij x hx y hy
  obtain ⟨u, -, hu, hxe⟩ := mem_p1_block hx
  obtain ⟨v, -, hv, hye⟩ := mem_p1_block hy
  subst hxe hye
  have h1 : FI * (u : ℚ) < FO := hsepO u (by omega)
  have h2 : (0 : ℚ) < FO := by simpa using hsepO 0 (by omega)
  have h3 : (0 : ℚ) ≤ FI * (v : ℚ) := by positivity
  have h4 : ((i : ℚ) + 1) ≤ (j : ℚ) := by exact_mod_cast hij
  nlinarith [mul_le_mul_of_nonneg_left h4 h2.le]

theorem p1_steps_block_chain {F1 FO FI : ℚ} {ns : Nat} (hFI : 0 < FI)
    (hsepO : ∀ u : Nat, u < ns → FI * (u : ℚ) < FO)
    (hsepS : ∀ i1 u : Nat, i1 < ns → u < ns →
      FO * (i1 : ℚ) + FI * (u : ℚ) < F1) (num cnt : Nat) :
    List.Chain' (· < ·) (p1_steps_block F1 FO FI ns num cnt) := by
  simp only [p1_steps_block]
  refine chain'_flatMap_range' _ _ _ (fun w => p1_outer_block_chain hFI hsepO w 0 ns) ?_
  intro i j hij x hx y hy
  obtain ⟨i1, u, -, hi1, hu, hxe⟩ := mem_p1_outer_block hx
  obtain ⟨j1, v, -, hj1, hv, hye⟩ := mem_p1_outer_block hy
  subst hxe hye
  have h1 : FO * (i1 : ℚ) + FI * (u : ℚ) < F1 := hsepS i1 u (by omega) hu
  have h2 : (0 : ℚ) < F1 := by simpa using hsepS 0 0 (by omega) (by omega)
  have h3 : (0 : ℚ) < FO := by simpa using hsepO 0 (by omega)
  have h4 : (0 : ℚ) ≤ FO * (j1 : ℚ) + FI * (v : ℚ) := by positivity
  have h5 : ((i : ℚ) + 1) ≤ (j : ℚ) := by exact_mod_cast hij
  nlinarith [mul_le_mul_of_nonneg_left h5 h2.le]

theorem mem_p2_qubits_block {FP SO S2 : ℚ} {nl : Nat} {qs : List Nat} {y : ℚ} :
    y ∈ p2_qubits_block FP SO S2 nl qs →
    ∃ i u, i ∈ qs ∧ u < nl ∧ y = FP + SO * (i : ℚ) + S2 * (u : ℚ) := by
  induction qs with
  | nil => intro h; simp [p2_qubits_block] at h
  | cons q rest ih =>
    intro h
    rw [p2_qubits_block_cons] at h
    rcases List.mem_append.mp h with h | h
    · obtain ⟨u, -, hu, hye⟩ := mem_p2_block h
      exact ⟨q, u, List.mem_cons_self _ _, by omega, by rw [hye]⟩
    · obtain ⟨i, u, hi, hu, hye⟩ := ih h
      exact ⟨i, u, List.mem_cons_of_mem _ hi, hu, hye⟩

theorem p2_range_block_chain {SO S2 : ℚ} {nl : Nat} (hS2 : 0 < S2)
    (hsepP : ∀ u : Nat, u < nl → S2 * (u : ℚ) < SO) (FP : ℚ) (a n : Nat) :
    List.Chain' (· < ·)
      ((List.range' a n).flatMap (fun i => p2_block (FP + SO * (i : ℚ)) S2 0 nl)) := by
  refine chain'_flatMap_range' _ _ _ (fun i => p2_block_chain hS2 _ 0 nl) ?_
  intro i j hij x hx y hy
  obtain ⟨u, -, hu, hxe⟩ := mem_p2_block hx
  obtain ⟨v, -, hv, hye⟩ := mem_p2_block hy
  subst hxe hye
  have h1 : S2 * (u : ℚ) < SO := hsepP u (by omega)
  have h2 : (0 : ℚ) < SO := by simpa using hsepP 0 (by omega)
  have h3 : (0 : ℚ) ≤ S2 * (v : ℚ) := by positivity
  have h4 : ((i : ℚ) + 1) ≤ (j : ℚ) := by exact_mod_cast hij
  nlinarith [mul_le_mul_of_nonneg_left h4 h2.le]

theorem p1_block_length (F1 FO FI : ℚ) (num i1 i2 cnt : Nat) :
    (p1_block F1 FO FI num i1 i2 cnt).length = cnt := by
  induction cnt generalizing i2 with
  | zero => simp [p1_block]
  | succ n ih => rw [p1_block_succ, List.length_cons, ih]

theorem p2_block_length (base S2 : ℚ) (index cnt : Nat) :
    (p2_block base S2 index cnt).length = cnt := by
  induction cnt generalizing index with
  | zero => simp [p2_block]
  | succ n ih => rw [p2_block_succ, List.length_cons, ih]

theorem p1_outer_block_length (F1 FO FI : ℚ) (num ns index_1 cnt : Nat) :
    (p1_outer_block F1 FO FI num ns index_1 cnt).length = cnt * ns := by
  induction cnt generalizing index_1 with
  | zero => simp [p1_outer_block]
  | succ n ih =>
    rw [p1_outer_block_succ, List.length_append, p1_block_length, ih]
    ring

theorem p1_steps_block_length (F1 FO FI : ℚ) (ns num cnt : Nat) :
    (p1_steps_block F1 FO FI ns num cnt).length = cnt * (ns * ns) := by
  induction cnt generalizing num with
  | zero => simp [p1_steps_block]
  | succ n ih =>
    rw [p1_steps_block_succ, List.length_append, p1_outer_block_length, ih]
    ring

theorem p2_qubits_block_length (FP SO S2 : ℚ) (nl : Nat) (qs : List Nat) :
    (p2_qubits_block FP SO S2 nl qs).length = qs.length * nl := by
  induction qs with
  | nil => simp [p2_qubits_block]
  | cons q rest ih =>
    rw [p2_qubits_block_cons, List.length_append, p2_block_length, ih,
      List.length_cons]
    ring

theorem p2_qubits_block_range_chain {SO S2 : ℚ} {nl : Nat} (hS2 : 0 < S2)
    (hsepP : ∀ u : Nat, u < nl → S2 * (u : ℚ) < SO) (FP : ℚ) (nq : Nat) :
    List.Chain' (· < ·) (p2_qubits_block FP SO S2 nl (List.range nq)) := by
  simp only [p2_qubits_block, List.range_eq_range']
  exact p2_range_block_chain hS2 hsepP FP 0 nq

theorem p1_p2_cross {F1 FO FI FP SO S2 : ℚ} {ns nl k nq : Nat} (hS2 : 0 < S2)
    (hsepS : ∀ i1 u : Nat, i1 < ns → u < ns →
      FO * (i1 : ℚ) + FI * (u : ℚ) < F1)
    (hsepP : ∀ u : Nat, u < nl → S2 * (u : ℚ) < SO)
    (hFP : F1 * (k : ℚ) ≤ FP) :
    ∀ x ∈ p1_steps_block F1 FO FI ns 0 k,
      ∀ y ∈ p2_qubits_block FP SO S2 nl (List.range nq), x < y := by
  intro x hx y hy
  obtain ⟨w, i1, u, -, hw, hi1, hu, hxe⟩ := mem_p1_steps_block hx
  obtain ⟨i, v, -, hv, hye⟩ := mem_p2_qubits_block hy
  subst hxe hye
  have h1 : FO * (i1 : ℚ) + FI * (u : ℚ) < F1 := hsepS i1 u hi1 hu
  have h2 : (0 : ℚ) < F1 := by simpa using hsepS 0 0 (by omega) (by omega)
  have h3 : (0 : ℚ) < SO := by simpa using hsepP 0 (by omega)
  have h4 : (0 : ℚ) ≤ S2 * (v : ℚ) := by positivity
  have h5 : (0 : ℚ) ≤ SO * (i : ℚ) := by positivity
  have h6 : ((w : ℚ) + 1) ≤ (k : ℚ) := by
    exact_mod_cast (by omega : w + 1 ≤ k)
  nlinarith [mul_le_mul_of_nonneg_left h6 h2.le]

theorem fullTrace_chain_core (ns nl k nq N : Nat) (hN0 : ¬ N = 0) :
    List.Chain' (· < ·)
      (p1_steps_block ((((ns * (1 + ns * 3) : Nat) : ℚ) / (N : ℚ)) * 100)
          ((((1 + ns * 3 : Nat) : ℚ) / (N : ℚ)) * 100)
          ((3 / (N : ℚ)) * 100) ns 0 k ++
        p2_qubits_block ((((k * (ns * (1 + ns * 3)) : Nat) : ℚ) / (N : ℚ)) * 100)
          ((((2 * nl : Nat) : ℚ) / (N : ℚ)) * 100)
          (((2 : ℚ) / (N : ℚ)) * 100) nl (List.range nq)) := by
  have hT : (0 : ℚ) < (N : ℚ) := by exact_mod_cast Nat.pos_of_ne_zero hN0
  have hFI : (0 : ℚ) < 3 / (N : ℚ) * 100 :=
    mul_pos (div_pos (by norm_num) hT) (by norm_num)
  have hS2 : (0 : ℚ) < 2 / (N : ℚ) * 100 :=
    mul_pos (div_pos (by norm_num) hT) (by norm_num)
  have hsepO : ∀ u : Nat, u < ns →
      (3 / (N : ℚ) * 100) * (u : ℚ) < (((1 + ns * 3 : Nat) : ℚ) / (N : ℚ)) * 100 := by
    intro u hu
    have hnat : ((3 * u : Nat) : ℚ) < ((1 + ns * 3 : Nat) : ℚ) := by
      exact_mod_cast (by omega : 3 * u < 1 + ns * 3)
    calc (3 / (N : ℚ) * 100) * (u : ℚ)
        = ((3 * u : Nat) : ℚ) / (N : ℚ) * 100 := by push_cast; ring
      _ < (((1 + ns * 3 : Nat) : ℚ) / (N : ℚ)) * 100 := ratio_lt_ratio hT hnat
  have hsepS : ∀ i1 u : Nat, i1 < ns → u < ns →
      ((((1 + ns * 3 : Nat) : ℚ) / (N : ℚ)) * 100) * (i1 : ℚ) +
        ((3 / (N : ℚ)) * 100) * (u : ℚ) <
        (((ns * (1 + ns * 3) : Nat) : ℚ) / (N : ℚ)) * 100 := by
    intro i1 u hi1 hu
    have hstep : (1 + ns * 3) * i1 + 3 * u < ns * (1 + ns * 3) := by
      have h1 : (1 + ns * 3) * (i1 + 1) = (1 + ns * 3) * i1 + (1 + ns * 3) := by ring
      have h2 : (1 + ns * 3) * (i1 + 1) ≤ (1 + ns * 3) * ns :=
        Nat.mul_le_mul_left _ (by omega : i1 + 1 ≤ ns)
      have h3 : (1 + ns * 3) * ns = ns * (1 + ns * 3) := Nat.mul_comm _ _
      omega
    have hnat : (((1 + ns * 3) * i1 + 3 * u : Nat) : ℚ) <
        ((ns * (1 + ns * 3) : Nat) : ℚ) := by exact_mod_cast hstep
    calc ((((1 + ns * 3 : Nat) : ℚ) / (N : ℚ)) * 100) * (i1 : ℚ) +
          ((3 / (N : ℚ)) * 100) * (u : ℚ)
        = (((1 + ns * 3) * i1 + 3 * u : Nat) : ℚ) / (N : ℚ) * 100 := by push_cast; ring
      _ < (((ns * (1 + ns * 3) : Nat) : ℚ) / (N : ℚ)) * 100 := ratio_lt_ratio hT hnat
  have hsepP : ∀ u : Nat, u < nl →
      ((2 : ℚ) / (N : ℚ) * 100) * (u : ℚ) < (((2 * nl : Nat) : ℚ) / (N : ℚ)) * 100 := by
    intro u hu
    have hnat : ((2 * u : Nat) : ℚ) < ((2 * nl : Nat) : ℚ) := by
      exact_mod_cast (by omega : 2 * u < 2 * nl)
    calc ((2 : ℚ) / (N : ℚ) * 100) * (u : ℚ)
        = ((2 * u : Nat) : ℚ) / (N : ℚ) * 100 := by push_cast; ring
      _ < (((2 * nl : Nat) : ℚ) / (N : ℚ)) * 100 := ratio_lt_ratio hT hnat
  have hFP : ((((ns * (1 + ns * 3) : Nat) : ℚ) / (N : ℚ)) * 100) * (k : ℚ) ≤
      (((k * (ns * (1 + ns * 3)) : Nat) : ℚ) / (N : ℚ)) * 100 :=
    le_of_eq (by push_cast; ring)
  exact chain'_append_of_lt
    (p1_steps_block_chain hFI hsepO hsepS 0 k)
    (p2_qubits_block_range_chain hS2 hsepP _ nq)
    (p1_p2_cross hS2 hsepS hsepP hFP)

theorem fullTrace_chain (json_long json_short : List GE)
    (target_coordinates : List Coord3) (target_radius : List ℚ) :
    List.Chain' (· < ·)
      (fullTrace json_long json_short target_coordinates target_radius) := by
  simp only [fullTrace]
  split
  · simp
  · split
    · split
      · simp
      · rename_i htot
        exact fullTrace_chain_core _ _ _ _ _ htot
    · split
      · simp
      · rename_i htot
        exact fullTrace_chain_core _ _ _ _ _ htot

theorem fullTrace_length (json_long json_short : List GE)
    (target_coordinates : List Coord3) (target_radius : List ℚ) (sd : List (Nat × ℚ))
    (hjudge : radius_judge target_coordinates.length target_radius =
      JudgeResult.order sd) :
    (fullTrace json_long json_short target_coordinates target_radius).length =
      (if sd.length ≠ 0 then add_order sd else []).length *
        (json_short.length * json_short.length) +
        target_coordinates.length * json_long.length := by
  simp only [fullTrace, hjudge]
  split
  · split
    · rename_i htot
      rw [List.length_nil]
      have h1 : (add_order sd).length *
          (json_short.length * (1 + json_short.length * 3)) = 0 ∧
          target_coordinates.length * (2 * json_long.length) = 0 := by omega
      have h2 : (add_order sd).length * (json_short.length * json_short.length) = 0 := by
        rcases Nat.mul_eq_zero.mp h1.1 with h | h
        · simp [h]
        · rcases Nat.mul_eq_zero.mp h with h' | h'
          · simp [h']
          · omega
      have h3 : target_coordinates.length * json_long.length = 0 := by
        rcases Nat.mul_eq_zero.mp h1.2 with h | h
        · simp [h]
        · have hl : json_long.length = 0 := by omega
          simp [hl]
      omega
    · rw [List.length_append, p1_steps_block_length, p2_qubits_block_length,
        List.length_range]
  · split
    · rename_i htot
      rw [List.length_nil]
      simp only [List.length_nil, Nat.zero_mul]
      have h3 : target_coordinates.length * json_long.length = 0 := by
        rcases Nat.mul_eq_zero.mp
            (by omega : target_coordinates.length * (2 * json_long.length) = 0) with h | h
        · simp [h]
        · have hl : json_long.length = 0 := by omega
          simp [hl]
      omega
    · rw [List.length_append, p1_steps_block_length, p2_qubits_block_length,
        List.length_range]

theorem mainCalc_err_trace (sqrtf : ℚ → ℚ) (cb : Nat → ℚ → Bool)
    (json_long json_short : List GE) (initialize_state : List CC)
    (target_coordinates : List Coord3) (target_radius : List ℚ) :
    ∀ res tr af, mainCalc sqrtf cb json_long json_short initialize_state
        target_coordinates target_radius = (res, tr, af) →
      ∀ c d mr, res = MCRes.radiusError c d mr →
        tr = [] ∧
        fullTrace json_long json_short target_coordinates target_radius = [] := by
  intro res tr af h c d mr hres
  simp only [mainCalc] at h
  simp only [fullTrace]
  split at h
  · simp only [Prod.mk.injEq] at h
    exact ⟨h.2.1.symm, rfl⟩
  · rename_i sorted_data heq
    split at h
    · split at h
      · simp only [Prod.mk.injEq] at h
        exact MCRes.noConfusion (h.1.trans hres)
      · split at h
        · simp only [Prod.mk.injEq] at h
          exact MCRes.noConfusion (h.1.trans hres)
        · simp only [Prod.mk.injEq] at h
          exact MCRes.noConfusion (h.1.trans hres)
        · split at h
          · simp only [Prod.mk.injEq] at h
            exact MCRes.noConfusion (h.1.trans hres)
          · simp only [Prod.mk.injEq] at h
            exact MCRes.noConfusion (h.1.trans hres)
          · simp only [Prod.mk.injEq] at h
            exact MCRes.noConfusion (h.1.trans hres)
    · split at h
      · simp only [Prod.mk.injEq] at h
        exact MCRes.noConfusion (h.1.trans hres)
      · split at h
        · simp only [Prod.mk.injEq] at h
          exact MCRes.noConfusion (h.1.trans hres)
        · simp only [Prod.mk.injEq] at h
          exact MCRes.noConfusion (h.1.trans hres)
        · split at h
          · simp only [Prod.mk.injEq] at h
            exact MCRes.noConfusion (h.1.trans hres)
          · simp only [Prod.mk.injEq] at h
            exact MCRes.noConfusion (h.1.trans hres)
          · simp only [Prod.mk.injEq] at h
            exact MCRes.noConfusion (h.1.trans hres)

/-- C7: progress reporting.  The progress schedule `fullTrace` of a
run — one callback invocation per (candidate A, candidate B) pair per
order step in phase 1 and one per long-table candidate per qubit in
phase 2, each checked at the top of its innermost iteration before the
candidate is applied and scored — is strictly increasing across
consecutive invocations, including across the phase-1/phase-2
boundary; every run's recorded invocations are a prefix of this
schedule, a normally completed run realises it exactly, and its length
is (order steps) x (short-table size)^2 + (qubit count) x (long-table
size). -/
theorem mainCalc_progress_contract (sqrtf : ℚ → ℚ) (cb : Nat → ℚ → Bool)
    (json_long json_short : List GE) (initialize_state : List CC)
    (target_coordinates : List Coord3) (target_radius : List ℚ)
    (res : MCRes) (tr : List ℚ) (af : Bool)
    (h : mainCalc sqrtf cb json_long json_short initialize_state target_coordinates
      target_radius = (res, tr, af)) :
    List.Chain' (· < ·)
      (fullTrace json_long json_short target_coordinates target_radius) ∧
    (∃ C, fullTrace json_long json_short target_coordinates target_radius = tr ++ C) ∧
    (∀ ga rs, res = MCRes.ok ga rs →
      tr = fullTrace json_long json_short target_coordinates target_radius) ∧
    (∀ sd, radius_judge target_coordinates.length target_radius =
        JudgeResult.order sd →
      (fullTrace json_long json_short target_coordinates target_radius).length =
        (if sd.length ≠ 0 then add_order sd else []).length *
          (json_short.length * json_short.length) +
        target_coordinates.length * json_long.length) := by
  have hm := mainCalc_trace sqrtf cb json_long json_short initialize_state
    target_coordinates target_radius res tr af h
  refine ⟨fullTrace_chain _ _ _ _, ?_, ?_, ?_⟩
  · cases res with
    | radiusError c d mr =>
      obtain ⟨ht, hf⟩ := mainCalc_err_trace sqrtf cb json_long json_short
        initialize_state target_coordinates target_radius _ tr af h c d mr rfl
      exact ⟨[], by rw [hf, ht]; rfl⟩
    | cancelled =>
      obtain ⟨u, hu, he, -, -⟩ := hm.2.1 rfl
      refine ⟨(fullTrace json_long json_short target_coordinates target_radius).drop
        (u + 1), ?_⟩
      rw [he]
      simp [List.take_append_drop]
    | exn =>
      obtain ⟨c, hc, he, -⟩ := hm.2.2 rfl
      refine ⟨(fullTrace json_long json_short target_coordinates target_radius).drop
        c, ?_⟩
      rw [he]
      simp [List.take_append_drop]
    | ok ga rs =>
      have he := (hm.1 ga rs rfl).1
      exact ⟨[], by rw [he]; simp⟩
  · intro ga rs hok
    simpa using (hm.1 ga rs hok).1
  · intro sd hjudge
    exact fullTrace_length _ _ _ _ _ hjudge

theorem mainCalc_progress_contract_witness :
    List.Chain' (· < ·)
      (fullTrace [(["x"], X)] [] [(0, 0, -1), (0, 0, 1)] [1, 1]) ∧
    (∃ C, fullTrace [(["x"], X)] [] [(0, 0, -1), (0, 0, 1)] [1, 1] =
      [(0 : ℚ), 50] ++ C) ∧
    (∀ ga rs, MCRes.ok [(["x"], 0), (["x"], 0)] [0, 0, ⟨1, 0⟩, 0] = MCRes.ok ga rs →
      [(0 : ℚ), 50] = fullTrace [(["x"], X)] [] [(0, 0, -1), (0, 0, 1)] [1, 1]) ∧
    (∀ sd, radius_judge ([(0, 0, -1), (0, 0, 1)] : List Coord3).length [1, 1] =
        JudgeResult.order sd →
      (fullTrace [(["x"], X)] [] [(0, 0, -1), (0, 0, 1)] [1, 1]).length =
        (if sd.length ≠ 0 then add_order sd else []).length *
          (([] : List GE).length * ([] : List GE).length) +
        ([(0, 0, -1), (0, 0, 1)] : List Coord3).length *
          ([(["x"], X)] : List GE).length) :=
  mainCalc_progress_contract (fun q => if q = 4 then 2 else 0) (fun _ _ => true)
    [(["x"], X)] [] [1, 0, 0, 0] [(0, 0, -1), (0, 0, 1)] [1, 1]
    (.ok [(["x"], 0), (["x"], 0)] [0, 0, ⟨1, 0⟩, 0]) [0, 50] false
    (by with_unfolding_all decide)

/-! ### Commit discipline of the search steps -/

/-- The score `distanceDiff(...)` that the phase-2 inner loop assigns
to one long-table candidate, evaluated against the step's committed
entry state. -/
def p2_score (sqrtf : ℚ → ℚ) (numQubit qub : Nat) (result_state : List CC)
    (gate : List String) (targetC : Coord3) (data : GE) : ℚ :=
  distanceDiff sqrtf
    (CoordinateCalc
      ((partical_trace (apply_controlled_gate result_state gate data.2 numQubit)
        numQubit).getD qub default)) targetC

theorem p2_inner_commit (sqrtf : ℚ → ℚ) (cb : Nat → ℚ → Bool) (numQubit qub : Nat)
    (result_state : List CC) (gate : List String) (targetC : Coord3) (base S2 : ℚ) :
    ∀ (cands : List GE) (index : Nat) (tr : List ℚ) (md : ℚ) (stv : Option (List CC))
      (gr : Option GA) (fr : Bool) (tr' : List ℚ) (md' : ℚ) (stv' : Option (List CC))
      (gr' : Option GA) (fr' : Bool),
      p2_inner sqrtf cb numQubit qub result_state gate targetC base S2 cands index tr md
        stv gr fr = .ok (tr', md', stv', gr', fr') →
      md' ≤ md ∧
      (∀ data ∈ cands,
        md' ≤ p2_score sqrtf numQubit qub result_state gate targetC data
          + 1 / 1000000000000) ∧
      ((md' = md ∧ stv' = stv ∧ gr' = gr ∧ fr' = fr) ∨
       (fr' = true ∧ ∃ data ∈ cands,
         stv' = some (apply_controlled_gate result_state gate data.2 numQubit) ∧
         gr' = some (data.1, qub) ∧
         md' = p2_score sqrtf numQubit qub result_state gate targetC data)) := by
  intro cands
  induction cands with
  | nil =>
    intro index tr md stv gr fr tr' md' stv' gr' fr' h
    simp only [p2_inner, Except.ok.injEq, Prod.mk.injEq] at h
    obtain ⟨-, h2, h3, h4, h5⟩ := h
    subst h2 h3 h4 h5
    exact ⟨le_refl _, by simp, Or.inl ⟨rfl, rfl, rfl, rfl⟩⟩
  | cons data rest ih =>
    intro index tr md stv gr fr tr' md' stv' gr' fr' h
    simp only [p2_inner] at h
    have hfold : distanceDiff sqrtf
        (CoordinateCalc
          ((partical_trace (apply_controlled_gate result_state gate data.2 numQubit)
            numQubit).getD qub default)) targetC =
        p2_score sqrtf numQubit qub result_state gate targetC data := rfl
    rw [hfold] at h
    split at h
    · split at h
      · rename_i hacc
        have hc : md - 1 / 1000000000000 >
            p2_score sqrtf numQubit qub result_state gate targetC data := by
          by_cases hc : md - 1 / 1000000000000 >
              p2_score sqrtf numQubit qub result_state gate targetC data
          · exact hc
          · exfalso
            rw [diff_compare, if_neg hc] at hacc
            exact Bool.noConfusion hacc
        have hdc1 : (diff_compare md
            (p2_score sqrtf numQubit qub result_state gate targetC data)).1 =
            p2_score sqrtf numQubit qub result_state gate targetC data := by
          rw [diff_compare, if_pos hc]
        obtain ⟨h1, h2, h3⟩ := ih (index + 1) _ _ _ _ _ _ _ _ _ _ h
        rw [hdc1] at h1
        refine ⟨by linarith, ?_, ?_⟩
        · intro d hd
          rcases List.mem_cons.mp hd with hd | hd
          · subst hd
            linarith
          · exact h2 d hd
        · rcases h3 with ⟨hmd, hstv, hgr, hfr⟩ | ⟨hfr, d, hd, hstv, hgr, hmd⟩
          · exact Or.inr ⟨hfr, data, List.mem_cons_self _ _,
              by rw [hstv], by rw [hgr], by rw [hmd, hdc1]⟩
          · exact Or.inr ⟨hfr, d, List.mem_cons_of_mem _ hd, hstv, hgr, hmd⟩
      · rename_i hrej
        have hc : ¬ (md - 1 / 1000000000000 >
            p2_score sqrtf numQubit qub result_state gate targetC data) := by
          intro hc
          rw [diff_compare, if_pos hc] at hrej
          exact hrej rfl
        have hdc1 : (diff_compare md
            (p2_score sqrtf numQubit qub result_state gate targetC data)).1 = md := by
          rw [diff_compare, if_neg hc]
        obtain ⟨h1, h2, h3⟩ := ih (index + 1) _ _ _ _ _ _ _ _ _ _ h
        rw [hdc1] at h1
        refine ⟨h1, ?_, ?_⟩
        · intro d hd
          rcases List.mem_cons.mp hd with hd | hd
          · subst hd
            push_neg at hc
            linarith
          · exact h2 d hd
        · rcases h3 with ⟨hmd, hstv, hgr, hfr⟩ | ⟨hfr, d, hd, hstv, hgr, hmd⟩
          · exact Or.inl ⟨by rw [hmd, hdc1], hstv, hgr, hfr⟩
          · exact Or.inr ⟨hfr, d, List.mem_cons_of_mem _ hd, hstv, hgr, hmd⟩
    · exact Except.noConfusion h

/-- The score (mean absolute radius error over the step's two qubits)
that the phase-1 double loop assigns to a candidate pair, given the
state after the first candidate's gate. -/
def p1_score (sqrtf : ℚ → ℚ) (numQubit : Nat) (order : Order2)
    (gate_2 ControlGate : List String) (data_1_state : List CC) (data_2 : GE) : ℚ :=
  let data_2_state := apply_controlled_gate data_1_state gate_2 data_2.2 numQubit
  let new_state := apply_controlled_gate data_2_state ControlGate X numQubit
  let densityMatrix := partical_trace new_state numQubit
  let radius := RadiusCalc sqrtf densityMatrix [order.1.1, order.2.1]
  (radiusDiff (radius.getD 0 0) order.1.2 + radiusDiff (radius.getD 1 0) order.2.2) / 2

theorem p1_inner_commit (sqrtf : ℚ → ℚ) (cb : Nat → ℚ → Bool) (numQubit : Nat)
    (order : Order2) (gate_2 ControlGate : List String) (data_1 : GE)
    (data_1_state : List CC) (F1 FO FI : ℚ) (num index_1 : Nat) :
    ∀ (cands : List GE) (index_2 : Nat) (tr : List ℚ) (md : ℚ) (stv : Option (List CC))
      (g1 g2 : Option GA) (fr : Bool) (tr' : List ℚ) (md' : ℚ)
      (stv' : Option (List CC)) (g1' g2' : Option GA) (fr' : Bool),
      p1_inner sqrtf cb numQubit order gate_2 ControlGate data_1 data_1_state F1 FO FI
        num index_1 cands index_2 tr md stv g1 g2 fr =
          .ok (tr', md', stv', g1', g2', fr') →
      md' ≤ md ∧
      (∀ d2 ∈ cands,
        md' ≤ p1_score sqrtf numQubit order gate_2 ControlGate data_1_state d2
          + 1 / 1000000000000) ∧
      ((md' = md ∧ stv' = stv ∧ g1' = g1 ∧ g2' = g2 ∧ fr' = fr) ∨
       (fr' = true ∧ ∃ d2 ∈ cands,
         stv' = some (apply_controlled_gate
           (apply_controlled_gate data_1_state gate_2 d2.2 numQubit)
           ControlGate X numQubit) ∧
         g1' = some (data_1.1, order.1.1) ∧ g2' = some (d2.1, order.2.1) ∧
         md' = p1_score sqrtf numQubit order gate_2 ControlGate data_1_state d2)) := by
  intro cands
  induction cands with
  | nil =>
    intro index_2 tr md stv g1 g2 fr tr' md' stv' g1' g2' fr' h
    simp only [p1_inner, Except.ok.injEq, Prod.mk.injEq] at h
    obtain ⟨-, h2, h3, h4, h5, h6⟩ := h
    subst h2 h3 h4 h5 h6
    exact ⟨le_refl _, by simp, Or.inl ⟨rfl, rfl, rfl, rfl, rfl⟩⟩
  | cons data_2 rest ih =>
    intro index_2 tr md stv g1 g2 fr tr' md' stv' g1' g2' fr' h
    simp only [p1_inner] at h
    have hfold : (radiusDiff
        ((RadiusCalc sqrtf
          (partical_trace
            (apply_controlled_gate
              (apply_controlled_gate data_1_state gate_2 data_2.2 numQubit)
              ControlGate X numQubit) numQubit)
          [order.1.1, order.2.1]).getD 0 0) order.1.2 +
        radiusDiff
        ((RadiusCalc sqrtf
          (partical_trace
            (apply_controlled_gate
              (apply_controlled_gate data_1_state gate_2 data_2.2 numQubit)
              ControlGate X numQubit) numQubit)
          [order.1.1, order.2.1]).getD 1 0) order.2.2) / 2 =
        p1_score sqrtf numQubit order gate_2 ControlGate data_1_state data_2 := rfl
    rw [hfold] at h
    split at h
    · split at h
      · rename_i hacc
        have hc : md - 1 / 1000000000000 >
            p1_score sqrtf numQubit order gate_2 ControlGate data_1_state data_2 := by
          by_cases hc : md - 1 / 1000000000000 >
              p1_score sqrtf numQubit order gate_2 ControlGate data_1_state data_2
          · exact hc
          · exfalso
            rw [diff_compare, if_neg hc] at hacc
            exact Bool.noConfusion hacc
        have hdc1 : (diff_compare md
            (p1_score sqrtf numQubit order gate_2 ControlGate data_1_state data_2)).1 =
            p1_score sqrtf numQubit order gate_2 ControlGate data_1_state data_2 := by
          rw [diff_compare, if_pos hc]
        obtain ⟨h1, h2, h3⟩ := ih (index_2 + 1) _ _ _ _ _ _ _ _ _ _ _ _ h
        rw [hdc1] at h1
        refine ⟨by linarith, ?_, ?_⟩
        · intro d hd
          rcases List.mem_cons.mp hd with hd | hd
          · subst hd
            linarith
          · exact h2 d hd
        · rcases h3 with ⟨hmd, hstv, hg1, hg2, hfr⟩ | ⟨hfr, d, hd, hstv, hg1, hg2, hmd⟩
          · exact Or.inr ⟨hfr, data_2, List.mem_cons_self _ _,
              by rw [hstv], by rw [hg1], by rw [hg2], by rw [hmd, hdc1]⟩
          · exact Or.inr ⟨hfr, d, List.mem_cons_of_mem _ hd, hstv, hg1, hg2, hmd⟩
      · rename_i hrej
        have hc : ¬ (md - 1 / 1000000000000 >
            p1_score sqrtf numQubit order gate_2 ControlGate data_1_state data_2) := by
          intro hc
          rw [diff_compare, if_pos hc] at hrej
          exact hrej rfl
        have hdc1 : (diff_compare md
            (p1_score sqrtf numQubit order gate_2 ControlGate data_1_state data_2)).1 =
            md := by
          rw [diff_compare, if_neg hc]
        obtain ⟨h1, h2, h3⟩ := ih (index_2 + 1) _ _ _ _ _ _ _ _ _ _ _ _ h
        rw [hdc1] at h1
        refine ⟨h1, ?_, ?_⟩
        · intro d hd
          rcases List.mem_cons.mp hd with hd | hd
          · subst hd
            push_neg at hc
            linarith
          · exact h2 d hd
        · rcases h3 with ⟨hmd, hstv, hg1, hg2, hfr⟩ | ⟨hfr, d, hd, hstv, hg1, hg2, hmd⟩
          · exact Or.inl ⟨by rw [hmd, hdc1], hstv, hg1, hg2, hfr⟩
          · exact Or.inr ⟨hfr, d, List.mem_cons_of_mem _ hd, hstv, hg1, hg2, hmd⟩
    · exact Except.noConfusion h

theorem p1_outer_commit (sqrtf : ℚ → ℚ) (cb : Nat → ℚ → Bool) (numQubit : Nat)
    (order : Order2) (gate_1 gate_2 ControlGate : List String) (json_short : List GE)
    (result_state : List CC) (F1 FO FI : ℚ) (num : Nat) :
    ∀ (cands : List GE) (index_1 : Nat) (tr : List ℚ) (md : ℚ) (stv : Option (List CC))
      (g1 g2 : Option GA) (fr : Bool) (tr' : List ℚ) (md' : ℚ)
      (stv' : Option (List CC)) (g1' g2' : Option GA) (fr' : Bool),
      p1_outer sqrtf cb numQubit order gate_1 gate_2 ControlGate json_short result_state
        F1 FO FI num cands index_1 tr md stv g1 g2 fr =
          .ok (tr', md', stv', g1', g2', fr') →
      md' ≤ md ∧
      (∀ d1 ∈ cands, ∀ d2 ∈ json_short,
        md' ≤ p1_score sqrtf numQubit order gate_2 ControlGate
          (apply_controlled_gate result_state gate_1 d1.2 numQubit) d2
          + 1 / 1000000000000) ∧
      ((md' = md ∧ stv' = stv ∧ g1' = g1 ∧ g2' = g2 ∧ fr' = fr) ∨
       (fr' = true ∧ ∃ d1 ∈ cands, ∃ d2 ∈ json_short,
         stv' = some (apply_controlled_gate
           (apply_controlled_gate
             (apply_controlled_gate result_state gate_1 d1.2 numQubit)
             gate_2 d2.2 numQubit)
           ControlGate X numQubit) ∧
         g1' = some (d1.1, order.1.1) ∧ g2' = some (d2.1, order.2.1) ∧
         md' = p1_score sqrtf numQubit order gate_2 ControlGate
           (apply_controlled_gate result_state gate_1 d1.2 numQubit) d2)) := by
  intro cands
  induction cands with
  | nil =>
    intro index_1 tr md stv g1 g2 fr tr' md' stv' g1' g2' fr' h
    simp only [p1_outer, Except.ok.injEq, Prod.mk.injEq] at h
    obtain ⟨-, h2, h3, h4, h5, h6⟩ := h
    subst h2 h3 h4 h5 h6
    exact ⟨le_refl _, by simp, Or.inl ⟨rfl, rfl, rfl, rfl, rfl⟩⟩
  | cons data_1 rest ih =>
    intro index_1 tr md stv g1 g2 fr tr' md' stv' g1' g2' fr' h
    simp only [p1_outer] at h
    split at h
    · exact Except.noConfusion h
    · rename_i tr2 md2 stv2 g12 g22 fr2 heq
      obtain ⟨i1, i2, i3⟩ := p1_inner_commit sqrtf cb numQubit order gate_2 ControlGate
        data_1 (apply_controlled_gate result_state gate_1 data_1.2 numQubit) F1 FO FI
        num index_1 json_short 0 tr md stv g1 g2 fr tr2 md2 stv2 g12 g22 fr2 heq
      obtain ⟨o1, o2, o3⟩ := ih (index_1 + 1) tr2 md2 stv2 g12 g22 fr2
        tr' md' stv' g1' g2' fr' h
      refine ⟨le_trans o1 i1, ?_, ?_⟩
      · intro d1 hd1 d2 hd2
        rcases List.mem_cons.mp hd1 with hd1 | hd1
        · subst hd1
          exact le_trans o1 (i2 d2 hd2)
        · exact o2 d1 hd1 d2 hd2
      · rcases o3 with ⟨hmd, hstv, hg1, hg2, hfr⟩ | ⟨hfr, d1, hd1, d2, hd2, hrest⟩
        · rcases i3 with ⟨imd, istv, ig1, ig2, ifr⟩ |
            ⟨ifr, d2, hd2, istv, ig1, ig2, imd⟩
          · exact Or.inl ⟨hmd.trans imd, hstv.trans istv, hg1.trans ig1,
              hg2.trans ig2, hfr.trans ifr⟩
          · exact Or.inr ⟨hfr.trans ifr, data_1, List.mem_cons_self _ _, d2, hd2,
              hstv.trans istv, hg1.trans ig1, hg2.trans ig2, hmd.trans imd⟩
        · exact Or.inr ⟨hfr, d1, List.mem_cons_of_mem _ hd1, d2, hd2, hrest⟩
    

/-- C8 (amended): copy-then-compare-then-commit, with a stale-reuse
caveat.  In both phases, evaluating a candidate never mutates the
step's committed entry state (every candidate is scored against the
unchanged `result_state`), the gate list grows exactly once per step
(by one record in phase 2, by three in phase 1), and the state is
reassigned exactly once per step, at the commit.  When some candidate
of the step improved the running minimum (`fr = true`), the committed
state is the best-scoring candidate's state (within the comparison
threshold 1e-12) of that step.  But when no candidate improved
(`fr = false`) the commit re-reads the shared locals left over from an
earlier step — the committed state and gate record are stale, which
contradicts the claim that the commit always comes from the current
step's candidates. -/
theorem search_step_commit_contract :
    (∀ (sqrtf : ℚ → ℚ) (cb : Nat → ℚ → Bool) (numQubit : Nat) (json_long : List GE)
       (target_coordinates : List Coord3) (FP SO S2 : ℚ) (i : Nat)
       (result_state : List CC) (gate_array : List GA) (tr : List ℚ)
       (stv : Option (List CC)) (gr : Option GA) (st : List CC) (ga' : List GA)
       (tr' : List ℚ) (stv' : Option (List CC)) (gr' : Option GA) (fr : Bool),
      p2_step sqrtf cb numQubit json_long target_coordinates FP SO S2 i result_state
          gate_array tr stv gr = .ok (st, ga', tr', stv', gr', fr) →
      stv' = some st ∧
      (∃ g, gr' = some g ∧ ga' = gate_array ++ [g]) ∧
      (fr = true → ∃ data ∈ json_long,
        st = apply_controlled_gate result_state (CreateGateArray numQubit i none)
          data.2 numQubit ∧
        gr' = some (data.1, i) ∧
        ∀ d ∈ json_long,
          p2_score sqrtf numQubit i result_state (CreateGateArray numQubit i none)
            (target_coordinates.getD i default) data ≤
          p2_score sqrtf numQubit i result_state (CreateGateArray numQubit i none)
            (target_coordinates.getD i default) d + 1 / 1000000000000) ∧
      (fr = false → some st = stv ∧ gr' = gr)) ∧
    (∀ (sqrtf : ℚ → ℚ) (cb : Nat → ℚ → Bool) (numQubit : Nat) (json_short : List GE)
       (F1 FO FI : ℚ) (num : Nat) (order : Order2) (result_state : List CC)
       (gate_array : List GA) (tr : List ℚ) (stv : Option (List CC))
       (g1 g2 : Option GA) (st : List CC) (ga' : List GA) (tr' : List ℚ)
       (stv' : Option (List CC)) (g1' g2' : Option GA) (fr : Bool),
      p1_step sqrtf cb numQubit json_short F1 FO FI num order result_state gate_array tr
          stv g1 g2 = .ok (st, ga', tr', stv', g1', g2', fr) →
      stv' = some st ∧
      (∃ a1 a2, g1' = some a1 ∧ g2' = some a2 ∧
        ga' = gate_array ++ [a1, a2, (cnotLabel, order.2.1)]) ∧
      (fr = true → ∃ d1 ∈ json_short, ∃ d2 ∈ json_short,
        st = apply_controlled_gate
          (apply_controlled_gate
            (apply_controlled_gate result_state
              (CreateGateArray numQubit order.1.1 none) d1.2 numQubit)
            (CreateGateArray numQubit order.2.1 none) d2.2 numQubit)
          (CreateGateArray numQubit order.2.1 (some order.1.1)) X numQubit ∧
        g1' = some (d1.1, order.1.1) ∧ g2' = some (d2.1, order.2.1) ∧
        ∀ e1 ∈ json_short, ∀ e2 ∈ json_short,
          p1_score sqrtf numQubit order (CreateGateArray numQubit order.2.1 none)
            (CreateGateArray numQubit order.2.1 (some order.1.1))
            (apply_controlled_gate result_state
              (CreateGateArray numQubit order.1.1 none) d1.2 numQubit) d2 ≤
          p1_score sqrtf numQubit order (CreateGateArray numQubit order.2.1 none)
            (CreateGateArray numQubit order.2.1 (some order.1.1))
            (apply_controlled_gate result_state
              (CreateGateArray numQubit order.1.1 none) e1.2 numQubit) e2
            + 1 / 1000000000000) ∧
      (fr = false → some st = stv ∧ g1' = g1 ∧ g2' = g2)) := by
  constructor
  · intro sqrtf cb numQubit json_long target_coordinates FP SO S2 i result_state
      gate_array tr stv gr st ga' tr' stv' gr' fr h
    simp only [p2_step] at h
    split at h
    · exact Except.noConfusion h
    · rename_i tr2 md2 stv2 gr2 fr2 heq
      obtain ⟨c1, c2, c3⟩ := p2_inner_commit sqrtf cb numQubit i result_state _ _ _ S2
        json_long 0 tr 2 stv gr false tr2 md2 stv2 gr2 fr2 heq
      split at h
      · simp only [Except.ok.injEq, Prod.mk.injEq] at h
        obtain ⟨h1, h2, h3, h4, h5, h6⟩ := h
        subst h1 h2 h3 h4 h5 h6
        refine ⟨rfl, ⟨_, rfl, rfl⟩, ?_, ?_⟩
        · intro hfr
          subst hfr
          rcases c3 with ⟨-, -, -, hfr2⟩ | ⟨-, data, hd, histv, higr, himd⟩
          · exact Bool.noConfusion hfr2
          · refine ⟨data, hd, Option.some.inj histv, higr, ?_⟩
            intro d hd'
            have hb := c2 d hd'
            rw [himd] at hb
            exact hb
        · intro hfr
          subst hfr
          rcases c3 with ⟨-, histv, higr, -⟩ | ⟨hfr2, -⟩
          · exact ⟨histv, higr⟩
          · exact Bool.noConfusion hfr2
      · exact Except.noConfusion h
  · intro sqrtf cb numQubit json_short F1 FO FI num order result_state gate_array tr
      stv g1 g2 st ga' tr' stv' g1' g2' fr h
    simp only [p1_step] at h
    split at h
    · exact Except.noConfusion h
    · rename_i tr2 md2 stv2 g12 g22 fr2 heq
      obtain ⟨c1, c2, c3⟩ := p1_outer_commit sqrtf cb numQubit order _ _ _ json_short
        result_state F1 FO FI num json_short 0 tr 2 stv g1 g2 false tr2 md2 stv2
        g12 g22 fr2 heq
      split at h
      · simp only [Except.ok.injEq, Prod.mk.injEq] at h
        obtain ⟨h1, h2, h3, h4, h5, h6, h7⟩ := h
        subst h1 h2 h3 h4 h5 h6 h7
        refine ⟨rfl, ⟨_, _, rfl, rfl, rfl⟩, ?_, ?_⟩
        · intro hfr
          subst hfr
          rcases c3 with ⟨-, -, -, -, hfr2⟩ |
            ⟨-, d1, hd1, d2, hd2, histv, hig1, hig2, himd⟩
          · exact Bool.noConfusion hfr2
          · refine ⟨d1, hd1, d2, hd2, Option.some.inj histv, hig1, hig2, ?_⟩
            intro e1 he1 e2 he2
            have hb := c2 e1 he1 e2 he2
            rw [himd] at hb
            exact hb
        · intro hfr
          subst hfr
          rcases c3 with ⟨-, histv, hig1, hig2, -⟩ | ⟨hfr2, -⟩
          · exact ⟨histv, hig1, hig2⟩
          · exact Bool.noConfusion hfr2
      · exact Except.noConfusion h

/-- C8 counterexample: a complete exact-arithmetic run in which a
phase-2 step commits a stale state.  With one long-table candidate
(X), two qubits with targets `(0,0,-1)` and `(0,0,1)`, the qubit-1
step's only candidate state is `X` applied to the committed state
`|10>`, namely `|11>`; yet the run returns the committed state `|10>`
unchanged and repeats the qubit-0 gate record `(x, 0)` for qubit 1
(and the freshness flag is `false`): the commit reused the shared
locals of the qubit-0 step instead of a candidate of its own step. -/
theorem mainCalc_stale_state_c8_counterexample :
    mainCalc (fun q => if q = 4 then 2 else 0) (fun _ _ => true)
      [(["x"], X)] [] [1, 0, 0, 0] [(0, 0, -1), (0, 0, 1)] [1, 1] =
      (.ok [(["x"], 0), (["x"], 0)] [0, 0, ⟨1, 0⟩, 0], [0, 50], false) ∧
    apply_controlled_gate [0, 0, ⟨1, 0⟩, 0] (CreateGateArray 2 1 none) X 2 =
      [0, 0, 0, ⟨1, 0⟩] := by
  constructor
  · with_unfolding_all decide
  · with_unfolding_all decide

theorem search_step_commit_contract_witness :
    (some [0, 0, ⟨1, 0⟩, 0] : Option (List CC)) = some [0, 0, ⟨1, 0⟩, 0] ∧
    (∃ g, (some ((["x"], 0) : GA) : Option GA) = some g ∧
      ([((["x"], 0) : GA)] : List GA) = [] ++ [g]) ∧
    (true = true → ∃ data ∈ [((["x"], X) : GE)],
      ([0, 0, ⟨1, 0⟩, 0] : List CC) =
        apply_controlled_gate [1, 0, 0, 0] (CreateGateArray 2 0 none) data.2 2 ∧
      (some ((["x"], 0) : GA) : Option GA) = some (data.1, 0) ∧
      ∀ d ∈ [((["x"], X) : GE)],
        p2_score (fun q => if q = 4 then 2 else 0) 2 0 [1, 0, 0, 0]
          (CreateGateArray 2 0 none)
          (([(0, 0, -1), (0, 0, 1)] : List Coord3).getD 0 default) data ≤
        p2_score (fun q => if q = 4 then 2 else 0) 2 0 [1, 0, 0, 0]
          (CreateGateArray 2 0 none)
          (([(0, 0, -1), (0, 0, 1)] : List Coord3).getD 0 default) d
          + 1 / 1000000000000) ∧
    (true = false → (some [0, 0, ⟨1, 0⟩, 0] : Option (List CC)) = none ∧
      (some ((["x"], 0) : GA) : Option GA) = none) :=
  search_step_commit_contract.1 (fun q => if q = 4 then 2 else 0) (fun _ _ => true) 2
    [(["x"], X)] [(0, 0, -1), (0, 0, 1)] 0 50 50 0 [1, 0, 0, 0] [] [] none none
    [0, 0, ⟨1, 0⟩, 0] [(["x"], 0)] [0] (some [0, 0, ⟨1, 0⟩, 0]) (some (["x"], 0)) true
    (by with_unfolding_all rfl)

theorem p1_step_gates (sqrtf : ℚ → ℚ) (cb : Nat → ℚ → Bool) (numQubit : Nat)
    (json_short : List GE) (F1 FO FI : ℚ) (num : Nat) (order : Order2)
    (result_state : List CC) (gate_array : List GA) (tr : List ℚ)
    (stv : Option (List CC)) (g1 g2 : Option GA) (st : List CC) (ga' : List GA)
    (tr' : List ℚ) (stv' : Option (List CC)) (g1' g2' : Option GA) (fr : Bool)
    (h : p1_step sqrtf cb numQubit json_short F1 FO FI num order result_state gate_array
      tr stv g1 g2 = .ok (st, ga', tr', stv', g1', g2', fr)) :
    ∃ a1 a2, g1' = some a1 ∧ g2' = some a2 ∧
      ga' = gate_array ++ [a1, a2, (cnotLabel, order.2.1)] ∧
      (fr = true → ∃ d1 ∈ json_short, ∃ d2 ∈ json_short,
        a1 = (d1.1, order.1.1) ∧ a2 = (d2.1, order.2.1)) := by
  simp only [p1_step] at h
  split at h
  · exact Except.noConfusion h
  · rename_i tr2 md2 stv2 g12 g22 fr2 heq
    obtain ⟨-, -, c3⟩ := p1_outer_commit sqrtf cb numQubit order _ _ _ json_short
      result_state F1 FO FI num json_short 0 tr 2 stv g1 g2 false tr2 md2 stv2
      g12 g22 fr2 heq
    split at h
    · simp only [Except.ok.injEq, Prod.mk.injEq] at h
      obtain ⟨h1, h2, h3, h4, h5, h6, h7⟩ := h
      subst h1 h2 h3 h4 h5 h6 h7
      refine ⟨_, _, rfl, rfl, rfl, ?_⟩
      intro hfr
      subst hfr
      rcases c3 with ⟨-, -, -, -, hfr2⟩ | ⟨-, d1, hd1, d2, hd2, -, hig1, hig2, -⟩
      · exact Bool.noConfusion hfr2
      · exact ⟨d1, hd1, d2, hd2, Option.some.inj hig1, Option.some.inj hig2⟩
    · exact Except.noConfusion h

theorem p2_step_gates (sqrtf : ℚ → ℚ) (cb : Nat → ℚ → Bool) (numQubit : Nat)
    (json_long : List GE) (target_coordinates : List Coord3) (FP SO S2 : ℚ) (i : Nat)
    (result_state : List CC) (gate_array : List GA) (tr : List ℚ)
    (stv : Option (List CC)) (gr : Option GA) (st : List CC) (ga' : List GA)
    (tr' : List ℚ) (stv' : Option (List CC)) (gr' : Option GA) (fr : Bool)
    (h : p2_step sqrtf cb numQubit json_long target_coordinates FP SO S2 i result_state
      gate_array tr stv gr = .ok (st, ga', tr', stv', gr', fr)) :
    ∃ g, gr' = some g ∧ ga' = gate_array ++ [g] ∧
      (fr = true → ∃ data ∈ json_long, g = (data.1, i)) := by
  simp only [p2_step] at h
  split at h
  · exact Except.noConfusion h
  · rename_i tr2 md2 stv2 gr2 fr2 heq
    obtain ⟨-, -, c3⟩ := p2_inner_commit sqrtf cb numQubit i result_state _ _ _ S2
      json_long 0 tr 2 stv gr false tr2 md2 stv2 gr2 fr2 heq
    split at h
    · simp only [Except.ok.injEq, Prod.mk.injEq] at h
      obtain ⟨h1, h2, h3, h4, h5, h6⟩ := h
      subst h1 h2 h3 h4 h5 h6
      refine ⟨_, rfl, rfl, ?_⟩
      intro hfr
      subst hfr
      rcases c3 with ⟨-, -, -, hfr2⟩ | ⟨-, data, hd, -, higr, -⟩
      · exact Bool.noConfusion hfr2
      · exact ⟨data, hd, Option.some.inj higr⟩
    · exact Except.noConfusion h

theorem p1_all_gates (sqrtf : ℚ → ℚ) (cb : Nat → ℚ → Bool) (numQubit : Nat)
    (json_short : List GE) (F1 FO FI : ℚ) :
    ∀ (orders : List Order2) (num : Nat) (rs : List CC) (ga : List GA) (tr : List ℚ)
      (stv : Option (List CC)) (g1 g2 : Option GA) (af : Bool) (rs' : List CC)
      (ga' : List GA) (tr' : List ℚ) (stv' : Option (List CC)) (g1' g2' : Option GA)
      (af' : Bool),
      p1_all sqrtf cb numQubit json_short F1 FO FI orders num
        (rs, ga, tr, stv, g1, g2, af) = .ok (rs', ga', tr', stv', g1', g2', af') →
      ∃ tri : List (GA × GA), tri.length = orders.length ∧
        ga' = ga ++ (tri.zip orders).flatMap
          (fun p => [p.1.1, p.1.2, (cnotLabel, p.2.2.1)]) ∧
        (af' = true → af = true ∧
          ∀ p ∈ tri.zip orders, ∃ d1 ∈ json_short, ∃ d2 ∈ json_short,
            p.1.1 = (d1.1, p.2.1.1) ∧ p.1.2 = (d2.1, p.2.2.1)) := by
  intro orders
  induction orders with
  | nil =>
    intro num rs ga tr stv g1 g2 af rs' ga' tr' stv' g1' g2' af' h
    simp only [p1_all, Except.ok.injEq, Prod.mk.injEq] at h
    obtain ⟨-, h2, -, -, -, -, h7⟩ := h
    subst h2 h7
    exact ⟨[], rfl, by simp, fun haf => ⟨haf, by simp⟩⟩
  | cons order rest ih =>
    intro num rs ga tr stv g1 g2 af rs' ga' tr' stv' g1' g2' af' h
    simp only [p1_all] at h
    split at h
    · exact Except.noConfusion h
    · rename_i rs2 ga2 tr2 stv2 g12 g22 fr2 heq
      obtain ⟨a1, a2, -, -, hga2, hfresh⟩ := p1_step_gates sqrtf cb numQubit json_short
        F1 FO FI num order rs ga tr stv g1 g2 rs2 ga2 tr2 stv2 g12 g22 fr2 heq
      obtain ⟨tri, hlen, hga', haf⟩ := ih (num + 1) rs2 ga2 tr2 stv2 g12 g22 (af && fr2)
        rs' ga' tr' stv' g1' g2' af' h
      refine ⟨(a1, a2) :: tri, by simp [hlen], ?_, ?_⟩
      · rw [hga', hga2]
        simp [List.append_assoc]
      · intro haf'
        obtain ⟨hand, hall⟩ := haf haf'
        obtain ⟨haf0, hfr2⟩ := Bool.and_eq_true_iff.mp hand
        refine ⟨haf0, ?_⟩
        intro p hp
        rcases List.mem_cons.mp hp with hp | hp
        · subst hp
          obtain ⟨d1, hd1, d2, hd2, he1, he2⟩ := hfresh hfr2
          exact ⟨d1, hd1, d2, hd2, he1, he2⟩
        · exact hall p hp
    
theorem p2_all_gates (sqrtf : ℚ → ℚ) (cb : Nat → ℚ → Bool) (numQubit : Nat)
    (json_long : List GE) (target_coordinates : List Coord3) (FP SO S2 : ℚ) :
    ∀ (qs : List Nat) (rs : List CC) (ga : List GA) (tr : List ℚ)
      (stv : Option (List CC)) (gr : Option GA) (af : Bool) (rs' : List CC)
      (ga' : List GA) (tr' : List ℚ) (stv' : Option (List CC)) (gr' : Option GA)
      (af' : Bool),
      p2_all sqrtf cb numQubit json_long target_coordinates FP SO S2 qs
        (rs, ga, tr, stv, gr, af) = .ok (rs', ga', tr', stv', gr', af') →
      ∃ recs : List GA, recs.length = qs.length ∧
        ga' = ga ++ recs ∧
        (af' = true → af = true ∧
          ∀ p ∈ recs.zip qs, ∃ data ∈ json_long, p.1 = (data.1, p.2)) := by
  intro qs
  induction qs with
  | nil =>
    intro rs ga tr stv gr af rs' ga' tr' stv' gr' af' h
    simp only [p2_all, Except.ok.injEq, Prod.mk.injEq] at h
    obtain ⟨-, h2, -, -, -, h6⟩ := h
    subst h2 h6
    exact ⟨[], rfl, by simp, fun haf => ⟨haf, by simp⟩⟩
  | cons q rest ih =>
    intro rs ga tr stv gr af rs' ga' tr' stv' gr' af' h
    simp only [p2_all] at h
    split at h
    · exact Except.noConfusion h
    · rename_i rs2 ga2 tr2 stv2 gr2 fr2 heq
      obtain ⟨g, -, hga2, hfresh⟩ := p2_step_gates sqrtf cb numQubit json_long
        target_coordinates FP SO S2 q rs ga tr stv gr rs2 ga2 tr2 stv2 gr2 fr2 heq
      obtain ⟨recs, hlen, hga', haf⟩ := ih rs2 ga2 tr2 stv2 gr2 (af && fr2)
        rs' ga' tr' stv' gr' af' h
      refine ⟨g :: recs, by simp [hlen], ?_, ?_⟩
      · rw [hga', hga2]
        simp [List.append_assoc]
      · intro haf'
        obtain ⟨hand, hall⟩ := haf haf'
        obtain ⟨haf0, hfr2⟩ := Bool.and_eq_true_iff.mp hand
        refine ⟨haf0, ?_⟩
        intro p hp
        rcases List.mem_cons.mp hp with hp | hp
        · subst hp
          exact hfresh hfr2
        · exact hall p hp

theorem flatMap_triple_length {α β : Type _} (f g h3 : α → β) (l : List α) :
    (l.flatMap (fun p => [f p, g p, h3 p])).length = 3 * l.length := by
  induction l with
  | nil => simp
  | cons a rest ih =>
    rw [List.flatMap_cons, List.length_append, ih, List.length_cons]
    simp only [List.length_cons, List.length_nil]
    omega

/-- C10 (amended): shape of the returned gate list.  A run that
completes normally returns a gate list of exactly
`3 x (order steps) + (qubit count)` records: three per phase-1 order
step — the two best-pair records followed by the hard-coded
`(cnot, step's anchor qubit)` record, whose qubit is always the
current step's — then one record per qubit from phase 2, in
increasing qubit order.  The claim's stronger reading, that the two
pair records and each phase-2 record always name the current step's
qubits and a current-table label, holds exactly when the
freshness flag is set (every step's commit came from its own
candidates); a stale commit instead repeats an earlier step's record,
as the counterexample shows. -/
theorem mainCalc_gate_list_structure (sqrtf : ℚ → ℚ) (cb : Nat → ℚ → Bool)
    (json_long json_short : List GE) (initialize_state : List CC)
    (target_coordinates : List Coord3) (target_radius : List ℚ) (ga : List GA)
    (rs : List CC) (tr : List ℚ) (af : Bool) (sd : List (Nat × ℚ))
    (h : mainCalc sqrtf cb json_long json_short initialize_state target_coordinates
      target_radius = (.ok ga rs, tr, af))
    (hjudge : radius_judge target_coordinates.length target_radius =
      JudgeResult.order sd) :
    ∃ tri : List (GA × GA), ∃ recs : List GA,
      tri.length = (if sd.length ≠ 0 then add_order sd else []).length ∧
      recs.length = target_coordinates.length ∧
      ga = (tri.zip (if sd.length ≠ 0 then add_order sd else [])).flatMap
          (fun p => [p.1.1, p.1.2, (cnotLabel, p.2.2.1)]) ++ recs ∧
      ga.length = 3 * (if sd.length ≠ 0 then add_order sd else []).length +
        target_coordinates.length ∧
      (af = true →
        (∀ p ∈ tri.zip (if sd.length ≠ 0 then add_order sd else []),
          ∃ d1 ∈ json_short, ∃ d2 ∈ json_short,
            p.1.1 = (d1.1, p.2.1.1) ∧ p.1.2 = (d2.1, p.2.2.1)) ∧
        (∀ p ∈ recs.zip (List.range target_coordinates.length),
          ∃ data ∈ json_long, p.1 = (data.1, p.2))) := by
  simp only [mainCalc] at h
  split at h
  · rename_i c d mr heq
    rw [heq] at hjudge
    exact JudgeResult.noConfusion hjudge
  · rename_i sorted_data heq
    rw [heq] at hjudge
    have hsd : sorted_data = sd := JudgeResult.order.inj hjudge
    subst hsd
    split at h
    · rename_i hlen
      split at h
      · simp only [Prod.mk.injEq] at h
        exact MCRes.noConfusion h.1
      · split at h
        · simp only [Prod.mk.injEq] at h
          exact MCRes.noConfusion h.1
        · simp only [Prod.mk.injEq] at h
          exact MCRes.noConfusion h.1
        · rename_i rs1 ga1 tr1 stv1 g11 g21 af1 heq1
          split at h
          · simp only [Prod.mk.injEq] at h
            exact MCRes.noConfusion h.1
          · simp only [Prod.mk.injEq] at h
            exact MCRes.noConfusion h.1
          · rename_i rs2 ga2 tr2 stv2 gr2 af2 heq2
            simp only [Prod.mk.injEq, MCRes.ok.injEq] at h
            obtain ⟨⟨hga, hrs⟩, htr, haf⟩ := h
            subst hga htr haf
            obtain ⟨tri, hlen1, hga1, hfr1⟩ := p1_all_gates sqrtf cb _ json_short _ _ _
              (add_order sorted_data) 0 initialize_state [] [] none none none true
              rs1 ga1 tr1 stv1 g11 g21 af1 heq1
            obtain ⟨recs, hlen2, hga2e, hfr2⟩ := p2_all_gates sqrtf cb _ json_long
              target_coordinates _ _ _ (List.range _) rs1 ga1 tr1 stv1 none af1
              rs2 ga2 tr2 stv2 gr2 af2 heq2
            rw [if_pos hlen]
            have hz : (tri.zip (add_order sorted_data)).length = ((add_order sorted_data) : List Order2).length := by
              rw [List.length_zip, hlen1, Nat.min_self]
            refine ⟨tri, recs, hlen1, by simpa using hlen2, ?_, ?_, ?_⟩
            · rw [hga2e, hga1]
              simp
            · rw [hga2e, hga1, List.nil_append, List.length_append,
                flatMap_triple_length, hz, hlen2, List.length_range]
            · intro haf2
              exact ⟨(hfr1 (hfr2 haf2).1).2, (hfr2 haf2).2⟩
    · rename_i hlen
      split at h
      · simp only [Prod.mk.injEq] at h
        exact MCRes.noConfusion h.1
      · split at h
        · simp only [Prod.mk.injEq] at h
          exact MCRes.noConfusion h.1
        · simp only [Prod.mk.injEq] at h
          exact MCRes.noConfusion h.1
        · rename_i rs1 ga1 tr1 stv1 g11 g21 af1 heq1
          split at h
          · simp only [Prod.mk.injEq] at h
            exact MCRes.noConfusion h.1
          · simp only [Prod.mk.injEq] at h
            exact MCRes.noConfusion h.1
          · rename_i rs2 ga2 tr2 stv2 gr2 af2 heq2
            simp only [Prod.mk.injEq, MCRes.ok.injEq] at h
            obtain ⟨⟨hga, hrs⟩, htr, haf⟩ := h
            subst hga htr haf
            obtain ⟨tri, hlen1, hga1, hfr1⟩ := p1_all_gates sqrtf cb _ json_short _ _ _
              ([] : List Order2) 0 initialize_state [] [] none none none true
              rs1 ga1 tr1 stv1 g11 g21 af1 heq1
            obtain ⟨recs, hlen2, hga2e, hfr2⟩ := p2_all_gates sqrtf cb _ json_long
              target_coordinates _ _ _ (List.range _) rs1 ga1 tr1 stv1 none af1
              rs2 ga2 tr2 stv2 gr2 af2 heq2
            rw [if_neg hlen]
            have hz : (tri.zip ([] : List Order2)).length = (([] : List Order2) : List Order2).length := by
              rw [List.length_zip, hlen1, Nat.min_self]
            refine ⟨tri, recs, hlen1, by simpa using hlen2, ?_, ?_, ?_⟩
            · rw [hga2e, hga1]
              simp
            · rw [hga2e, hga1, List.nil_append, List.length_append,
                flatMap_triple_length, hz, hlen2, List.length_range]
            · intro haf2
              exact ⟨(hfr1 (hfr2 haf2).1).2, (hfr2 haf2).2⟩

/-- C10 counterexample: in the stale run of two qubits with no order
steps, the claim requires the phase-2 record for qubit 1 (gate-list
position 1) to name qubit 1; the run instead records `(x, 0)` there —
the qubit-0 record repeated — although the total record count
`3*0 + 2` is as claimed. -/
theorem mainCalc_gate_list_c10_counterexample :
    mainCalc (fun q => if q = 4 then 2 else 0) (fun _ _ => true)
      [(["x"], X)] [] [1, 0, 0, 0] [(0, 0, -1), (0, 0, 1)] [1, 1] =
      (.ok [(["x"], 0), (["x"], 0)] [0, 0, ⟨1, 0⟩, 0], [0, 50], false) ∧
    radius_judge 2 [1, 1] = JudgeResult.order [] ∧
    (([((["x"], 0) : GA), (["x"], 0)].getD 1 default).2 : Nat) = 0 := by
  refine ⟨?_, ?_, ?_⟩ <;> with_unfolding_all decide

theorem mainCalc_gate_list_structure_witness :
    ∃ tri : List (GA × GA), ∃ recs : List GA,
      tri.length =
        (if ([] : List (Nat × ℚ)).length ≠ 0 then add_order [] else []).length ∧
      recs.length = ([(0, 0, -1)] : List Coord3).length ∧
      ([((["x"], 0) : GA)] : List GA) =
        (tri.zip (if ([] : List (Nat × ℚ)).length ≠ 0 then add_order [] else
          [])).flatMap (fun p => [p.1.1, p.1.2, (cnotLabel, p.2.2.1)]) ++ recs ∧
      ([((["x"], 0) : GA)] : List GA).length =
        3 * (if ([] : List (Nat × ℚ)).length ≠ 0 then add_order [] else []).length +
        ([(0, 0, -1)] : List Coord3).length ∧
      (true = true →
        (∀ p ∈ tri.zip (if ([] : List (Nat × ℚ)).length ≠ 0 then add_order [] else []),
          ∃ d1 ∈ ([] : List GE), ∃ d2 ∈ ([] : List GE),
            p.1.1 = (d1.1, p.2.1.1) ∧ p.1.2 = (d2.1, p.2.2.1)) ∧
        (∀ p ∈ recs.zip (List.range ([(0, 0, -1)] : List Coord3).length),
          ∃ data ∈ [((["x"], X) : GE)], p.1 = (data.1, p.2))) :=
  mainCalc_gate_list_structure (fun q => if q = 4 then 2 else 0) (fun _ _ => true)
    [(["x"], X)] [] [1, 0] [(0, 0, -1)] [1] [(["x"], 0)] [0, 1] [0] true []
    (by with_unfolding_all decide) (by with_unfolding_all decide)
